import Mathlib

/-!
# setdb: the set type over an ordered key-value store (`set.go`)

A shallow embedding of `set.go` and a verification of its specification.

* Bytes are `Fin 256`; byte strings (`[]byte`) are lists of bytes.
* `uint32` values are natural numbers, reduced modulo `2^32` wherever the Go
  code can overflow.
* The LevelDB handle `DB` is a finite map from keys to values together with the
  set of keys whose read fails; its iterator walks the keys in ascending
  bytewise order (LevelDB's default comparator).
* A `levigo.WriteBatch` is the list of staged operations, in staging order; the
  caller commits it with `DB.Write`.
* The constants `SetKey`, `SetCardValue` and the function `metaKey` are declared
  outside `set.go`; they are the fields of `Env`, over which every definition
  is parametric.
* `Env.maxCap` is the largest reply slice that the Go runtime can allocate:
  `Smembers` reserves as many reply slots as the cardinality record says before
  it scans, and does not return when the runtime cannot serve that.
-/

namespace SetDB

/-! ## Bytes and the store's key order -/

abbrev Byte := Fin 256

abbrev Bytes := List Byte

/-- Go's conversion `byte(v)` of an unsigned integer: the low eight bits. -/
def byte (v : Nat) : Byte := ⟨v % 256, Nat.mod_lt _ (by decide)⟩

/-- Go's conversion `uint32(n)` of a non-negative `int`. -/
def uint32 (n : Nat) : Nat := n % 2 ^ 32

/-- Strict bytewise order of keys: LevelDB's default comparator (compare byte by
byte, a proper prefix sorts first). -/
def bytesLt : Bytes → Bytes → Bool
  | [], [] => false
  | [], _ :: _ => true
  | _ :: _, [] => false
  | a :: as, b :: bs => decide (a < b) || (decide (a = b) && bytesLt as bs)

/-! ## Constants and collaborators declared outside `set.go` -/

/-- The tag constants and the metadata-key function, all defined outside `set.go`, and the
limit of the Go runtime that runs it. -/
structure Env where
  /-- Tag byte of member-entry keys (`SetKey`). -/
  SetKey : Byte
  /-- Tag byte of a cardinality record's value (`SetCardValue`). -/
  SetCardValue : Byte
  /-- Location of the metadata record of an owner key (`metaKey`). -/
  metaKey : Bytes → Bytes
  /-- The largest capacity for which the runtime serves `make([]cmdReply, 0, cap)`: what the
  memory of the machine holds, below `2^31` where `int` has 32 bits. -/
  maxCap : Nat

/-- Modelled from the spec: `pastKey` is defined outside `set.go`; it is the scan
termination test, true once `key` no longer begins with `pfx`. -/
def pastKey (pfx key : Bytes) : Bool := !(pfx.isPrefixOf key)

/-- The errors a command can return. `DatabaseError` is a failed store read. -/
inductive Error where
  | DatabaseError
  | InvalidKeyTypeError
  | InvalidDataError
  deriving DecidableEq, Repr

/-- A `cmdReply`: the dynamically typed value a command hands back. -/
inductive Reply where
  | nil
  | err (e : Error)
  | uint32 (n : Nat)
  | int (n : Int)
  | bytes (b : Bytes)
  | array (rs : List Bytes)
  deriving DecidableEq, Repr

/-- Result of running Go code that can hit a run-time panic (a slice expression
out of range) or the fatal error of an allocation that the runtime cannot serve; `panic`
stands for both: the call does not return. -/
inductive Run (α : Type) where
  | ok (a : α)
  | panic
  deriving DecidableEq, Repr

/-! ## The store -/

/-- A staged write. -/
inductive Op where
  | put (key value : Bytes)
  | delete (key : Bytes)
  deriving DecidableEq, Repr

/-- A `levigo.WriteBatch`: the staged writes, oldest first. -/
abbrev WriteBatch := List Op

/-- Model of `wb.Put(key, value)`. -/
def WriteBatch.Put (wb : WriteBatch) (key value : Bytes) : WriteBatch := wb ++ [Op.put key value]

/-- Model of `wb.Delete(key)`. -/
def WriteBatch.Delete (wb : WriteBatch) (key : Bytes) : WriteBatch := wb ++ [Op.delete key]

/-- The store: an association list (the first binding of a key is the live one)
and the keys whose read fails with an I/O error. -/
structure DB where
  entries : List (Bytes × Bytes)
  readFails : Bytes → Bool

/-- The live binding of `key` in an association list. -/
def lookup (key : Bytes) : List (Bytes × Bytes) → Option Bytes
  | [] => none
  | (k, v) :: rest => if k = key then some v else lookup key rest

/-- Model of `DB.Get(opts, key)`: the value (`none` for Go's `nil`, key absent) and the error. -/
def DB.Get (db : DB) (key : Bytes) : Option Bytes × Option Error :=
  if db.readFails key then (none, some Error.DatabaseError) else (lookup key db.entries, none)

/-- Effect of one committed write on the store. -/
def DB.apply (db : DB) : Op → DB
  | Op.put key value => { db with entries := (key, value) :: db.entries }
  | Op.delete key => { db with entries := db.entries.filter (fun e => decide (e.1 ≠ key)) }

/-- Model of `DB.Write(wo, wb)`: the caller's commit of a batch, applying the staged writes in
order. -/
def DB.Write (db : DB) (wb : WriteBatch) : DB := wb.foldl DB.apply db

/-- Insert a key into an ascending duplicate-free key list. -/
def insertKey (k : Bytes) : List Bytes → List Bytes
  | [] => [k]
  | x :: xs =>
    if bytesLt k x then k :: x :: xs
    else if k = x then x :: xs
    else x :: insertKey k xs

/-- The keys of the store in the order an iterator visits them: ascending, each once. -/
def DB.keys (db : DB) : List Bytes := db.entries.foldr (fun e acc => insertKey e.1 acc) []

/-- A LevelDB iterator over a fixed view of the store: the keys before the
cursor (nearest first) and the keys from the cursor on. It is valid when the
second list is non-empty, and then its head is the current key. -/
structure Iterator where
  before : List Bytes
  after : List Bytes
  deriving DecidableEq, Repr

/-- Model of `DB.NewIterator(opts)`: a fresh iterator is not positioned (not valid). -/
def DB.NewIterator (db : DB) : Iterator := { before := db.keys.reverse, after := [] }

/-- Model of `it.Seek(target)`: position at the first key that is not below `target`. -/
def Iterator.Seek (it : Iterator) (target : Bytes) : Iterator :=
  let all := it.before.reverse ++ it.after
  { before := (all.takeWhile (fun k => bytesLt k target)).reverse,
    after := all.dropWhile (fun k => bytesLt k target) }

/-- Model of `it.Valid()`. -/
def Iterator.Valid (it : Iterator) : Bool := !it.after.isEmpty

/-- Model of `it.Key()`: the current key; `nil` (the empty byte string) when the iterator
is not valid. -/
def Iterator.Key (it : Iterator) : Bytes := it.after.headD []

/-- Model of `it.Next()`. -/
def Iterator.Next (it : Iterator) : Iterator :=
  match it.after with
  | [] => it
  | k :: rest => { before := k :: it.before, after := rest }

/-- Model of `it.Prev()` on a valid iterator: step back one key; stepping back from the
first key leaves the iterator not valid. -/
def Iterator.Prev (it : Iterator) : Iterator :=
  match it.before with
  | [] => { before := [], after := [] }
  | k :: rest => { before := rest, after := k :: it.after }

/-! ## Buffers and `encoding/binary` -/

/-- Model of `make([]byte, n)`: a zeroed buffer. -/
def make (n : Nat) : Bytes := List.replicate n 0

/-- Model of `copy(dst[off:], src)`: overwrite `dst` from offset `off` with as much of `src` as
fits. -/
def copy (dst : Bytes) (off : Nat) (src : Bytes) : Bytes :=
  let n := min (dst.length - off) src.length
  dst.take off ++ src.take n ++ dst.drop (off + n)

/-- Model of `binary.BigEndian.PutUint32(b[off:], v)`: four single-byte stores. -/
def PutUint32 (b : Bytes) (off : Nat) (v : Nat) : Bytes :=
  (((b.set off (byte (v >>> 24))).set (off + 1) (byte (v >>> 16))).set (off + 2)
    (byte (v >>> 8))).set (off + 3) (byte v)

/-- Model of `binary.BigEndian.Uint32(b)`; Go requires `len(b) >= 4`. -/
def Uint32 (b : Bytes) (h : 4 ≤ b.length) : Nat :=
  (b[3]).val ||| (b[2]).val <<< 8 ||| (b[1]).val <<< 16 ||| (b[0]).val <<< 24

/-! ## Key codec (`set.go`, lines 200-230) -/

def setKey (E : Env) (k member : Bytes) : Bytes :=
  let key := make (5 + k.length + member.length)
  let key := key.set 0 E.SetKey
  let key := PutUint32 key 1 (uint32 k.length)
  let key := copy key 5 k
  let key := copy key (5 + k.length) member
  key

def setIterKey (E : Env) (k : Bytes) : Bytes :=
  let key := make (5 + k.length)
  let key := key.set 0 E.SetKey
  let key := PutUint32 key 1 (uint32 k.length)
  let key := copy key 5 k
  key

/-- Model of `randSetIterKey`; `rnd` is the byte that `rand.Reader.Read` delivers. -/
def randSetIterKey (E : Env) (k : Bytes) (rnd : Byte) : Bytes :=
  let key := make (6 + k.length)
  let key := key.set 0 E.SetKey
  let key := PutUint32 key 1 (uint32 k.length)
  let key := copy key 5 k
  let key := copy key (5 + k.length) [rnd]
  key

/-- Model of `parseMemberFromSetKey`; `none` is the run-time panic of a slice expression
out of range (`key[1:]` with its four byte reads, `key[5+int(keyLen):]`). -/
def parseMemberFromSetKey (key : Bytes) : Option Bytes :=
  if h : 5 ≤ key.length then
    let keyLen := Uint32 (key.drop 1) (by rw [List.length_drop]; omega)
    if 5 + keyLen ≤ key.length then some (key.drop (5 + keyLen)) else none
  else none

/-! ## Cardinality record (`set.go`, lines 152-198) -/

/-- Model of `scard(key, opts)`; `db` is the view that `opts` selects (the live store or a
snapshot). -/
def scard (E : Env) (db : DB) (key : Bytes) : Nat × Option Error :=
  match db.Get (E.metaKey key) with
  | (_, some err) => (0, some err)
  | (none, none) => (0, none)
  | (some res, none) =>
    if res.length > 0 ∧ res.head? ≠ some E.SetCardValue then (0, some Error.InvalidKeyTypeError)
    else if h : res.length < 5 then (0, some Error.InvalidDataError)
    else (Uint32 (res.drop 1) (by rw [List.length_drop]; omega), none)

def setCard (E : Env) (key : Bytes) (card : Nat) (wb : WriteBatch) : WriteBatch :=
  let data := make 5
  let data := data.set 0 E.SetCardValue
  let data := PutUint32 data 1 card
  wb.Put (E.metaKey key) data

/-! ## Commands (`set.go`, lines 10-191)

`args[0]` is the parameter `key` and `args[1:]` the parameter `members`. Every
command reads the live store `db`; none commits the batch. -/

/-- The `for _, member := range args[1:]` loop of `Sadd`, with `newMembers` and
the batch as loop state; the first component is the error of an early return. -/
def Sadd.loop (E : Env) (db : DB) (key : Bytes) :
    List Bytes → Nat → WriteBatch → Option Error × Nat × WriteBatch
  | [], newMembers, wb => (none, newMembers, wb)
  | member :: rest, newMembers, wb =>
    let k := setKey E key member
    match db.Get k with
    | (_, some err) => (some err, newMembers, wb)
    | (some _, none) => Sadd.loop E db key rest newMembers wb
    | (none, none) => Sadd.loop E db key rest ((newMembers + 1) % 2 ^ 32) (wb.Put k [])

def Sadd (E : Env) (db : DB) (key : Bytes) (members : List Bytes) (wb : WriteBatch) :
    Reply × WriteBatch :=
  match Sadd.loop E db key members 0 wb with
  | (some err, _, wb) => (Reply.err err, wb)
  | (none, newMembers, wb) =>
    if newMembers > 0 then
      match scard E db key with
      | (_, some err) => (Reply.err err, wb)
      | (card, none) => (Reply.uint32 newMembers, setCard E key ((card + newMembers) % 2 ^ 32) wb)
    else (Reply.uint32 newMembers, wb)

def Scard (E : Env) (db : DB) (key : Bytes) : Reply :=
  match scard E db key with
  | (_, some err) => Reply.err err
  | (card, none) => Reply.uint32 card

/-- The `for _, member := range args[1:]` loop of `Srem`, with `deleted` and the
batch as loop state; the first component is the error of an early return. -/
def Srem.loop (E : Env) (db : DB) (key : Bytes) :
    List Bytes → Nat → WriteBatch → Option Error × Nat × WriteBatch
  | [], deleted, wb => (none, deleted, wb)
  | member :: rest, deleted, wb =>
    let k := setKey E key member
    match db.Get k with
    | (_, some err) => (some err, deleted, wb)
    | (none, none) => Srem.loop E db key rest deleted wb
    | (some _, none) => Srem.loop E db key rest ((deleted + 1) % 2 ^ 32) (wb.Delete k)

def Srem (E : Env) (db : DB) (key : Bytes) (members : List Bytes) (wb : WriteBatch) :
    Reply × WriteBatch :=
  match scard E db key with
  | (_, some err) => (Reply.err err, wb)
  | (card, none) =>
    if card = 0 then (Reply.uint32 card, wb)
    else
      match Srem.loop E db key members 0 wb with
      | (some err, _, wb) => (Reply.err err, wb)
      | (none, deleted, wb) =>
        if deleted = card then (Reply.uint32 deleted, wb.Delete (E.metaKey key))
        else if deleted > 0 then
          (Reply.uint32 deleted, setCard E key ((card + 2 ^ 32 - deleted) % 2 ^ 32) wb)
        else (Reply.uint32 deleted, wb)

def Sismember (E : Env) (db : DB) (key member : Bytes) : Reply :=
  match db.Get (setKey E key member) with
  | (_, some err) => Reply.err err
  | (none, none) => Reply.int 0
  | (some _, none) => Reply.int 1

/-- The scan loop of `Smembers`, `for it.Seek(iterKey); it.Valid(); it.Next()`,
run over the keys from the cursor on (`it.after`): the loop ends when they are
used up (`!it.Valid()`) or at the `break`. -/
def Smembers.loop (iterKey : Bytes) : List Bytes → List Bytes → Run (List Bytes)
  | [], members => Run.ok members
  | key :: rest, members =>
    if pastKey iterKey key then Run.ok members
    else
      match parseMemberFromSetKey key with
      | none => Run.panic
      | some member => Smembers.loop iterKey rest (members ++ [member])

/-- Model of `make([]cmdReply, 0, cap)`: the empty reply slice with room for `cap` replies;
the call does not return when the runtime cannot allocate that many. -/
def makeReplies (E : Env) (cap : Nat) : Run (List Bytes) :=
  if cap ≤ E.maxCap then Run.ok [] else Run.panic

/-- Model of `Smembers`; the snapshot it opens is the store `db` at the time of the call,
read by both `scard` and the iterator. -/
def Smembers (E : Env) (db : DB) (key : Bytes) : Run Reply :=
  let snapshot := db
  match scard E snapshot key with
  | (_, some err) => Run.ok (Reply.err err)
  | (card, none) =>
    if card = 0 then Run.ok (Reply.array [])
    else
      match makeReplies E card with
      | Run.panic => Run.panic
      | Run.ok members =>
        let it := snapshot.NewIterator
        let iterKey := setIterKey E key
        match Smembers.loop iterKey (it.Seek iterKey).after members with
        | Run.panic => Run.panic
        | Run.ok members => Run.ok (Reply.array members)

/-- Model of `srand`; `rnd` is the random byte drawn by `randSetIterKey`. The result
`none` is Go's `nil`. -/
def srand (E : Env) (db : DB) (rnd : Byte) (key : Bytes) : Run (Option Bytes) :=
  let it := db.NewIterator
  let iterKey := randSetIterKey E key rnd
  let it := it.Seek iterKey
  if !it.Valid then Run.ok none
  else
    let k := it.Key
    if pastKey (iterKey.take (iterKey.length - 1)) k then
      let it := it.Prev
      let k := it.Key
      if pastKey (iterKey.take (iterKey.length - 1)) k then Run.ok none
      else
        match parseMemberFromSetKey k with
        | none => Run.panic
        | some member => Run.ok (some member)
    else
      match parseMemberFromSetKey k with
      | none => Run.panic
      | some member => Run.ok (some member)

def Spop (E : Env) (db : DB) (rnd : Byte) (key : Bytes) (wb : WriteBatch) :
    Run (Reply × WriteBatch) :=
  match scard E db key with
  | (_, some err) => Run.ok (Reply.err err, wb)
  | (card, none) =>
    if card = 0 then Run.ok (Reply.nil, wb)
    else
      match srand E db rnd key with
      | Run.panic => Run.panic
      | Run.ok none => Run.ok (Reply.nil, wb)
      | Run.ok (some member) =>
        let wb := wb.Delete (setKey E key member)
        if card = 1 then Run.ok (Reply.bytes member, wb.Delete (E.metaKey key))
        else Run.ok (Reply.bytes member, setCard E key ((card + 2 ^ 32 - 1) % 2 ^ 32) wb)

/-- The scan loop of `DelSet`, over the keys from the cursor on. -/
def DelSet.loop (iterKey : Bytes) : List Bytes → WriteBatch → WriteBatch
  | [], wb => wb
  | key :: rest, wb =>
    if pastKey iterKey key then wb
    else DelSet.loop iterKey rest (wb.Delete key)

def DelSet (E : Env) (db : DB) (key : Bytes) (wb : WriteBatch) : WriteBatch :=
  let it := db.NewIterator
  let iterKey := setIterKey E key
  DelSet.loop iterKey (it.Seek iterKey).after wb

/-! ## Examples -/

/-- An example instance of the outside constants, used for concrete evaluations (`set.go`
does not fix the values): metadata keys are the owner key behind tag `0`, member entries
carry tag `4`, cardinality values tag `10`. -/
def demoEnv : Env :=
  { SetKey := 4, SetCardValue := 10, metaKey := fun k => 0 :: k, maxCap := 2 ^ 28 }

/-- The store without records, all of whose reads succeed. -/
def emptyDB : DB := { entries := [], readFails := fun _ => false }

/-! ## Specification vocabulary -/

/-- Big-endian encoding of a 32-bit unsigned value: the most significant byte first. -/
def be32 (v : Nat) : Bytes := [byte (v >>> 24), byte (v >>> 16), byte (v >>> 8), byte v]

/-- Ascending key lists: every key is below all later ones. -/
def Ascending (l : List Bytes) : Prop := l.Pairwise (fun a b => bytesLt a b = true)

/-- The last staged write to `k` in a batch: `none` if the batch leaves `k` alone, else the
value it leaves (`none` for a delete). -/
def effect (k : Bytes) : WriteBatch → Option (Option Bytes)
  | [] => none
  | Op.put key value :: rest =>
    match effect k rest with
    | some r => some r
    | none => if key = k then some (some value) else none
  | Op.delete key :: rest =>
    match effect k rest with
    | some r => some r
    | none => if key = k then some none else none

/-- The keys of the store that begin with the iteration key of `o`, in iteration order. -/
def ownerKeys (E : Env) (db : DB) (o : Bytes) : List Bytes :=
  db.keys.filter (fun k => (setIterKey E o).isPrefixOf k)

/-- The members of the set of `o`: the `m` whose member entry is a key of the store. -/
def members (E : Env) (db : DB) (o : Bytes) : Set Bytes := {m | setKey E o m ∈ db.keys}

/-- The members of the set of `o` in the order of their entries. -/
def memberList (E : Env) (db : DB) (o : Bytes) : List Bytes :=
  (ownerKeys E db o).map (fun k => k.drop (5 + o.length))

/-- An owner key of `2^32` zero bytes: its length does not fit the 32-bit length field. -/
def longOwner : Bytes := List.replicate (2 ^ 32) 0

/-- A consistent store that holds the one-member set `{""}` of `o`. -/
def singletonEmptyDB (o : Bytes) : DB :=
  { entries := [(demoEnv.metaKey o, [10, 0, 0, 0, 1]), (setKey demoEnv o [], [])],
    readFails := fun _ => false }

/-- The listed members without an entry in the store, in list order. -/
def absent (E : Env) (db : DB) (o : Bytes) (ms : List Bytes) : List Bytes :=
  ms.filter (fun m => (lookup (setKey E o m) db.entries).isNone)

/-- The listed members with an entry in the store, in list order. -/
def present (E : Env) (db : DB) (o : Bytes) (ms : List Bytes) : List Bytes :=
  ms.filter (fun m => (lookup (setKey E o m) db.entries).isSome)

/-- The value of a cardinality record: the tag, then the big-endian cardinality. -/
def cardRecord (E : Env) (c : Nat) : Bytes := E.SetCardValue :: be32 c

/-- The staged `Put` of the (empty-valued) member entry of each listed member. -/
def putEntries (E : Env) (o : Bytes) (ms : List Bytes) : WriteBatch :=
  ms.map (fun m => Op.put (setKey E o m) [])

/-- The staged `Delete` of the member entry of each listed member. -/
def deleteEntries (E : Env) (o : Bytes) (ms : List Bytes) : WriteBatch :=
  ms.map (fun m => Op.delete (setKey E o m))

/-- Every read of the store succeeds. -/
def ReadsSucceed (db : DB) : Prop := ∀ k, db.readFails k = false

/-- The metadata key of `o` is not a member-entry key of `o`. -/
def MetaDisjoint (E : Env) (o : Bytes) : Prop := ∀ m, E.metaKey o ≠ setKey E o m

/-- A mutating call on one owner: `Sadd` and `Srem` with their member list, `Spop` with the
random byte it draws. -/
inductive Call where
  | sadd (members : List Bytes)
  | srem (members : List Bytes)
  | spop (rnd : Byte)

/-- Run one call on an empty batch and commit what it staged. -/
def step (E : Env) (o : Bytes) (db : DB) : Call → Run DB
  | Call.sadd ms => Run.ok (db.Write (Sadd E db o ms []).2)
  | Call.srem ms => Run.ok (db.Write (Srem E db o ms []).2)
  | Call.spop rnd =>
    match Spop E db rnd o [] with
    | Run.panic => Run.panic
    | Run.ok (_, wb) => Run.ok (db.Write wb)

/-- Run a sequence of calls, committing each call's batch before the next call. -/
def run (E : Env) (o : Bytes) : DB → List Call → Run DB
  | db, [] => Run.ok db
  | db, call :: rest =>
    match step E o db call with
    | Run.panic => Run.panic
    | Run.ok db2 => run E o db2 rest

/-- The member list of a call names no member twice. -/
def Call.DupFree : Call → Prop
  | Call.sadd ms => ms.Nodup
  | Call.srem ms => ms.Nodup
  | Call.spop _ => True

/-- The number of members a call can add. -/
def Call.adds : Call → Nat
  | Call.sadd ms => ms.length
  | _ => 0

/-- The number of members a sequence of calls can add. -/
def totalAdds (calls : List Call) : Nat := (calls.map Call.adds).sum

/-- The owner key `"fruits"`. -/
def fruits : Bytes := [102, 114, 117, 105, 116, 115]

/-- The member `"apple"`. -/
def apple : Bytes := [97, 112, 112, 108, 101]

/-- The consistent store that holds the set `fruits = {"apple"}` and nothing else. -/
def fruitsDB : DB :=
  { entries := [(demoEnv.metaKey fruits, cardRecord demoEnv 1), (setKey demoEnv fruits apple, [])],
    readFails := fun _ => false }

/-- A store that holds the set `{[2], [3]}` of owner `[1]` and whose read of the entry of `[3]`
fails. -/
def failingDB : DB :=
  { entries := [(demoEnv.metaKey [1], cardRecord demoEnv 2), (setKey demoEnv [1] [2], []),
      (setKey demoEnv [1] [3], [])],
    readFails := fun k => decide (k = setKey demoEnv [1] [3]) }

/-- A store that holds one record: the member entry of member `m` in the set of the empty
owner key. -/
def emptyOwnerDB (m : Bytes) : DB :=
  { entries := [(setKey demoEnv [] m, [])], readFails := fun _ => false }

/-- Consistency of a store for owner `o`: either it has no record at the metadata key and no
member entry of `o`, or the cardinality record decodes to some `n ≥ 1` and `o` has exactly `n`
member entries. -/
def Consistent (E : Env) (db : DB) (o : Bytes) : Prop :=
  (lookup (E.metaKey o) db.entries = none ∧ ∀ m, setKey E o m ∉ db.keys) ∨
  (∃ n, 1 ≤ n ∧ scard E db o = (n, none) ∧ (members E db o).ncard = n)

/-- A consistent store that holds the one-member set `{[1]}` of `o`. -/
def singletonOneDB (o : Bytes) : DB :=
  { entries := [(demoEnv.metaKey o, cardRecord demoEnv 1), (setKey demoEnv o [1], [])],
    readFails := fun _ => false }

/-- The key a staged write addresses. -/
def Op.key : Op → Bytes
  | Op.put key _ => key
  | Op.delete key => key

/-- Every write of the batch addresses a member entry of `o` or the metadata key of `o`. -/
def WritesOnly (E : Env) (o : Bytes) (wb : WriteBatch) : Prop :=
  ∀ op ∈ wb, (∃ m, op.key = setKey E o m) ∨ op.key = E.metaKey o

/-- The owner key `"herbs"`. -/
def herbs : Bytes := [104, 101, 114, 98, 115]

/-- The consistent store that holds the sets `fruits = {"apple"}` and `herbs = {[1]}`. -/
def gardenDB : DB :=
  { entries := [(demoEnv.metaKey fruits, cardRecord demoEnv 1), (setKey demoEnv fruits apple, []),
      (demoEnv.metaKey herbs, cardRecord demoEnv 1), (setKey demoEnv herbs [1], [])],
    readFails := fun _ => false }

/-- The member `"pear"`. -/
def pear : Bytes := [112, 101, 97, 114]

/-- The consistent store that holds the sets `fruits = {"pear", "apple"}` and
`herbs = {[1]}`. -/
def orchardDB : DB :=
  { entries := [(setKey demoEnv fruits pear, []), (demoEnv.metaKey herbs, cardRecord demoEnv 1),
      (demoEnv.metaKey fruits, cardRecord demoEnv 2), (setKey demoEnv herbs [1], []),
      (setKey demoEnv fruits apple, [])],
    readFails := fun _ => false }

/-- A store whose cardinality record of owner `[1]` decodes to `2^32 - 1` while the set holds
the one member `[2]`. -/
def hugeRecordDB : DB :=
  { entries := [(demoEnv.metaKey [1], [10, 255, 255, 255, 255]), (setKey demoEnv [1] [2], [])],
    readFails := fun _ => false }

/-! ## Buffer layout and the big-endian codec -/

theorem make_add_five (n : Nat) : make (5 + n) = 0 :: 0 :: 0 :: 0 :: 0 :: make n := by
  rw [Nat.add_comm]; rfl

theorem copy_full (hd src tl : Bytes) (h : src.length ≤ tl.length) :
    copy (hd ++ tl) hd.length src = hd ++ src ++ tl.drop src.length := by
  have hn : min ((hd ++ tl).length - hd.length) src.length = src.length := by
    rw [List.length_append, Nat.add_sub_cancel_left]; exact Nat.min_eq_right h
  unfold copy
  rw [hn]
  dsimp only
  rw [List.take_left', List.take_length, List.drop_append]
  rfl

theorem setIterKey_eq (E : Env) (k : Bytes) :
    setIterKey E k = E.SetKey :: be32 (uint32 k.length) ++ k := by
  have h := copy_full (E.SetKey :: be32 (uint32 k.length)) k (make k.length) (by simp [make])
  simp only [setIterKey, make_add_five, PutUint32, List.set_cons_zero, List.set_cons_succ, be32]
  simpa [make, be32] using h

theorem setKey_eq (E : Env) (k member : Bytes) :
    setKey E k member = setIterKey E k ++ member := by
  have h1 := copy_full (E.SetKey :: be32 (uint32 k.length)) k (make (k.length + member.length))
    (by simp [make])
  have h2 := copy_full (E.SetKey :: be32 (uint32 k.length) ++ k) member (make member.length)
    (by simp [make])
  rw [setIterKey_eq]
  simp only [setKey, Nat.add_assoc, make_add_five, PutUint32, List.set_cons_zero,
    List.set_cons_succ]
  simp only [be32, make, List.length_cons, List.length_nil, List.cons_append, List.nil_append,
    List.length_append, List.drop_replicate, Nat.add_sub_cancel_left, Nat.sub_self,
    List.replicate_zero, List.append_nil, List.length_replicate] at h1 h2 ⊢
  rw [show k.length + (0 + 1 + 1 + 1 + 1 + 1) = 5 + k.length by omega] at h2
  simp only [Nat.zero_add, Nat.reduceAdd] at h1
  rw [h1]
  exact h2

theorem randSetIterKey_eq (E : Env) (k : Bytes) (rnd : Byte) :
    randSetIterKey E k rnd = setIterKey E k ++ [rnd] := by
  have h := setKey_eq E k [rnd]
  simp only [setKey, List.length_singleton] at h
  simp only [randSetIterKey, ← h]
  rw [show 6 + k.length = 5 + k.length + 1 by omega]

theorem or_fold (a b c d : Nat) (hb : b < 256) (hc : c < 256) (hd : d < 256) :
    d ||| c <<< 8 ||| b <<< 16 ||| a <<< 24 = a * 2 ^ 24 + b * 2 ^ 16 + c * 2 ^ 8 + d := by
  have h1 : d ||| c <<< 8 = 2 ^ 8 * c + d := by
    rw [Nat.or_comm, Nat.shiftLeft_eq, Nat.mul_comm c, ← Nat.mul_add_lt_is_or (by omega)]
  have h2 : (2 ^ 8 * c + d) ||| b <<< 16 = 2 ^ 16 * b + (2 ^ 8 * c + d) := by
    rw [Nat.or_comm, Nat.shiftLeft_eq, Nat.mul_comm b, ← Nat.mul_add_lt_is_or (by omega)]
  have h3 : (2 ^ 16 * b + (2 ^ 8 * c + d)) ||| a <<< 24
      = 2 ^ 24 * a + (2 ^ 16 * b + (2 ^ 8 * c + d)) := by
    rw [Nat.or_comm, Nat.shiftLeft_eq, Nat.mul_comm a, ← Nat.mul_add_lt_is_or (by omega)]
  rw [h1, h2, h3]; omega

theorem Uint32_cons (b0 b1 b2 b3 : Byte) (rest : Bytes)
    (h : 4 ≤ (b0 :: b1 :: b2 :: b3 :: rest).length) :
    Uint32 (b0 :: b1 :: b2 :: b3 :: rest) h
      = b0.val * 2 ^ 24 + b1.val * 2 ^ 16 + b2.val * 2 ^ 8 + b3.val := by
  simp only [Uint32, List.getElem_cons_succ, List.getElem_cons_zero]
  exact or_fold _ _ _ _ b1.isLt b2.isLt b3.isLt

theorem Uint32_be32 (v : Nat) (hv : v < 2 ^ 32) (rest : Bytes)
    (h : 4 ≤ (be32 v ++ rest).length) :
    Uint32 (be32 v ++ rest) h = v := by
  simp only [be32, List.cons_append, List.nil_append]
  rw [Uint32_cons]
  simp only [byte, Nat.shiftRight_eq_div_pow]
  omega

theorem be32_injective (v w : Nat) (hv : v < 2 ^ 32) (hw : w < 2 ^ 32) (h : be32 v = be32 w) :
    v = w := by
  have key : ∀ (l1 l2 : Bytes) (_ : l1 = l2) (p1 : 4 ≤ l1.length) (p2 : 4 ≤ l2.length),
      Uint32 l1 p1 = Uint32 l2 p2 := by
    intro l1 l2 e p1 p2; subst e; rfl
  have h1 := Uint32_be32 v hv [] (by simp [be32])
  have h2 := Uint32_be32 w hw [] (by simp [be32])
  exact h1.symm.trans ((key _ _ (by rw [h]) _ _).trans h2)

theorem be32_length (v : Nat) : (be32 v).length = 4 := rfl

theorem uint32_of_lt (n : Nat) (h : n < 2 ^ 32) : uint32 n = n := Nat.mod_eq_of_lt h

theorem uint32_lt (n : Nat) : uint32 n < 2 ^ 32 := Nat.mod_lt _ (Nat.two_pow_pos 32)

theorem be32_append_inj (v w : Nat) (hv : v < 2 ^ 32) (hw : w < 2 ^ 32) (r s : Bytes)
    (h : be32 v ++ r = be32 w ++ s) : v = w ∧ r = s := by
  have hl : (be32 v).length = (be32 w).length := by rw [be32_length, be32_length]
  obtain ⟨h1, h2⟩ := List.append_inj h hl
  exact ⟨be32_injective v w hv hw h1, h2⟩

theorem setKey_inj (E : Env) (o1 o2 m1 m2 : Bytes)
    (h1 : o1.length < 2 ^ 32) (h2 : o2.length < 2 ^ 32)
    (h : setKey E o1 m1 = setKey E o2 m2) : o1 = o2 ∧ m1 = m2 := by
  simp only [setKey_eq, setIterKey_eq, List.cons_append, List.append_assoc] at h
  obtain ⟨hlen, hrest⟩ :=
    be32_append_inj _ _ (uint32_lt _) (uint32_lt _) _ _ (List.cons.inj h).2
  rw [uint32_of_lt _ h1, uint32_of_lt _ h2] at hlen
  exact List.append_inj hrest hlen

/-- C2. The key codec `setKey` is injective on owner keys shorter than `2^32` bytes: equal
member-entry keys come from equal owners and equal members, also when one owner is a
byte-prefix of the other. -/
theorem setKey_injective (E : Env) (o1 o2 m1 m2 : Bytes)
    (h1 : o1.length < 2 ^ 32) (h2 : o2.length < 2 ^ 32)
    (h : setKey E o1 m1 = setKey E o2 m2) : o1 = o2 ∧ m1 = m2 :=
  setKey_inj E o1 o2 m1 m2 h1 h2 h

theorem setKey_injective_witness :
    setKey demoEnv [1] [2] = setKey demoEnv [1] [2] ∧
    ([1] : Bytes) = [1] ∧ ([2] : Bytes) = [2] :=
  ⟨rfl, setKey_injective demoEnv [1] [1] [2] [2] (by decide) (by decide) rfl⟩

theorem setIterKey_prefix_iff (E : Env) (o1 o2 m : Bytes)
    (h1 : o1.length < 2 ^ 32) (h2 : o2.length < 2 ^ 32) :
    setIterKey E o1 <+: setKey E o2 m ↔ o1 = o2 := by
  constructor
  · rintro ⟨t, ht⟩
    simp only [setKey_eq, setIterKey_eq, List.cons_append, List.append_assoc] at ht
    obtain ⟨hlen, hrest⟩ :=
      be32_append_inj _ _ (uint32_lt _) (uint32_lt _) _ _ (List.cons.inj ht).2
    rw [uint32_of_lt _ h1, uint32_of_lt _ h2] at hlen
    exact (List.append_inj hrest hlen).1
  · rintro rfl
    rw [setKey_eq]
    exact List.prefix_append _ _

/-- C3. Prefix grouping: a member entry begins with the iteration key of an owner exactly when
it is an entry of that owner, so a scan bounded by `pastKey (setIterKey o1)` accepts the
entries of `o1` and no entry of another owner. -/
theorem prefix_grouping (E : Env) (o1 o2 m : Bytes)
    (h1 : o1.length < 2 ^ 32) (h2 : o2.length < 2 ^ 32) :
    (setIterKey E o1 <+: setKey E o2 m ↔ o1 = o2) ∧
    (pastKey (setIterKey E o1) (setKey E o2 m) = false ↔ o1 = o2) := by
  refine ⟨setIterKey_prefix_iff E o1 o2 m h1 h2, ?_⟩
  rw [← setIterKey_prefix_iff E o1 o2 m h1 h2]
  simp [pastKey]

theorem prefix_grouping_witness :
    (setIterKey demoEnv [7] <+: setKey demoEnv [7, 8] [9] ↔ ([7] : Bytes) = [7, 8]) ∧
    (pastKey (setIterKey demoEnv [7]) (setKey demoEnv [7, 8] [9]) = false
      ↔ ([7] : Bytes) = [7, 8]) :=
  prefix_grouping demoEnv [7] [7, 8] [9] (by decide) (by decide)

theorem scard_cases (E : Env) (db : DB) (owner : Bytes) (v : Option Bytes)
    (hget : db.Get (E.metaKey owner) = (v, none)) :
    (v = none → scard E db owner = (0, none)) ∧
    (∀ res, v = some res → res ≠ [] → res.head? ≠ some E.SetCardValue →
      scard E db owner = (0, some Error.InvalidKeyTypeError)) ∧
    (∀ res, v = some res → (res = [] ∨ res.head? = some E.SetCardValue) → res.length < 5 →
      scard E db owner = (0, some Error.InvalidDataError)) ∧
    (∀ b1 b2 b3 b4 rest, v = some (E.SetCardValue :: b1 :: b2 :: b3 :: b4 :: rest) →
      scard E db owner
        = (b1.val * 2 ^ 24 + b2.val * 2 ^ 16 + b3.val * 2 ^ 8 + b4.val, none)) := by
  refine ⟨?_, ?_, ?_, ?_⟩
  · rintro rfl
    simp [scard, hget]
  · rintro res rfl hne hhead
    have : 0 < res.length := List.length_pos.mpr hne
    simp [scard, hget, this, hhead]
  · rintro res rfl hor hlen
    rcases hor with rfl | hhead
    · simp [scard, hget]
    · simp [scard, hget, hhead, hlen]
  · rintro b1 b2 b3 b4 rest rfl
    simp [scard, hget, Uint32_cons]

/-- C4. Decoding of the cardinality record by `scard`, for a successful read of the metadata
key: an absent record gives 0; a non-empty value whose first byte is not `SetCardValue` gives
`InvalidKeyTypeError`, whatever its length; otherwise a value shorter than 5 bytes gives
`InvalidDataError`; otherwise the result is the big-endian number held in bytes 1..4. -/
theorem scard_decode (E : Env) (db : DB) (owner : Bytes) (v : Option Bytes)
    (hget : db.Get (E.metaKey owner) = (v, none)) :
    (v = none → scard E db owner = (0, none)) ∧
    (∀ res, v = some res → res ≠ [] → res.head? ≠ some E.SetCardValue →
      scard E db owner = (0, some Error.InvalidKeyTypeError)) ∧
    (∀ res, v = some res → (res = [] ∨ res.head? = some E.SetCardValue) → res.length < 5 →
      scard E db owner = (0, some Error.InvalidDataError)) ∧
    (∀ b1 b2 b3 b4 rest, v = some (E.SetCardValue :: b1 :: b2 :: b3 :: b4 :: rest) →
      scard E db owner
        = (b1.val * 2 ^ 24 + b2.val * 2 ^ 16 + b3.val * 2 ^ 8 + b4.val, none)) :=
  scard_cases E db owner v hget

theorem scard_decode_witness :
    scard demoEnv { entries := [([0, 1], [10, 0, 0, 1, 2])], readFails := fun _ => false } [1]
      = (258, none) :=
  (scard_decode demoEnv { entries := [([0, 1], [10, 0, 0, 1, 2])], readFails := fun _ => false }
    [1] (some [10, 0, 0, 1, 2]) rfl).2.2.2 0 0 1 2 [] rfl

/-! ## The bytewise order -/

theorem bytesLt_irrefl (a : Bytes) : bytesLt a a = false := by
  induction a with
  | nil => rfl
  | cons x xs ih => simp [bytesLt, ih]

theorem bytesLt_trans {a b c : Bytes} (hab : bytesLt a b = true) (hbc : bytesLt b c = true) :
    bytesLt a c = true := by
  induction a generalizing b c with
  | nil =>
    cases b with
    | nil => simp [bytesLt] at hab
    | cons y ys =>
      cases c with
      | nil => simp [bytesLt] at hbc
      | cons z zs => simp [bytesLt]
  | cons x xs ih =>
    cases b with
    | nil => simp [bytesLt] at hab
    | cons y ys =>
      cases c with
      | nil => simp [bytesLt] at hbc
      | cons z zs =>
        simp only [bytesLt, Bool.or_eq_true, Bool.and_eq_true, decide_eq_true_eq] at hab hbc ⊢
        rcases hab with hxy | ⟨rfl, hxs⟩
        · rcases hbc with hyz | ⟨rfl, _⟩
          · exact Or.inl (lt_trans hxy hyz)
          · exact Or.inl hxy
        · rcases hbc with hyz | ⟨rfl, hys⟩
          · exact Or.inl hyz
          · exact Or.inr ⟨rfl, ih hxs hys⟩

theorem bytesLt_total {a b : Bytes} (hab : bytesLt a b = false) (hne : a ≠ b) :
    bytesLt b a = true := by
  induction a generalizing b with
  | nil =>
    cases b with
    | nil => exact absurd rfl hne
    | cons y ys => simp [bytesLt] at hab
  | cons x xs ih =>
    cases b with
    | nil => simp [bytesLt]
    | cons y ys =>
      simp only [bytesLt, Bool.or_eq_false_iff, Bool.and_eq_false_imp, decide_eq_false_iff_not,
        decide_eq_true_eq, Bool.or_eq_true, Bool.and_eq_true] at hab ⊢
      obtain ⟨hlt, himp⟩ := hab
      rcases lt_trichotomy x y with h | h | h
      · exact absurd h hlt
      · subst h
        refine Or.inr ⟨rfl, ih (himp rfl) ?_⟩
        intro h; exact hne (by rw [h])
      · exact Or.inl h

theorem bytesLt_asymm {a b : Bytes} (hab : bytesLt a b = true) : bytesLt b a = false := by
  cases h : bytesLt b a with
  | false => rfl
  | true =>
    have := bytesLt_trans hab h
    rw [bytesLt_irrefl] at this
    exact absurd this (by simp)

theorem bytesLt_append_left (p a b : Bytes) : bytesLt (p ++ a) (p ++ b) = bytesLt a b := by
  induction p with
  | nil => rfl
  | cons x xs ih => simp [bytesLt, ih]

/-- A key that begins with `p` is not below `p`. -/
theorem bytesLt_of_prefix_left {p k : Bytes} (h : p <+: k) : bytesLt k p = false := by
  obtain ⟨t, rfl⟩ := h
  have := bytesLt_append_left p t []
  rw [List.append_nil] at this
  rw [this]
  cases t <;> rfl

/-- A key that is not below `p` and does not begin with `p` is above every key that begins
with `p`. -/
theorem bytesLt_above_range {p k : Bytes} (hp : ¬ p <+: k) (hk : bytesLt k p = false)
    (s : Bytes) : bytesLt (p ++ s) k = true := by
  induction p generalizing k with
  | nil => exact absurd (List.nil_prefix) hp
  | cons x xs ih =>
    cases k with
    | nil => simp [bytesLt] at hk
    | cons y ys =>
      simp only [bytesLt, Bool.or_eq_false_iff, Bool.and_eq_false_imp, decide_eq_false_iff_not,
        decide_eq_true_eq, List.cons_append, Bool.or_eq_true, Bool.and_eq_true] at hk ⊢
      obtain ⟨hlt, himp⟩ := hk
      rcases lt_trichotomy x y with h | h | h
      · exact Or.inl h
      · subst h
        refine Or.inr ⟨rfl, ih ?_ (himp rfl)⟩
        intro hpre
        exact hp ((List.prefix_cons_inj x).mpr hpre)
      · exact absurd h hlt

/-! ## Keys of the store -/

theorem mem_insertKey (k y : Bytes) (l : List Bytes) :
    y ∈ insertKey k l ↔ y = k ∨ y ∈ l := by
  induction l with
  | nil => simp [insertKey]
  | cons x xs ih =>
    unfold insertKey
    split
    · simp
    · split
      · rename_i h; subst h; simp
      · simp only [List.mem_cons, ih]; tauto

theorem ascending_insertKey (k : Bytes) (l : List Bytes) (h : Ascending l) :
    Ascending (insertKey k l) := by
  induction l with
  | nil => simp [insertKey, Ascending]
  | cons x xs ih =>
    unfold Ascending at h ⊢
    rw [List.pairwise_cons] at h
    unfold insertKey
    split
    · rename_i hkx
      refine List.pairwise_cons.mpr ⟨?_, List.pairwise_cons.mpr h⟩
      intro y hy
      rcases List.mem_cons.mp hy with rfl | hy
      · exact hkx
      · exact bytesLt_trans hkx (h.1 y hy)
    · split
      · exact List.pairwise_cons.mpr h
      · rename_i hkx hne
        refine List.pairwise_cons.mpr ⟨?_, ih h.2⟩
        intro y hy
        rcases (mem_insertKey k y xs).mp hy with rfl | hy
        · exact bytesLt_total (by simpa using hkx) hne
        · exact h.1 y hy

theorem lookup_isSome_iff (k : Bytes) (l : List (Bytes × Bytes)) :
    (lookup k l).isSome = true ↔ k ∈ l.map Prod.fst := by
  induction l with
  | nil => simp [lookup]
  | cons e es ih =>
    obtain ⟨a, b⟩ := e
    unfold lookup
    split
    · rename_i h; subst h; simp
    · rename_i h
      rw [ih]
      simp only [List.map_cons, List.mem_cons]
      constructor
      · exact Or.inr
      · rintro (h' | h')
        · exact absurd h'.symm h
        · exact h'

theorem mem_keys (db : DB) (k : Bytes) : k ∈ db.keys ↔ (lookup k db.entries).isSome = true := by
  rw [lookup_isSome_iff]
  unfold DB.keys
  induction db.entries with
  | nil => simp
  | cons e es ih =>
    simp only [List.foldr_cons, mem_insertKey, ih, List.map_cons, List.mem_cons]

theorem ascending_keys (db : DB) : Ascending db.keys := by
  unfold DB.keys
  induction db.entries with
  | nil => simp [Ascending]
  | cons e es ih => exact ascending_insertKey _ _ ih

theorem Ascending.nodup {l : List Bytes} (h : Ascending l) : l.Nodup := by
  unfold Ascending at h
  refine List.Pairwise.imp ?_ h
  intro a b hab heq
  subst heq
  rw [bytesLt_irrefl] at hab
  exact absurd hab (by simp)

/-! ## Committing a batch -/

theorem lookup_filter_ne (k key : Bytes) (l : List (Bytes × Bytes)) :
    lookup k (l.filter (fun e => decide (e.1 ≠ key))) = if k = key then none else lookup k l := by
  induction l with
  | nil => simp [lookup]
  | cons e es ih =>
    obtain ⟨a, b⟩ := e
    by_cases ha : a = key
    · subst ha
      simp only [List.filter_cons, ne_eq, not_true_eq_false, decide_False, Bool.false_eq_true,
        ↓reduceIte, ih, lookup]
      by_cases hk : k = a
      · simp [hk]
      · have : ¬ a = k := fun h => hk h.symm
        simp [hk, this]
    · simp only [List.filter_cons, ne_eq, ha, not_false_eq_true, decide_True, ↓reduceIte, lookup,
        ih]
      by_cases hk : k = key
      · subst hk
        simp [ha]
      · simp [hk]

theorem lookup_apply (db : DB) (op : Op) (k : Bytes) :
    lookup k (db.apply op).entries =
      match op with
      | Op.put key value => if key = k then some value else lookup k db.entries
      | Op.delete key => if key = k then none else lookup k db.entries := by
  cases op with
  | put key value => simp [DB.apply, lookup]
  | delete key =>
    simp only [DB.apply, lookup_filter_ne]
    by_cases h : k = key
    · simp [h]
    · have : ¬ key = k := fun h' => h h'.symm
      simp [h, this]

theorem lookup_Write (db : DB) (wb : WriteBatch) (k : Bytes) :
    lookup k (db.Write wb).entries = (effect k wb).getD (lookup k db.entries) := by
  induction wb generalizing db with
  | nil => simp [DB.Write, effect]
  | cons op rest ih =>
    have : db.Write (op :: rest) = (db.apply op).Write rest := rfl
    rw [this, ih, lookup_apply]
    cases op with
    | put key value =>
      simp only [effect]
      cases effect k rest with
      | some r => simp
      | none => by_cases h : key = k <;> simp [h]
    | delete key =>
      simp only [effect]
      cases effect k rest with
      | some r => simp
      | none => by_cases h : key = k <;> simp [h]

theorem readFails_apply (db : DB) (op : Op) : (db.apply op).readFails = db.readFails := by
  cases op <;> rfl

theorem readFails_Write (db : DB) (wb : WriteBatch) : (db.Write wb).readFails = db.readFails := by
  induction wb generalizing db with
  | nil => rfl
  | cons op rest ih =>
    have : db.Write (op :: rest) = (db.apply op).Write rest := rfl
    rw [this, ih, readFails_apply]

theorem effect_append (k : Bytes) (wb1 wb2 : WriteBatch) :
    effect k (wb1 ++ wb2) = (effect k wb2).or (effect k wb1) := by
  induction wb1 with
  | nil => cases h : effect k wb2 <;> simp [effect, h]
  | cons op rest ih =>
    cases op with
    | put key value =>
      simp only [List.cons_append, effect]
      have ih2 : effect k (rest.append wb2) = (effect k wb2).or (effect k rest) := ih
      rw [ih2]
      cases effect k wb2 <;> cases effect k rest <;> simp
    | delete key =>
      simp only [List.cons_append, effect]
      have ih2 : effect k (rest.append wb2) = (effect k wb2).or (effect k rest) := ih
      rw [ih2]
      cases effect k wb2 <;> cases effect k rest <;> simp

/-! ## Scanning one owner's key range -/

theorem Uint32_congr (l1 l2 : Bytes) (e : l1 = l2) (p1 : 4 ≤ l1.length) (p2 : 4 ≤ l2.length) :
    Uint32 l1 p1 = Uint32 l2 p2 := by
  subst e; rfl

theorem setIterKey_length (E : Env) (o : Bytes) : (setIterKey E o).length = 5 + o.length := by
  rw [setIterKey_eq]
  simp only [List.cons_append, List.length_cons, List.length_append, be32_length]
  omega

theorem uint32_le (n : Nat) : uint32 n ≤ n := Nat.mod_le _ _

/-- On a key that begins with the iteration key of `o`, `parseMemberFromSetKey` does not
panic and drops the five header bytes and `uint32(len(o))` further bytes. -/
theorem parse_of_begins (E : Env) (o key : Bytes)
    (h : setIterKey E o <+: key) :
    parseMemberFromSetKey key = some (key.drop (5 + uint32 o.length)) := by
  obtain ⟨t, rfl⟩ := h
  have hlen : (setIterKey E o ++ t).length = 5 + o.length + t.length := by
    rw [List.length_append, setIterKey_length]
  have h5 : 5 ≤ (setIterKey E o ++ t).length := by omega
  have hdrop : (setIterKey E o ++ t).drop 1 = be32 (uint32 o.length) ++ (o ++ t) := by
    rw [setIterKey_eq]
    simp only [List.cons_append, List.drop_succ_cons, List.drop_zero, List.append_assoc]
  have hu : Uint32 ((setIterKey E o ++ t).drop 1) (by rw [List.length_drop]; omega)
      = uint32 o.length := by
    rw [Uint32_congr _ _ hdrop _ (by simp [be32_length])]
    exact Uint32_be32 _ (uint32_lt _) _ _
  unfold parseMemberFromSetKey
  rw [dif_pos h5]
  simp only [hu]
  have := uint32_le o.length
  rw [if_pos (by omega)]

theorem drop_of_setIterKey_append (E : Env) (o t : Bytes) (h : o.length < 2 ^ 32) :
    (setIterKey E o ++ t).drop (5 + uint32 o.length) = t := by
  rw [uint32_of_lt _ h, ← setIterKey_length E o, List.drop_left]

theorem takeWhile_eq_filter_of_not_below (p : Bytes) (l : List Bytes) (hl : Ascending l)
    (hp : ∀ x ∈ l, bytesLt x p = false) :
    l.takeWhile (fun k => p.isPrefixOf k) = l.filter (fun k => p.isPrefixOf k) := by
  induction l with
  | nil => rfl
  | cons k rest ih =>
    unfold Ascending at hl
    rw [List.pairwise_cons] at hl
    have hrest : ∀ x ∈ rest, bytesLt x p = false := fun x hx => hp x (List.mem_cons_of_mem _ hx)
    by_cases hk : p.isPrefixOf k = true
    · rw [List.takeWhile_cons_of_pos hk, List.filter_cons_of_pos hk, ih hl.2 hrest]
    · rw [List.takeWhile_cons_of_neg hk, List.filter_cons_of_neg hk]
      symm
      rw [List.filter_eq_nil_iff]
      intro x hx hpx
      obtain ⟨s, rfl⟩ := List.isPrefixOf_iff_prefix.mp hpx
      have h1 : bytesLt (p ++ s) k = true :=
        bytesLt_above_range (fun h => hk (List.isPrefixOf_iff_prefix.mpr h))
          (hp k (List.mem_cons_self _ _)) s
      have h2 := bytesLt_asymm (hl.1 _ hx)
      rw [h1] at h2
      exact absurd h2 (by simp)

/-- Seeking to `p` and reading on while the key begins with `p` visits exactly the keys that
begin with `p`, in ascending order. -/
theorem scan_eq_filter (p : Bytes) (l : List Bytes) (hl : Ascending l) :
    (l.dropWhile (fun k => bytesLt k p)).takeWhile (fun k => p.isPrefixOf k)
      = l.filter (fun k => p.isPrefixOf k) := by
  induction l with
  | nil => rfl
  | cons k rest ih =>
    have hl' := hl
    unfold Ascending at hl'
    rw [List.pairwise_cons] at hl'
    by_cases hk : bytesLt k p = true
    · have hnp : ¬ p.isPrefixOf k = true := by
        intro h
        have := bytesLt_of_prefix_left (List.isPrefixOf_iff_prefix.mp h)
        rw [hk] at this
        exact absurd this (by simp)
      rw [List.dropWhile_cons, if_pos hk, List.filter_cons_of_neg hnp]
      exact ih hl'.2
    · rw [List.dropWhile_cons, if_neg hk]
      apply takeWhile_eq_filter_of_not_below p _ hl
      intro x hx
      rcases List.mem_cons.mp hx with rfl | hx
      · simpa using hk
      · cases hxp : bytesLt x p with
        | false => rfl
        | true => exact absurd (bytesLt_trans (hl'.1 x hx) hxp) hk

theorem Seek_after (db : DB) (target : Bytes) :
    (db.NewIterator.Seek target).after = db.keys.dropWhile (fun k => bytesLt k target) := by
  simp [DB.NewIterator, Iterator.Seek]

theorem Seek_before (db : DB) (target : Bytes) :
    (db.NewIterator.Seek target).before
      = (db.keys.takeWhile (fun k => bytesLt k target)).reverse := by
  simp [DB.NewIterator, Iterator.Seek]

theorem Smembers_loop_eq (E : Env) (o : Bytes) (l acc : List Bytes) :
    Smembers.loop (setIterKey E o) l acc
      = Run.ok (acc ++ (l.takeWhile (fun k => (setIterKey E o).isPrefixOf k)).map
          (fun k => k.drop (5 + uint32 o.length))) := by
  induction l generalizing acc with
  | nil => simp [Smembers.loop]
  | cons key rest ih =>
    unfold Smembers.loop
    by_cases hk : (setIterKey E o).isPrefixOf key = true
    · have hpast : pastKey (setIterKey E o) key = false := by simp [pastKey, hk]
      rw [hpast]
      simp only [Bool.false_eq_true, ↓reduceIte]
      rw [parse_of_begins E o key (List.isPrefixOf_iff_prefix.mp hk)]
      simp only
      rw [ih, List.takeWhile_cons_of_pos hk]
      simp
    · have hpast : pastKey (setIterKey E o) key = true := by
        simp only [pastKey, Bool.not_eq_true']
        exact Bool.eq_false_iff.mpr hk
      rw [hpast, List.takeWhile_cons_of_neg hk]
      simp

theorem Smembers_eq (E : Env) (db : DB) (o : Bytes) (c : Nat)
    (hc : scard E db o = (c, none)) (h0 : c ≠ 0) (hcap : c ≤ E.maxCap) :
    Smembers E db o
      = Run.ok (Reply.array ((ownerKeys E db o).map (fun k => k.drop (5 + uint32 o.length)))) := by
  unfold Smembers
  simp only [hc, h0, ↓reduceIte, makeReplies, hcap]
  rw [Seek_after, Smembers_loop_eq, scan_eq_filter _ _ (ascending_keys db)]
  simp [ownerKeys]

/-- When the runtime cannot allocate as many reply slots as the cardinality record says,
`Smembers` does not return. -/
theorem Smembers_abort (E : Env) (db : DB) (o : Bytes) (c : Nat)
    (hc : scard E db o = (c, none)) (h0 : c ≠ 0) (hcap : E.maxCap < c) :
    Smembers E db o = Run.panic := by
  unfold Smembers
  simp only [hc, h0, ↓reduceIte, makeReplies, Nat.not_le.mpr hcap]

theorem Smembers_zero (E : Env) (db : DB) (o : Bytes) (hc : scard E db o = (0, none)) :
    Smembers E db o = Run.ok (Reply.array []) := by
  unfold Smembers
  simp [hc]

/-! ## Members of a set -/

theorem setKey_cancel (E : Env) (o m1 m2 : Bytes) (h : setKey E o m1 = setKey E o m2) :
    m1 = m2 := by
  rw [setKey_eq, setKey_eq] at h
  exact List.append_cancel_left h

theorem mem_ownerKeys (E : Env) (db : DB) (o k : Bytes) :
    k ∈ ownerKeys E db o ↔ k ∈ db.keys ∧ setIterKey E o <+: k := by
  simp [ownerKeys, List.mem_filter]

theorem ownerKeys_eq_map (E : Env) (db : DB) (o : Bytes) :
    (memberList E db o).map (setKey E o) = ownerKeys E db o := by
  unfold memberList
  rw [List.map_map]
  conv_rhs => rw [← List.map_id (ownerKeys E db o)]
  apply List.map_congr_left
  intro k hk
  obtain ⟨t, rfl⟩ := ((mem_ownerKeys E db o k).mp hk).2
  simp only [Function.comp_apply, id_eq]
  rw [← setIterKey_length E o, List.drop_left, setKey_eq]

theorem mem_memberList (E : Env) (db : DB) (o m : Bytes) :
    m ∈ memberList E db o ↔ setKey E o m ∈ db.keys := by
  constructor
  · intro h
    have : setKey E o m ∈ (memberList E db o).map (setKey E o) := List.mem_map_of_mem _ h
    rw [ownerKeys_eq_map] at this
    exact ((mem_ownerKeys E db o _).mp this).1
  · intro h
    have hk : setKey E o m ∈ ownerKeys E db o :=
      (mem_ownerKeys E db o _).mpr ⟨h, by rw [setKey_eq]; exact List.prefix_append _ _⟩
    rw [← ownerKeys_eq_map] at hk
    obtain ⟨m2, hm2, heq⟩ := List.mem_map.mp hk
    rw [← setKey_cancel E o m2 m heq]
    exact hm2

theorem ascending_ownerKeys (E : Env) (db : DB) (o : Bytes) : Ascending (ownerKeys E db o) :=
  List.Pairwise.filter _ (ascending_keys db)

theorem nodup_memberList (E : Env) (db : DB) (o : Bytes) : (memberList E db o).Nodup := by
  apply List.Nodup.of_map (setKey E o)
  rw [ownerKeys_eq_map]
  exact (ascending_ownerKeys E db o).nodup

theorem ascending_memberList (E : Env) (db : DB) (o : Bytes) : Ascending (memberList E db o) := by
  have h := ascending_ownerKeys E db o
  rw [← ownerKeys_eq_map] at h
  unfold Ascending at h ⊢
  rw [List.pairwise_map] at h
  refine List.Pairwise.imp ?_ h
  intro a b hab
  rw [setKey_eq, setKey_eq, bytesLt_append_left] at hab
  exact hab

theorem members_eq (E : Env) (db : DB) (o : Bytes) :
    members E db o = ↑(memberList E db o).toFinset := by
  ext m
  simp [members, mem_memberList]

theorem ncard_members (E : Env) (db : DB) (o : Bytes) :
    (members E db o).ncard = (memberList E db o).length := by
  rw [members_eq, Set.ncard_coe_Finset, List.toFinset_card_of_nodup (nodup_memberList E db o)]

theorem length_ownerKeys (E : Env) (db : DB) (o : Bytes) :
    (ownerKeys E db o).length = (members E db o).ncard := by
  rw [ncard_members, ← ownerKeys_eq_map, List.length_map]

theorem Smembers_eq_memberList (E : Env) (db : DB) (o : Bytes) (c : Nat)
    (hlen : o.length < 2 ^ 32) (hc : scard E db o = (c, none)) (h0 : c ≠ 0)
    (hcap : c ≤ E.maxCap) :
    Smembers E db o = Run.ok (Reply.array (memberList E db o)) := by
  rw [Smembers_eq E db o c hc h0 hcap, uint32_of_lt _ hlen]
  rfl

/-! ## `Smembers` -/

theorem Smembers_wrapped_length (o : Bytes) (h0 : uint32 o.length = 0) (hne : o ≠ []) :
    scard demoEnv (singletonEmptyDB o) o = (1, none) ∧
    Smembers demoEnv (singletonEmptyDB o) o = Run.ok (Reply.array [o]) ∧
    setKey demoEnv o [] ∈ (singletonEmptyDB o).keys ∧
    setKey demoEnv o o ∉ (singletonEmptyDB o).keys := by
  have hsk : setKey demoEnv o [] = 4 :: (be32 0 ++ o) := by
    rw [setKey_eq, setIterKey_eq, h0]; simp [demoEnv]
  have hik : setIterKey demoEnv o = 4 :: (be32 0 ++ o) := by
    rw [setIterKey_eq, h0]; simp [demoEnv]
  have hmk : demoEnv.metaKey o = 0 :: o := rfl
  have hcard : scard demoEnv (singletonEmptyDB o) o = (1, none) := by
    have hget : (singletonEmptyDB o).Get (demoEnv.metaKey o) = (some [10, 0, 0, 0, 1], none) := by
      simp [DB.Get, singletonEmptyDB, lookup]
    exact (scard_cases demoEnv _ o _ hget).2.2.2 0 0 0 1 [] rfl
  have hkeys : (singletonEmptyDB o).keys = [0 :: o, 4 :: (be32 0 ++ o)] := by
    simp [DB.keys, singletonEmptyDB, hsk, hmk, insertKey, bytesLt]
  refine ⟨hcard, ?_, ?_, ?_⟩
  · rw [Smembers_eq demoEnv _ o 1 hcard (by decide) (by decide), h0]
    have hown : ownerKeys demoEnv (singletonEmptyDB o) o = [4 :: (be32 0 ++ o)] := by
      unfold ownerKeys
      rw [hkeys, hik]
      simp [List.filter_cons]
    rw [hown]
    simp [be32]
  · rw [hkeys, hsk]; simp
  · rw [hkeys, setKey_eq, hik]
    intro hmem
    rcases List.mem_cons.mp hmem with h | h
    · exact absurd (List.cons.inj h).1 (by decide)
    · rw [List.mem_singleton] at h
      have h2 : (4 :: (be32 0 ++ o)) ++ o = (4 :: (be32 0 ++ o)) ++ [] := by
        rw [List.append_nil]; exact h
      exact hne (List.append_cancel_left h2)

theorem uint32_length_replicate (N : Nat) (h : N % 2 ^ 32 = 0) :
    uint32 (List.replicate N (0 : Byte)).length = 0 := by
  rw [List.length_replicate]
  exact h

theorem replicate_ne_nil (N : Nat) (h : N ≠ 0) : List.replicate N (0 : Byte) ≠ [] := by
  intro h2
  have := congrArg List.length h2
  rw [List.length_replicate] at this
  exact h this

/-- C8, counterexample. Two stores on which `Smembers` does not return the membership.
For an owner key of `2^32` bytes the length field wraps to `0`: on the consistent store
holding the set `{""}` of that owner, `Smembers` returns the owner key itself, which is not a
member, instead of `""`. And on a store whose cardinality record of owner `[1]` decodes to
`2^32 - 1`, more reply slots than the runtime can allocate, `Smembers` does not return,
although the set holds the one member `[2]`. -/
theorem Smembers_limits :
    (scard demoEnv (singletonEmptyDB longOwner) longOwner = (1, none) ∧
      Smembers demoEnv (singletonEmptyDB longOwner) longOwner
        = Run.ok (Reply.array [longOwner]) ∧
      setKey demoEnv longOwner [] ∈ (singletonEmptyDB longOwner).keys ∧
      setKey demoEnv longOwner longOwner ∉ (singletonEmptyDB longOwner).keys) ∧
    (scard demoEnv hugeRecordDB [1] = (2 ^ 32 - 1, none) ∧
      demoEnv.maxCap < 2 ^ 32 - 1 ∧
      Smembers demoEnv hugeRecordDB [1] = Run.panic ∧
      Sismember demoEnv hugeRecordDB [1] [2] = Reply.int 1) :=
  ⟨Smembers_wrapped_length (List.replicate (2 ^ 32) 0)
      (uint32_length_replicate (2 ^ 32) (Nat.mod_self _))
      (replicate_ne_nil (2 ^ 32) (Nat.pos_iff_ne_zero.mp (Nat.two_pow_pos 32))),
    by decide, by decide,
    Smembers_abort demoEnv hugeRecordDB [1] (2 ^ 32 - 1) (by decide) (by decide) (by decide),
    by decide⟩

theorem Smembers_full (E : Env) (db : DB) (owner : Bytes) (c : Nat)
    (hlen : owner.length < 2 ^ 32) (hc : scard E db owner = (c, none)) (hcap : c ≤ E.maxCap) :
    ∃ l, Smembers E db owner = Run.ok (Reply.array l) ∧
      (c ≠ 0 →
        (∀ m, m ∈ l ↔ setKey E owner m ∈ db.keys) ∧ l.Nodup ∧ Ascending l ∧
        l.map (setKey E owner) = ownerKeys E db owner ∧
        (∀ o2 m2, o2.length < 2 ^ 32 → setKey E o2 m2 ∈ l.map (setKey E owner) →
          o2 = owner)) ∧
      (c = 0 → l = []) ∧
      ((members E db owner).ncard = c → l.length = c) := by
  by_cases h0 : c = 0
  · subst h0
    refine ⟨[], Smembers_zero E db owner hc, fun h => absurd rfl h, fun _ => rfl, fun _ => rfl⟩
  · refine ⟨memberList E db owner, Smembers_eq_memberList E db owner c hlen hc h0 hcap, ?_,
      fun h => absurd h h0, fun h => by rw [← h, ncard_members]⟩
    intro _
    refine ⟨mem_memberList E db owner, nodup_memberList E db owner,
      ascending_memberList E db owner, ownerKeys_eq_map E db owner, ?_⟩
    intro o2 m2 h2 hmem
    obtain ⟨m, _, heq⟩ := List.mem_map.mp hmem
    exact ((setKey_inj E owner o2 m m2 hlen h2 heq).1).symm

/-- C8 (amended). For an owner key shorter than `2^32` bytes and a store whose cardinality
record decodes to `c`, a number of reply slots that the runtime can allocate: `Smembers`
returns a list `l`; if `c ≠ 0`, `l` holds exactly the `m` whose entry `setKey owner m` is a key
of the store, each once, in ascending byte order, the entries read being exactly the keys
that begin with the iteration key, none of them an entry of another owner; if `c = 0`, `l` is
empty; and if `c` is the number of member entries, `l` has length `c`. -/
theorem Smembers_spec (E : Env) (db : DB) (owner : Bytes) (c : Nat)
    (hlen : owner.length < 2 ^ 32) (hc : scard E db owner = (c, none)) (hcap : c ≤ E.maxCap) :
    ∃ l, Smembers E db owner = Run.ok (Reply.array l) ∧
      (c ≠ 0 →
        (∀ m, m ∈ l ↔ setKey E owner m ∈ db.keys) ∧ l.Nodup ∧ Ascending l ∧
        l.map (setKey E owner) = ownerKeys E db owner ∧
        (∀ o2 m2, o2.length < 2 ^ 32 → setKey E o2 m2 ∈ l.map (setKey E owner) →
          o2 = owner)) ∧
      (c = 0 → l = []) ∧
      ((members E db owner).ncard = c → l.length = c) :=
  Smembers_full E db owner c hlen hc hcap

theorem Smembers_spec_witness :
    ∃ l, Smembers demoEnv orchardDB fruits = Run.ok (Reply.array l) ∧
      ((2 : Nat) ≠ 0 →
        (∀ m, m ∈ l ↔ setKey demoEnv fruits m ∈ orchardDB.keys) ∧ l.Nodup ∧
        Ascending l ∧
        l.map (setKey demoEnv fruits) = ownerKeys demoEnv orchardDB fruits ∧
        (∀ o2 m2, o2.length < 2 ^ 32 → setKey demoEnv o2 m2 ∈ l.map (setKey demoEnv fruits) →
          o2 = fruits)) ∧
      ((2 : Nat) = 0 → l = []) ∧
      ((members demoEnv orchardDB fruits).ncard = 2 → l.length = 2) :=
  Smembers_spec demoEnv orchardDB fruits 2 (by decide) (by decide) (by decide)

/-- On the store that holds `fruits = {"pear", "apple"}` next to the set of another owner,
`Smembers` returns the two members of `fruits` in ascending byte order. -/
theorem Smembers_orchard :
    Smembers demoEnv orchardDB fruits = Run.ok (Reply.array [apple, pear]) := by
  decide

/-! ## The cardinality record -/

theorem setCard_eq (E : Env) (key : Bytes) (card : Nat) (wb : WriteBatch) :
    setCard E key card wb = wb ++ [Op.put (E.metaKey key) (cardRecord E card)] := by
  simp [setCard, make, PutUint32, WriteBatch.Put, cardRecord, be32, List.replicate]

theorem Get_of_readFails_false (db : DB) (k : Bytes) (h : db.readFails k = false) :
    db.Get k = (lookup k db.entries, none) := by
  simp [DB.Get, h]

theorem Get_of_readFails_true (db : DB) (k : Bytes) (h : db.readFails k = true) :
    db.Get k = (none, some Error.DatabaseError) := by
  simp [DB.Get, h]

theorem scard_of_record (E : Env) (db : DB) (o : Bytes) (c : Nat) (hc : c < 2 ^ 32)
    (hr : db.readFails (E.metaKey o) = false)
    (hl : lookup (E.metaKey o) db.entries = some (cardRecord E c)) :
    scard E db o = (c, none) := by
  have hget : db.Get (E.metaKey o) = (some (cardRecord E c), none) := by
    rw [Get_of_readFails_false db _ hr, hl]
  have h := (scard_cases E db o _ hget).2.2.2 (byte (c >>> 24)) (byte (c >>> 16))
    (byte (c >>> 8)) (byte c) [] rfl
  rw [h]
  have := Uint32_be32 c hc [] (by simp [be32_length])
  simp only [be32, List.append_nil] at this
  rw [Uint32_cons] at this
  rw [this]

theorem scard_of_none (E : Env) (db : DB) (o : Bytes)
    (hr : db.readFails (E.metaKey o) = false) (hl : lookup (E.metaKey o) db.entries = none) :
    scard E db o = (0, none) := by
  have hget : db.Get (E.metaKey o) = (none, none) := by
    rw [Get_of_readFails_false db _ hr, hl]
  exact (scard_cases E db o _ hget).1 rfl

theorem scard_readFails (E : Env) (db : DB) (o : Bytes) (c : Nat)
    (h : scard E db o = (c, none)) : db.readFails (E.metaKey o) = false := by
  cases hr : db.readFails (E.metaKey o) with
  | false => rfl
  | true =>
    rw [scard, Get_of_readFails_true db _ hr] at h
    simp at h

theorem scard_of_readFails (E : Env) (db : DB) (o : Bytes)
    (hr : db.readFails (E.metaKey o) = true) :
    scard E db o = (0, some Error.DatabaseError) := by
  rw [scard, Get_of_readFails_true db _ hr]

theorem Uint32_lt (b : Bytes) (h : 4 ≤ b.length) : Uint32 b h < 2 ^ 32 := by
  match b, h with
  | b0 :: b1 :: b2 :: b3 :: rest, h =>
    rw [Uint32_cons]
    have := b0.isLt; have := b1.isLt; have := b2.isLt; have := b3.isLt
    omega

theorem scard_lt (E : Env) (db : DB) (o : Bytes) : (scard E db o).1 < 2 ^ 32 := by
  unfold scard
  split
  · exact Nat.two_pow_pos 32
  · exact Nat.two_pow_pos 32
  · split
    · exact Nat.two_pow_pos 32
    · split
      · exact Nat.two_pow_pos 32
      · exact Uint32_lt _ _

/-- The result of `scard` depends only on the read of the metadata key. -/
theorem scard_congr (E : Env) (db1 db2 : DB) (o : Bytes)
    (hr : db1.readFails (E.metaKey o) = db2.readFails (E.metaKey o))
    (hl : lookup (E.metaKey o) db1.entries = lookup (E.metaKey o) db2.entries) :
    scard E db1 o = scard E db2 o := by
  have : db1.Get (E.metaKey o) = db2.Get (E.metaKey o) := by
    simp [DB.Get, hr, hl]
  unfold scard
  rw [this]

/-! ## The loops of `Sadd` and `Srem` -/

theorem absent_cons (E : Env) (db : DB) (o m : Bytes) (ms : List Bytes) :
    absent E db o (m :: ms)
      = if (lookup (setKey E o m) db.entries).isNone then m :: absent E db o ms
        else absent E db o ms := by
  simp only [absent, List.filter_cons]

theorem present_cons (E : Env) (db : DB) (o m : Bytes) (ms : List Bytes) :
    present E db o (m :: ms)
      = if (lookup (setKey E o m) db.entries).isSome then m :: present E db o ms
        else present E db o ms := by
  simp only [present, List.filter_cons]

/-- While the member reads succeed, the loop of `Sadd` stages a `Put` for each absent member
and counts them. -/
theorem Sadd_loop_ok (E : Env) (db : DB) (o : Bytes) (ms : List Bytes) (n : Nat)
    (wb : WriteBatch) (hn : n < 2 ^ 32)
    (hr : ∀ m ∈ ms, db.readFails (setKey E o m) = false) :
    Sadd.loop E db o ms n wb
      = (none, (n + (absent E db o ms).length) % 2 ^ 32,
          wb ++ putEntries E o (absent E db o ms)) := by
  induction ms generalizing n wb with
  | nil => simp [Sadd.loop, absent, putEntries, Nat.mod_eq_of_lt (show n < 4294967296 from hn)]
  | cons m rest ih =>
    have hrest : ∀ x ∈ rest, db.readFails (setKey E o x) = false :=
      fun x hx => hr x (List.mem_cons_of_mem _ hx)
    unfold Sadd.loop
    simp only [Get_of_readFails_false db _ (hr m (List.mem_cons_self _ _))]
    rw [absent_cons]
    cases hl : lookup (setKey E o m) db.entries with
    | none =>
      simp only [ih _ _ (Nat.mod_lt _ (Nat.two_pow_pos 32)) hrest, Option.isNone_none,
        ↓reduceIte, List.length_cons, putEntries, List.map_cons, WriteBatch.Put,
        List.append_assoc, List.singleton_append, Nat.mod_add_mod, Prod.mk.injEq, true_and,
        and_true]
      congr 1; omega
    | some v =>
      simp only [ih _ _ hn hrest, Option.isNone_some, Bool.false_eq_true, ↓reduceIte]

/-- When the read of a member entry fails, the loop of `Sadd` stops with the `Put`s staged for
the members before it. -/
theorem Sadd_loop_fail (E : Env) (db : DB) (o : Bytes) (pre : List Bytes) (m : Bytes)
    (post : List Bytes) (n : Nat) (wb : WriteBatch)
    (hr : ∀ x ∈ pre, db.readFails (setKey E o x) = false)
    (hm : db.readFails (setKey E o m) = true) :
    ∃ k, Sadd.loop E db o (pre ++ m :: post) n wb
      = (some Error.DatabaseError, k, wb ++ putEntries E o (absent E db o pre)) := by
  induction pre generalizing n wb with
  | nil =>
    refine ⟨n, ?_⟩
    simp [Sadd.loop, Get_of_readFails_true db _ hm, absent, putEntries]
  | cons x rest ih =>
    have hrest : ∀ y ∈ rest, db.readFails (setKey E o y) = false :=
      fun y hy => hr y (List.mem_cons_of_mem _ hy)
    rw [List.cons_append]
    unfold Sadd.loop
    simp only [Get_of_readFails_false db _ (hr x (List.mem_cons_self _ _))]
    rw [absent_cons]
    cases hl : lookup (setKey E o x) db.entries with
    | none =>
      obtain ⟨k, hk⟩ := ih ((n + 1) % 2 ^ 32) (wb.Put (setKey E o x) []) hrest
      refine ⟨k, ?_⟩
      simp only [WriteBatch.Put, putEntries, List.append_assoc, List.singleton_append] at hk
      simp only [WriteBatch.Put, hk, Option.isNone_none, ↓reduceIte, putEntries, List.map_cons]
    | some v =>
      obtain ⟨k, hk⟩ := ih n wb hrest
      refine ⟨k, ?_⟩
      simp only [hk, Option.isNone_some, Bool.false_eq_true, ↓reduceIte]

/-- While the member reads succeed, the loop of `Srem` stages a `Delete` for each present
member and counts them. -/
theorem Srem_loop_ok (E : Env) (db : DB) (o : Bytes) (ms : List Bytes) (n : Nat)
    (wb : WriteBatch) (hn : n < 2 ^ 32)
    (hr : ∀ m ∈ ms, db.readFails (setKey E o m) = false) :
    Srem.loop E db o ms n wb
      = (none, (n + (present E db o ms).length) % 2 ^ 32,
          wb ++ deleteEntries E o (present E db o ms)) := by
  induction ms generalizing n wb with
  | nil => simp [Srem.loop, present, deleteEntries, Nat.mod_eq_of_lt (show n < 4294967296 from hn)]
  | cons m rest ih =>
    have hrest : ∀ x ∈ rest, db.readFails (setKey E o x) = false :=
      fun x hx => hr x (List.mem_cons_of_mem _ hx)
    unfold Srem.loop
    simp only [Get_of_readFails_false db _ (hr m (List.mem_cons_self _ _))]
    rw [present_cons]
    cases hl : lookup (setKey E o m) db.entries with
    | some v =>
      simp only [ih _ _ (Nat.mod_lt _ (Nat.two_pow_pos 32)) hrest, Option.isSome_some,
        ↓reduceIte, List.length_cons, deleteEntries, List.map_cons, WriteBatch.Delete,
        List.append_assoc, List.singleton_append, Nat.mod_add_mod, Prod.mk.injEq, true_and,
        and_true]
      congr 1; omega
    | none =>
      simp only [ih _ _ hn hrest, Option.isSome_none, Bool.false_eq_true, ↓reduceIte]

/-- When the read of a member entry fails, the loop of `Srem` stops with the `Delete`s staged
for the members before it. -/
theorem Srem_loop_fail (E : Env) (db : DB) (o : Bytes) (pre : List Bytes) (m : Bytes)
    (post : List Bytes) (n : Nat) (wb : WriteBatch)
    (hr : ∀ x ∈ pre, db.readFails (setKey E o x) = false)
    (hm : db.readFails (setKey E o m) = true) :
    ∃ k, Srem.loop E db o (pre ++ m :: post) n wb
      = (some Error.DatabaseError, k, wb ++ deleteEntries E o (present E db o pre)) := by
  induction pre generalizing n wb with
  | nil =>
    refine ⟨n, ?_⟩
    simp [Srem.loop, Get_of_readFails_true db _ hm, present, deleteEntries]
  | cons x rest ih =>
    have hrest : ∀ y ∈ rest, db.readFails (setKey E o y) = false :=
      fun y hy => hr y (List.mem_cons_of_mem _ hy)
    rw [List.cons_append]
    unfold Srem.loop
    simp only [Get_of_readFails_false db _ (hr x (List.mem_cons_self _ _))]
    rw [present_cons]
    cases hl : lookup (setKey E o x) db.entries with
    | some v =>
      obtain ⟨k, hk⟩ := ih ((n + 1) % 2 ^ 32) (wb.Delete (setKey E o x)) hrest
      refine ⟨k, ?_⟩
      simp only [WriteBatch.Delete, deleteEntries, List.append_assoc, List.singleton_append]
        at hk
      simp only [WriteBatch.Delete, hk, Option.isSome_some, ↓reduceIte, deleteEntries,
        List.map_cons]
    | none =>
      obtain ⟨k, hk⟩ := ih n wb hrest
      refine ⟨k, ?_⟩
      simp only [hk, Option.isSome_none, Bool.false_eq_true, ↓reduceIte]

/-! ## What `Sadd` and `Srem` stage -/

theorem absent_length_le (E : Env) (db : DB) (o : Bytes) (ms : List Bytes) :
    (absent E db o ms).length ≤ ms.length := List.length_filter_le _ _

theorem present_length_le (E : Env) (db : DB) (o : Bytes) (ms : List Bytes) :
    (present E db o ms).length ≤ ms.length := List.length_filter_le _ _

/-- Behaviour of `Sadd` when no listed member is absent: it returns 0 and stages
nothing. -/
theorem Sadd_of_absent_nil (E : Env) (db : DB) (o : Bytes) (ms : List Bytes) (wb : WriteBatch)
    (hr : ∀ m ∈ ms, db.readFails (setKey E o m) = false) (ha : absent E db o ms = []) :
    Sadd E db o ms wb = (Reply.uint32 0, wb) := by
  unfold Sadd
  rw [Sadd_loop_ok E db o ms 0 wb (Nat.two_pow_pos 32) hr, ha]
  simp [putEntries]

/-- Behaviour of `Sadd` when some listed member is absent and the cardinality record decodes
to `c`: it returns the number of absent list positions and stages their `Put`s and the new
record. -/
theorem Sadd_of_absent_ne_nil (E : Env) (db : DB) (o : Bytes) (ms : List Bytes) (wb : WriteBatch)
    (c : Nat) (hlen : (absent E db o ms).length < 2 ^ 32)
    (hr : ∀ m ∈ ms, db.readFails (setKey E o m) = false) (ha : absent E db o ms ≠ [])
    (hc : scard E db o = (c, none)) :
    Sadd E db o ms wb
      = (Reply.uint32 (absent E db o ms).length,
          wb ++ putEntries E o (absent E db o ms)
            ++ [Op.put (E.metaKey o) (cardRecord E ((c + (absent E db o ms).length) % 2 ^ 32))])
      := by
  have hpos : 0 < (absent E db o ms).length := List.length_pos.mpr ha
  have hmod : (0 + (absent E db o ms).length) % 2 ^ 32 = (absent E db o ms).length := by
    rw [Nat.zero_add]; exact Nat.mod_eq_of_lt hlen
  unfold Sadd
  rw [Sadd_loop_ok E db o ms 0 wb (Nat.two_pow_pos 32) hr, hmod]
  simp only [gt_iff_lt, hpos, ↓reduceIte, hc, setCard_eq]

/-- Behaviour of `Srem` when the member reads succeed and the cardinality record decodes to
`c ≠ 0`. -/
theorem Srem_of_card_ne_zero (E : Env) (db : DB) (o : Bytes) (ms : List Bytes) (wb : WriteBatch)
    (c : Nat) (hlen : (present E db o ms).length < 2 ^ 32)
    (hr : ∀ m ∈ ms, db.readFails (setKey E o m) = false)
    (hc : scard E db o = (c, none)) (hc0 : c ≠ 0) :
    Srem E db o ms wb
      = (Reply.uint32 (present E db o ms).length,
          if (present E db o ms).length = c then
            wb ++ deleteEntries E o (present E db o ms) ++ [Op.delete (E.metaKey o)]
          else if (present E db o ms).length > 0 then
            wb ++ deleteEntries E o (present E db o ms)
              ++ [Op.put (E.metaKey o)
                    (cardRecord E ((c + 2 ^ 32 - (present E db o ms).length) % 2 ^ 32))]
          else wb ++ deleteEntries E o (present E db o ms)) := by
  have hmod : (0 + (present E db o ms).length) % 2 ^ 32 = (present E db o ms).length := by
    rw [Nat.zero_add]; exact Nat.mod_eq_of_lt hlen
  unfold Srem
  simp only [hc, hc0, ↓reduceIte]
  rw [Srem_loop_ok E db o ms 0 wb (Nat.two_pow_pos 32) hr, hmod]
  by_cases h1 : (present E db o ms).length = c
  · simp only [h1, ↓reduceIte, WriteBatch.Delete]
  · by_cases h2 : (present E db o ms).length > 0
    · simp only [h1, h2, ↓reduceIte, setCard_eq]
    · simp only [h1, h2, ↓reduceIte]

/-- On a set of cardinality 0, `Srem` returns 0 and stages nothing. -/
theorem Srem_of_card_zero (E : Env) (db : DB) (o : Bytes) (ms : List Bytes) (wb : WriteBatch)
    (hc : scard E db o = (0, none)) : Srem E db o ms wb = (Reply.uint32 0, wb) := by
  unfold Srem
  simp [hc]

/-- When the read of the cardinality record returns an error, `Srem` stages nothing. -/
theorem Srem_of_scard_error (E : Env) (db : DB) (o : Bytes) (ms : List Bytes) (wb : WriteBatch)
    (c : Nat) (e : Error) (hc : scard E db o = (c, some e)) :
    Srem E db o ms wb = (Reply.err e, wb) := by
  unfold Srem
  simp [hc]

/-! ## The effect of the staged writes -/

theorem effect_putEntries (E : Env) (o k : Bytes) (ms : List Bytes) :
    effect k (putEntries E o ms)
      = if k ∈ ms.map (setKey E o) then some (some []) else none := by
  induction ms with
  | nil => simp [putEntries, effect]
  | cons m rest ih =>
    have : putEntries E o (m :: rest) = Op.put (setKey E o m) [] :: putEntries E o rest := rfl
    rw [this, effect, ih]
    by_cases h1 : k ∈ rest.map (setKey E o)
    · simp [h1]
    · by_cases h2 : setKey E o m = k
      · simp [h1, h2]
      · have : ¬ k = setKey E o m := fun h => h2 h.symm
        simp [h1, h2, this]

theorem effect_deleteEntries (E : Env) (o k : Bytes) (ms : List Bytes) :
    effect k (deleteEntries E o ms)
      = if k ∈ ms.map (setKey E o) then some none else none := by
  induction ms with
  | nil => simp [deleteEntries, effect]
  | cons m rest ih =>
    have : deleteEntries E o (m :: rest)
        = Op.delete (setKey E o m) :: deleteEntries E o rest := rfl
    rw [this, effect, ih]
    by_cases h1 : k ∈ rest.map (setKey E o)
    · simp [h1]
    · by_cases h2 : setKey E o m = k
      · simp [h1, h2]
      · have : ¬ k = setKey E o m := fun h => h2 h.symm
        simp [h1, h2, this]

theorem effect_put_singleton (k key value : Bytes) :
    effect k [Op.put key value] = if key = k then some (some value) else none := by
  simp [effect]

theorem effect_delete_singleton (k key : Bytes) :
    effect k [Op.delete key] = if key = k then some none else none := by
  simp [effect]

/-- The store after committing member `Put`s followed by a `Put` of the cardinality record. -/
theorem lookup_Write_puts (E : Env) (db : DB) (o k : Bytes) (ms : List Bytes) (rec : Bytes) :
    lookup k (db.Write (putEntries E o ms ++ [Op.put (E.metaKey o) rec])).entries
      = if E.metaKey o = k then some rec
        else if k ∈ ms.map (setKey E o) then some [] else lookup k db.entries := by
  rw [lookup_Write, effect_append, effect_put_singleton, effect_putEntries]
  by_cases h1 : E.metaKey o = k
  · simp [h1]
  · by_cases h2 : k ∈ ms.map (setKey E o) <;> simp [h1, h2]

/-- The store after committing member `Delete`s followed by a `Put` of the cardinality record. -/
theorem lookup_Write_deletes_put (E : Env) (db : DB) (o k : Bytes) (ms : List Bytes)
    (rec : Bytes) :
    lookup k (db.Write (deleteEntries E o ms ++ [Op.put (E.metaKey o) rec])).entries
      = if E.metaKey o = k then some rec
        else if k ∈ ms.map (setKey E o) then none else lookup k db.entries := by
  rw [lookup_Write, effect_append, effect_put_singleton, effect_deleteEntries]
  by_cases h1 : E.metaKey o = k
  · simp [h1]
  · by_cases h2 : k ∈ ms.map (setKey E o) <;> simp [h1, h2]

/-- The store after committing member `Delete`s followed by a `Delete` of the cardinality
record. -/
theorem lookup_Write_deletes_delete (E : Env) (db : DB) (o k : Bytes) (ms : List Bytes) :
    lookup k (db.Write (deleteEntries E o ms ++ [Op.delete (E.metaKey o)])).entries
      = if E.metaKey o = k then none
        else if k ∈ ms.map (setKey E o) then none else lookup k db.entries := by
  rw [lookup_Write, effect_append, effect_delete_singleton, effect_deleteEntries]
  by_cases h1 : E.metaKey o = k
  · simp [h1]
  · by_cases h2 : k ∈ ms.map (setKey E o) <;> simp [h1, h2]

theorem lookup_Write_deletes (E : Env) (db : DB) (o k : Bytes) (ms : List Bytes) :
    lookup k (db.Write (deleteEntries E o ms)).entries
      = if k ∈ ms.map (setKey E o) then none else lookup k db.entries := by
  rw [lookup_Write, effect_deleteEntries]
  by_cases h2 : k ∈ ms.map (setKey E o) <;> simp [h2]

theorem mem_map_setKey (E : Env) (o m : Bytes) (ms : List Bytes) :
    setKey E o m ∈ ms.map (setKey E o) ↔ m ∈ ms := by
  constructor
  · intro h
    obtain ⟨m2, hm2, heq⟩ := List.mem_map.mp h
    rw [← setKey_cancel E o m2 m heq]; exact hm2
  · exact List.mem_map_of_mem _

/-! ## Random selection -/

theorem take_randSetIterKey (E : Env) (o : Bytes) (rnd : Byte) :
    (randSetIterKey E o rnd).take ((randSetIterKey E o rnd).length - 1) = setIterKey E o := by
  rw [randSetIterKey_eq, List.length_append, List.length_singleton, Nat.add_sub_cancel,
    List.take_left]

/-- A key that the scan test accepts decodes, without panic, to a member whose entry it is. -/
theorem parse_of_not_pastKey (E : Env) (o k : Bytes) (hlen : o.length < 2 ^ 32)
    (hp : pastKey (setIterKey E o) k = false) :
    ∃ m, parseMemberFromSetKey k = some m ∧ setKey E o m = k := by
  have hpre : setIterKey E o <+: k := by
    rw [← List.isPrefixOf_iff_prefix]
    simpa [pastKey] using hp
  obtain ⟨t, rfl⟩ := hpre
  refine ⟨t, ?_, setKey_eq E o t⟩
  rw [parse_of_begins E o _ (List.prefix_append _ _),
    drop_of_setIterKey_append E o t hlen]

theorem pastKey_nil (E : Env) (o : Bytes) : pastKey (setIterKey E o) [] = true := by
  rw [setIterKey_eq]
  rfl

/-- Soundness of `srand`: it does not panic, and a member it returns has its entry in the
store. -/
theorem srand_sound (E : Env) (db : DB) (rnd : Byte) (o : Bytes) (hlen : o.length < 2 ^ 32) :
    ∃ res, srand E db rnd o = Run.ok res ∧
      ∀ m, res = some m → setKey E o m ∈ db.keys := by
  unfold srand
  simp only [take_randSetIterKey]
  have hafter := Seek_after db (randSetIterKey E o rnd)
  have hbefore := Seek_before db (randSetIterKey E o rnd)
  generalize db.NewIterator.Seek (randSetIterKey E o rnd) = it at hafter hbefore
  obtain ⟨before, after⟩ := it
  simp only at hafter hbefore
  cases after with
  | nil => exact ⟨none, by simp [Iterator.Valid], by simp⟩
  | cons k rest =>
    have hk : k ∈ db.keys := by
      have : k ∈ db.keys.dropWhile (fun k => bytesLt k (randSetIterKey E o rnd)) := by
        rw [← hafter]; exact List.mem_cons_self _ _
      exact (List.dropWhile_sublist _).subset this
    simp only [Iterator.Valid, List.isEmpty_cons, Bool.not_false, Bool.not_true,
      Bool.false_eq_true, ↓reduceIte, Iterator.Key, List.headD_cons]
    cases hp : pastKey (setIterKey E o) k with
    | false =>
      obtain ⟨m, hm, hkey⟩ := parse_of_not_pastKey E o k hlen hp
      refine ⟨some m, by simp [hm], ?_⟩
      intro m2 h2
      cases h2
      rw [hkey]; exact hk
    | true =>
      simp only [↓reduceIte]
      cases before with
      | nil =>
        refine ⟨none, ?_, by simp⟩
        simp [Iterator.Prev, pastKey_nil]
      | cons b bs =>
        have hb : b ∈ db.keys := by
          have : b ∈ (db.keys.takeWhile
              (fun k => bytesLt k (randSetIterKey E o rnd))).reverse := by
            rw [← hbefore]; exact List.mem_cons_self _ _
          exact (List.takeWhile_sublist _).subset (List.mem_reverse.mp this)
        simp only [Iterator.Prev, List.headD_cons]
        cases hp2 : pastKey (setIterKey E o) b with
        | true => exact ⟨none, by simp, by simp⟩
        | false =>
          obtain ⟨m, hm, hkey⟩ := parse_of_not_pastKey E o b hlen hp2
          refine ⟨some m, by simp [hm], ?_⟩
          intro m2 h2
          cases h2
          rw [hkey]; exact hb

/-! ## Committing the batch of a mutator -/

theorem mem_members (E : Env) (db : DB) (o m : Bytes) :
    m ∈ members E db o ↔ (lookup (setKey E o m) db.entries).isSome = true := by
  simp only [members, Set.mem_setOf_eq, mem_keys]

theorem mem_absent (E : Env) (db : DB) (o m : Bytes) (ms : List Bytes) :
    m ∈ absent E db o ms ↔ m ∈ ms ∧ m ∉ members E db o := by
  rw [mem_members]
  simp [absent, List.mem_filter]

theorem mem_present (E : Env) (db : DB) (o m : Bytes) (ms : List Bytes) :
    m ∈ present E db o ms ↔ m ∈ ms ∧ m ∈ members E db o := by
  rw [mem_members]
  simp [present, List.mem_filter]

theorem members_finite (E : Env) (db : DB) (o : Bytes) : (members E db o).Finite := by
  rw [members_eq]; exact Finset.finite_toSet _

theorem ncard_list (l : List Bytes) (h : l.Nodup) :
    ({m | m ∈ l} : Set Bytes).ncard = l.length := by
  have : ({m | m ∈ l} : Set Bytes) = ↑l.toFinset := by ext m; simp
  rw [this, Set.ncard_coe_Finset, List.toFinset_card_of_nodup h]

theorem finite_list (l : List Bytes) : ({m | m ∈ l} : Set Bytes).Finite := by
  have : ({m | m ∈ l} : Set Bytes) = ↑l.toFinset := by ext m; simp
  rw [this]; exact Finset.finite_toSet _

theorem nodup_absent (E : Env) (db : DB) (o : Bytes) (ms : List Bytes) (hnd : ms.Nodup) :
    (absent E db o ms).Nodup := hnd.filter _

theorem nodup_present (E : Env) (db : DB) (o : Bytes) (ms : List Bytes) (hnd : ms.Nodup) :
    (present E db o ms).Nodup := hnd.filter _

theorem present_length_le_ncard (E : Env) (db : DB) (o : Bytes) (ms : List Bytes)
    (hnd : ms.Nodup) : (present E db o ms).length ≤ (members E db o).ncard := by
  rw [← ncard_list _ (nodup_present E db o ms hnd)]
  apply Set.ncard_le_ncard _ (members_finite E db o)
  intro m hm
  exact ((mem_present E db o m ms).mp hm).2

/-- Committing the batch of `Sadd` (duplicate-free list, successful reads, no overflow): the
reply is the number of absent members, which become members, and the cardinality grows by
that number. -/
theorem Sadd_commit (E : Env) (db : DB) (o : Bytes) (ms : List Bytes) (c : Nat)
    (hmeta : MetaDisjoint E o) (hnd : ms.Nodup)
    (hr : ∀ m ∈ ms, db.readFails (setKey E o m) = false)
    (hc : scard E db o = (c, none)) (hb : c + ms.length < 2 ^ 32) :
    (Sadd E db o ms []).1 = Reply.uint32 (absent E db o ms).length ∧
    scard E (db.Write (Sadd E db o ms []).2) o = (c + (absent E db o ms).length, none) ∧
    members E (db.Write (Sadd E db o ms []).2) o = members E db o ∪ {m | m ∈ ms} ∧
    (members E (db.Write (Sadd E db o ms []).2) o).ncard
      = (members E db o).ncard + (absent E db o ms).length := by
  have hle := absent_length_le E db o ms
  by_cases ha : absent E db o ms = []
  · rw [Sadd_of_absent_nil E db o ms [] hr ha, ha]
    have hsub : ∀ m ∈ ms, m ∈ members E db o := by
      intro m hm
      by_contra hcon
      have : m ∈ absent E db o ms := (mem_absent E db o m ms).mpr ⟨hm, hcon⟩
      rw [ha] at this
      exact absurd this (List.not_mem_nil _)
    refine ⟨rfl, hc, ?_, rfl⟩
    show members E db o = _
    ext m
    simp only [Set.mem_union, Set.mem_setOf_eq]
    constructor
    · exact Or.inl
    · rintro (h | h)
      · exact h
      · exact hsub m h
  · rw [Sadd_of_absent_ne_nil E db o ms [] c (by omega) hr ha hc]
    simp only [List.nil_append]
    have hmod : (c + (absent E db o ms).length) % 2 ^ 32 = c + (absent E db o ms).length :=
      Nat.mod_eq_of_lt (by omega)
    rw [hmod]
    have hmem : members E (db.Write (putEntries E o (absent E db o ms)
        ++ [Op.put (E.metaKey o) (cardRecord E (c + (absent E db o ms).length))])) o
        = members E db o ∪ {m | m ∈ absent E db o ms} := by
      ext m
      simp only [mem_members, lookup_Write_puts, if_neg (hmeta m), mem_map_setKey,
        Set.mem_union, Set.mem_setOf_eq]
      by_cases h : m ∈ absent E db o ms <;> simp [h]
    refine ⟨trivial, ?_, ?_, ?_⟩
    · apply scard_of_record E _ o _ (by omega)
      · rw [readFails_Write]; exact scard_readFails E db o c hc
      · rw [lookup_Write_puts, if_pos rfl]
    · rw [hmem]
      ext m
      simp only [Set.mem_union, Set.mem_setOf_eq, mem_absent]
      tauto
    · rw [hmem, Set.ncard_union_eq ?_ (members_finite E db o) (finite_list _),
        ncard_list _ (nodup_absent E db o ms hnd)]
      rw [Set.disjoint_left]
      intro m hm hm2
      exact ((mem_absent E db o m ms).mp hm2).2 hm

theorem scard_eq_val_lt (E : Env) (db : DB) (o : Bytes) (c : Nat) (e : Option Error)
    (hc : scard E db o = (c, e)) : c < 2 ^ 32 := by
  have := scard_lt E db o
  rw [hc] at this
  exact this

theorem members_diff_present (E : Env) (db : DB) (o : Bytes) (ms : List Bytes) :
    members E db o \ {m | m ∈ present E db o ms} = members E db o \ {m | m ∈ ms} := by
  ext m
  simp only [Set.mem_diff, Set.mem_setOf_eq, mem_present]
  tauto

theorem ncard_members_diff (E : Env) (db : DB) (o : Bytes) (ms : List Bytes) (hnd : ms.Nodup) :
    (members E db o \ {m | m ∈ ms}).ncard
      = (members E db o).ncard - (present E db o ms).length := by
  rw [← members_diff_present, Set.ncard_diff ?_ (finite_list _),
    ncard_list _ (nodup_present E db o ms hnd)]
  intro m hm
  exact ((mem_present E db o m ms).mp hm).2

/-- Committing the batch of `Srem` (duplicate-free list, successful reads) on a store whose
cardinality record agrees with its member entries: the reply is the number of present
members, which stop being members, and the cardinality drops by that number, the record
being deleted when the set becomes empty. -/
theorem Srem_commit (E : Env) (db : DB) (o : Bytes) (ms : List Bytes) (c : Nat)
    (hmeta : MetaDisjoint E o) (hnd : ms.Nodup)
    (hr : ∀ m ∈ ms, db.readFails (setKey E o m) = false)
    (hc : scard E db o = (c, none)) (hcons : (members E db o).ncard = c) :
    (Srem E db o ms []).1 = Reply.uint32 (present E db o ms).length ∧
    scard E (db.Write (Srem E db o ms []).2) o = (c - (present E db o ms).length, none) ∧
    members E (db.Write (Srem E db o ms []).2) o = members E db o \ {m | m ∈ ms} ∧
    (members E (db.Write (Srem E db o ms []).2) o).ncard = c - (present E db o ms).length ∧
    (c ≠ 0 → (present E db o ms).length = c →
      lookup (E.metaKey o) (db.Write (Srem E db o ms []).2).entries = none) := by
  have hple : (present E db o ms).length ≤ c := by
    rw [← hcons]; exact present_length_le_ncard E db o ms hnd
  have hclt := scard_eq_val_lt E db o c none hc
  have hrm := scard_readFails E db o c hc
  have hn : (members E db o \ {m | m ∈ ms}).ncard = c - (present E db o ms).length := by
    rw [ncard_members_diff E db o ms hnd, hcons]
  by_cases hc0 : c = 0
  · subst hc0
    have hp0 : (present E db o ms).length = 0 := by omega
    have hpn : present E db o ms = [] := List.length_eq_zero.mp hp0
    rw [Srem_of_card_zero E db o ms [] hc, hp0]
    refine ⟨rfl, hc, ?_, ?_, fun h => absurd rfl h⟩
    · show members E db o = _
      rw [← members_diff_present, hpn]
      ext m; simp
    · show (members E db o).ncard = _
      rw [hcons]
  · rw [Srem_of_card_ne_zero E db o ms [] c (by omega) hr hc hc0]
    simp only [List.nil_append]
    by_cases h1 : (present E db o ms).length = c
    · simp only [h1, ↓reduceIte, Nat.sub_self]
      have hmem : members E (db.Write (deleteEntries E o (present E db o ms)
          ++ [Op.delete (E.metaKey o)])) o = members E db o \ {m | m ∈ ms} := by
        rw [← members_diff_present]
        ext m
        simp only [mem_members, lookup_Write_deletes_delete, if_neg (hmeta m), mem_map_setKey,
          Set.mem_diff, Set.mem_setOf_eq]
        by_cases h : m ∈ present E db o ms <;> simp [h]
      have hlk : lookup (E.metaKey o) (db.Write (deleteEntries E o (present E db o ms)
          ++ [Op.delete (E.metaKey o)])).entries = none := by
        rw [lookup_Write_deletes_delete, if_pos rfl]
      refine ⟨trivial, ?_, hmem, ?_, fun _ _ => hlk⟩
      · apply scard_of_none
        · rw [readFails_Write]; exact hrm
        · exact hlk
      · rw [hmem, hn, h1, Nat.sub_self]
    · by_cases h2 : (present E db o ms).length > 0
      · simp only [h1, h2, ↓reduceIte]
        have hmod : (c + 2 ^ 32 - (present E db o ms).length) % 2 ^ 32
            = c - (present E db o ms).length := by
          have : c + 2 ^ 32 - (present E db o ms).length
              = (c - (present E db o ms).length) + 2 ^ 32 := by omega
          rw [this, Nat.add_mod_right]
          exact Nat.mod_eq_of_lt (by omega)
        rw [hmod]
        have hmem : members E (db.Write (deleteEntries E o (present E db o ms)
            ++ [Op.put (E.metaKey o) (cardRecord E (c - (present E db o ms).length))])) o
            = members E db o \ {m | m ∈ ms} := by
          rw [← members_diff_present]
          ext m
          simp only [mem_members, lookup_Write_deletes_put, if_neg (hmeta m), mem_map_setKey,
            Set.mem_diff, Set.mem_setOf_eq]
          by_cases h : m ∈ present E db o ms <;> simp [h]
        refine ⟨trivial, ?_, hmem, ?_, fun _ h => by first | exact absurd h h1 | exact h.elim⟩
        · apply scard_of_record E _ o _ (by omega)
          · rw [readFails_Write]; exact hrm
          · rw [lookup_Write_deletes_put, if_pos rfl]
        · rw [hmem, hn]
      · have hp0 : (present E db o ms).length = 0 := by omega
        have hpn : present E db o ms = [] := List.length_eq_zero.mp hp0
        rw [if_neg h1, if_neg h2, hpn]
        rw [hpn] at hn
        refine ⟨trivial, hc, ?_, ?_, fun _ h => absurd (by rw [hpn]; exact h) h1⟩
        · show members E db o = _
          rw [← members_diff_present, hpn]
          ext m; simp
        · show (members E db o).ncard = _
          rw [hcons]; rfl

/-- Committing the batch of `Spop` on a store whose cardinality record agrees with its member
entries: `Spop` does not panic; either it returns nil and stages nothing, or it returns a
member, which stops being a member, and the cardinality drops by one, the record being
deleted when the set becomes empty. -/
theorem Spop_commit (E : Env) (db : DB) (rnd : Byte) (o : Bytes) (c : Nat)
    (hmeta : MetaDisjoint E o) (hlen : o.length < 2 ^ 32)
    (hc : scard E db o = (c, none)) (hcons : (members E db o).ncard = c) :
    ∃ reply wb, Spop E db rnd o [] = Run.ok (reply, wb) ∧
      ((reply = Reply.nil ∧ wb = []) ∨
       (∃ m, reply = Reply.bytes m ∧ m ∈ members E db o ∧ c ≠ 0 ∧
          scard E (db.Write wb) o = (c - 1, none) ∧
          members E (db.Write wb) o = members E db o \ {m} ∧
          (members E (db.Write wb) o).ncard = c - 1 ∧
          (c = 1 → lookup (E.metaKey o) (db.Write wb).entries = none))) := by
  have hclt := scard_eq_val_lt E db o c none hc
  have hrm := scard_readFails E db o c hc
  unfold Spop
  simp only [hc]
  by_cases hc0 : c = 0
  · exact ⟨Reply.nil, [], by simp [hc0], Or.inl ⟨rfl, rfl⟩⟩
  · simp only [hc0, ↓reduceIte]
    obtain ⟨res, hres, hsound⟩ := srand_sound E db rnd o hlen
    rw [hres]
    cases res with
    | none => exact ⟨Reply.nil, [], rfl, Or.inl ⟨rfl, rfl⟩⟩
    | some m =>
      have hm : m ∈ members E db o := hsound m rfl
      have hdel : WriteBatch.Delete [] (setKey E o m) = deleteEntries E o [m] := rfl
      have hnc : (members E db o \ {m}).ncard = c - 1 := by
        rw [Set.ncard_diff_singleton_of_mem hm (members_finite E db o), hcons]
      by_cases h1 : c = 1
      · refine ⟨Reply.bytes m, (WriteBatch.Delete [] (setKey E o m)).Delete (E.metaKey o),
          by simp only [h1, ↓reduceIte], Or.inr ⟨m, rfl, hm, hc0, ?_⟩⟩
        rw [hdel]
        simp only [WriteBatch.Delete]
        have hmem : members E (db.Write (deleteEntries E o [m] ++ [Op.delete (E.metaKey o)])) o
            = members E db o \ {m} := by
          ext x
          simp only [mem_members, lookup_Write_deletes_delete, if_neg (hmeta x), mem_map_setKey,
            Set.mem_diff, Set.mem_singleton_iff, List.mem_singleton]
          by_cases h : x = m <;> simp [h]
        have hlk : lookup (E.metaKey o)
            (db.Write (deleteEntries E o [m] ++ [Op.delete (E.metaKey o)])).entries = none := by
          rw [lookup_Write_deletes_delete, if_pos rfl]
        refine ⟨?_, hmem, ?_, fun _ => hlk⟩
        · rw [h1]
          apply scard_of_none
          · rw [readFails_Write]; exact hrm
          · exact hlk
        · rw [hmem, hnc]
      · refine ⟨Reply.bytes m,
          setCard E o ((c + 2 ^ 32 - 1) % 2 ^ 32) (WriteBatch.Delete [] (setKey E o m)),
          by simp only [h1, ↓reduceIte], Or.inr ⟨m, rfl, hm, hc0, ?_⟩⟩
        rw [hdel, setCard_eq]
        have hmod : (c + 2 ^ 32 - 1) % 2 ^ 32 = c - 1 := by
          have : c + 2 ^ 32 - 1 = (c - 1) + 2 ^ 32 := by omega
          rw [this, Nat.add_mod_right]
          exact Nat.mod_eq_of_lt (by omega)
        rw [hmod]
        have hmem : members E (db.Write (deleteEntries E o [m]
            ++ [Op.put (E.metaKey o) (cardRecord E (c - 1))])) o = members E db o \ {m} := by
          ext x
          simp only [mem_members, lookup_Write_deletes_put, if_neg (hmeta x), mem_map_setKey,
            Set.mem_diff, Set.mem_singleton_iff, List.mem_singleton]
          by_cases h : x = m <;> simp [h]
        refine ⟨?_, hmem, ?_, fun h => absurd h h1⟩
        · apply scard_of_record E _ o _ (by omega)
          · rw [readFails_Write]; exact hrm
          · rw [lookup_Write_deletes_put, if_pos rfl]
        · rw [hmem, hnc]

/-! ## Sequences of mutating calls -/

theorem step_preserves (E : Env) (o : Bytes) (db : DB) (call : Call) (c : Nat)
    (hmeta : MetaDisjoint E o) (hlen : o.length < 2 ^ 32) (hreads : ReadsSucceed db)
    (hc : scard E db o = (c, none)) (hcons : (members E db o).ncard = c)
    (hnd : call.DupFree) (hb : c + call.adds < 2 ^ 32) :
    ∃ db2 c2, step E o db call = Run.ok db2 ∧ ReadsSucceed db2 ∧
      scard E db2 o = (c2, none) ∧ (members E db2 o).ncard = c2 ∧ c2 ≤ c + call.adds := by
  cases call with
  | sadd ms =>
    obtain ⟨_, h2, _, h4⟩ := Sadd_commit E db o ms c hmeta hnd (fun m _ => hreads _) hc hb
    refine ⟨_, _, rfl, ?_, h2, ?_, ?_⟩
    · intro k; rw [readFails_Write]; exact hreads k
    · rw [h4, hcons]
    · have := absent_length_le E db o ms
      simp only [Call.adds]; omega
  | srem ms =>
    obtain ⟨_, h2, _, h4, _⟩ := Srem_commit E db o ms c hmeta hnd (fun m _ => hreads _) hc hcons
    refine ⟨_, _, rfl, ?_, h2, h4, ?_⟩
    · intro k; rw [readFails_Write]; exact hreads k
    · simp only [Call.adds]; omega
  | spop rnd =>
    obtain ⟨reply, wb, hs, hcase⟩ := Spop_commit E db rnd o c hmeta hlen hc hcons
    rcases hcase with ⟨_, rfl⟩ | ⟨m, _, _, _, h2, _, h4, _⟩
    · exact ⟨db, c, by simp only [step, hs]; rfl, hreads, hc, hcons, by omega⟩
    · refine ⟨db.Write wb, c - 1, by simp only [step, hs], ?_, h2, h4, by omega⟩
      intro k; rw [readFails_Write]; exact hreads k

theorem run_preserves (E : Env) (o : Bytes) (calls : List Call) (db : DB) (c : Nat)
    (hmeta : MetaDisjoint E o) (hlen : o.length < 2 ^ 32) (hreads : ReadsSucceed db)
    (hc : scard E db o = (c, none)) (hcons : (members E db o).ncard = c)
    (hnd : ∀ call ∈ calls, call.DupFree) (hb : c + totalAdds calls < 2 ^ 32) :
    ∃ db2 c2, run E o db calls = Run.ok db2 ∧ ReadsSucceed db2 ∧
      scard E db2 o = (c2, none) ∧ (members E db2 o).ncard = c2 ∧
      c2 ≤ c + totalAdds calls := by
  induction calls generalizing db c with
  | nil => exact ⟨db, c, rfl, hreads, hc, hcons, Nat.le_add_right _ _⟩
  | cons call rest ih =>
    have hsum : totalAdds (call :: rest) = call.adds + totalAdds rest := by
      simp [totalAdds]
    obtain ⟨db1, c1, hstep, hr1, hc1, hcons1, hle⟩ :=
      step_preserves E o db call c hmeta hlen hreads hc hcons
        (hnd call (List.mem_cons_self _ _)) (by omega)
    obtain ⟨db2, c2, hrun, hr2, hc2, hcons2, hle2⟩ := ih db1 c1 hr1 hc1 hcons1
      (fun x hx => hnd x (List.mem_cons_of_mem _ hx)) (by omega)
    exact ⟨db2, c2, by simp only [run, hstep, hrun], hr2, hc2, hcons2, by omega⟩

theorem totalAdds_take_le (calls : List Call) (n : Nat) :
    totalAdds (calls.take n) ≤ totalAdds calls := by
  induction calls generalizing n with
  | nil => simp [totalAdds]
  | cons call rest ih =>
    cases n with
    | zero => simp [totalAdds]
    | succ n =>
      have := ih n
      simp only [totalAdds, List.take_succ_cons, List.map_cons, List.sum_cons] at this ⊢
      omega

theorem Sismember_eq_one_iff (E : Env) (db : DB) (o m : Bytes) (hreads : ReadsSucceed db) :
    Sismember E db o m = Reply.int 1 ↔ m ∈ members E db o := by
  rw [mem_members]
  unfold Sismember
  rw [Get_of_readFails_false db _ (hreads _)]
  cases lookup (setKey E o m) db.entries <;> simp

theorem demoEnv_metaDisjoint (o : Bytes) : MetaDisjoint demoEnv o := by
  intro m h
  rw [setKey_eq, setIterKey_eq] at h
  exact absurd (List.cons.inj h).1 (by decide)

theorem members_emptyDB (E : Env) (o : Bytes) : members E emptyDB o = ∅ := by
  ext m
  simp [mem_members, emptyDB, lookup]

/-- A member list that names a member twice. On the empty store, `Sadd` with the list `[m, m]`
stages two `Put`s of the same entry and a cardinality of 2: after the commit `scard` returns 2
while `Smembers` returns the one member, and `Sismember` holds for that member only. -/
theorem Sadd_duplicate_breaks_cardinality :
    scard demoEnv (emptyDB.Write (Sadd demoEnv emptyDB [1] [[2], [2]] []).2) [1] = (2, none) ∧
    Smembers demoEnv (emptyDB.Write (Sadd demoEnv emptyDB [1] [[2], [2]] []).2) [1]
      = Run.ok (Reply.array [[2]]) ∧
    Sismember demoEnv (emptyDB.Write (Sadd demoEnv emptyDB [1] [[2], [2]] []).2) [1] [2]
      = Reply.int 1 := by
  decide

/-- C1 (amended). Start from a store all of whose reads succeed and in which the cardinality
record of `owner` decodes to the number `c` of its member entries; let `owner` be shorter than
`2^32` bytes, its metadata key be none of its member-entry keys, every `Sadd` and `Srem` list
name no member twice, and `c` plus the lengths of the `Sadd` lists stay below `2^32` and be a
number of reply slots that the runtime can allocate. Then after every call of the sequence
(each batch committed before the next call) no call has panicked, and `scard` returns the
number of `m` for which `Sismember` returns 1, which is the length of `Smembers`. -/
theorem cardinality_consistency (E : Env) (owner : Bytes) (db : DB) (calls : List Call) (c : Nat)
    (hmeta : MetaDisjoint E owner) (hlen : owner.length < 2 ^ 32) (hreads : ReadsSucceed db)
    (hc : scard E db owner = (c, none)) (hcons : (members E db owner).ncard = c)
    (hnd : ∀ call ∈ calls, call.DupFree) (hb : c + totalAdds calls < 2 ^ 32)
    (hcap : c + totalAdds calls ≤ E.maxCap) (n : Nat) :
    ∃ db2 c2, run E owner db (calls.take n) = Run.ok db2 ∧
      scard E db2 owner = (c2, none) ∧
      Set.ncard {m | Sismember E db2 owner m = Reply.int 1} = c2 ∧
      ∃ l, Smembers E db2 owner = Run.ok (Reply.array l) ∧ l.length = c2 := by
  have hle := totalAdds_take_le calls n
  obtain ⟨db2, c2, hrun, hr2, hc2, hcons2, hle2⟩ :=
    run_preserves E owner (calls.take n) db c hmeta hlen hreads hc hcons
      (fun x hx => hnd x (List.mem_of_mem_take hx)) (by omega)
  refine ⟨db2, c2, hrun, hc2, ?_, ?_⟩
  · have : {m | Sismember E db2 owner m = Reply.int 1} = members E db2 owner := by
      ext m
      exact Sismember_eq_one_iff E db2 owner m hr2
    rw [this, hcons2]
  · obtain ⟨l, hl, _, _, hlen2⟩ := Smembers_full E db2 owner c2 hlen hc2 (by omega)
    exact ⟨l, hl, hlen2 hcons2⟩

theorem cardinality_consistency_witness :
    ∃ db2 c2,
      run demoEnv [1] emptyDB
        ([Call.sadd [[2], [3]], Call.srem [[2]], Call.spop 0].take 3) = Run.ok db2 ∧
      scard demoEnv db2 [1] = (c2, none) ∧
      Set.ncard {m | Sismember demoEnv db2 [1] m = Reply.int 1} = c2 ∧
      ∃ l, Smembers demoEnv db2 [1] = Run.ok (Reply.array l) ∧ l.length = c2 :=
  cardinality_consistency demoEnv [1] emptyDB
    [Call.sadd [[2], [3]], Call.srem [[2]], Call.spop 0] 0
    (demoEnv_metaDisjoint [1]) (by decide) (fun _ => rfl) (by decide)
    (by rw [members_emptyDB]; exact Set.ncard_empty _)
    (by
      intro call hcall
      simp only [List.mem_cons, List.mem_singleton, List.not_mem_nil, or_false] at hcall
      rcases hcall with rfl | rfl | rfl
      · show ([[2], [3]] : List Bytes).Nodup
        decide
      · show ([[2]] : List Bytes).Nodup
        decide
      · trivial)
    (by decide) (by decide) 3

/-! ## Claims about single calls -/

/-- C5, the code at the failing input. On the empty store `Sadd` with the list `[m, m]` returns
2, although the store holds no member of the owner before the call and exactly one after the
commit. -/
theorem Sadd_duplicate_reply :
    (Sadd demoEnv emptyDB [1] [[2], [2]] []).1 = Reply.uint32 2 ∧
    memberList demoEnv emptyDB [1] = [] ∧
    memberList demoEnv (emptyDB.Write (Sadd demoEnv emptyDB [1] [[2], [2]] []).2) [1] = [[2]] := by
  decide

/-- C7, the code at the failing input. On the store that holds only the set
`fruits = {"apple"}`, with the random byte `0xff` the seek key lies after the last key of the
store, the iterator is not valid and `srand` returns nil without stepping back; `Spop` then
returns nil and stages nothing, although the cardinality is 1 and `"apple"` is a member. -/
theorem srand_misses_member :
    scard demoEnv fruitsDB fruits = (1, none) ∧
    Sismember demoEnv fruitsDB fruits apple = Reply.int 1 ∧
    srand demoEnv fruitsDB 255 fruits = Run.ok none ∧
    Spop demoEnv fruitsDB 255 fruits [] = Run.ok (Reply.nil, []) := by
  decide

/-- C6, counterexample. `Srem` of `[2], [3]` on a store whose read of the second entry fails
returns the error with the `Delete` of the first entry staged in the batch. -/
theorem Srem_partial_batch :
    Srem demoEnv failingDB [1] [[2], [3]] []
      = (Reply.err Error.DatabaseError, [Op.delete (setKey demoEnv [1] [2])]) := by
  decide

theorem Sadd_of_read_failure (E : Env) (db : DB) (o : Bytes) (pre : List Bytes) (m : Bytes)
    (post : List Bytes) (wb : WriteBatch)
    (hr : ∀ x ∈ pre, db.readFails (setKey E o x) = false)
    (hm : db.readFails (setKey E o m) = true) :
    Sadd E db o (pre ++ m :: post) wb
      = (Reply.err Error.DatabaseError, wb ++ putEntries E o (absent E db o pre)) := by
  obtain ⟨k, hk⟩ := Sadd_loop_fail E db o pre m post 0 wb hr hm
  unfold Sadd
  rw [hk]

theorem Srem_of_read_failure (E : Env) (db : DB) (o : Bytes) (pre : List Bytes) (m : Bytes)
    (post : List Bytes) (wb : WriteBatch) (c : Nat)
    (hc : scard E db o = (c, none)) (hc0 : c ≠ 0)
    (hr : ∀ x ∈ pre, db.readFails (setKey E o x) = false)
    (hm : db.readFails (setKey E o m) = true) :
    Srem E db o (pre ++ m :: post) wb
      = (Reply.err Error.DatabaseError, wb ++ deleteEntries E o (present E db o pre)) := by
  obtain ⟨k, hk⟩ := Srem_loop_fail E db o pre m post 0 wb hr hm
  unfold Srem
  simp only [hc, hc0, ↓reduceIte]
  rw [hk]

theorem Spop_error_batch (E : Env) (db : DB) (rnd : Byte) (o : Bytes) (wb wb2 : WriteBatch)
    (e : Error) (h : Spop E db rnd o wb = Run.ok (Reply.err e, wb2)) : wb2 = wb := by
  unfold Spop at h
  split at h
  · simp only [Run.ok.injEq, Prod.mk.injEq, Reply.err.injEq] at h
    exact h.2.symm
  · split at h
    · simp at h
    · split at h
      · simp at h
      · simp at h
      · split at h <;> simp at h

/-- C6 (amended). `Spop` that returns an error, and `Srem` whose read of the cardinality record
returns an error, leave the batch as it was passed. When the read of a listed member's entry
fails, `Sadd` and `Srem` return that error with the batch extended by exactly the writes staged
for the members listed before it: a `Put` of each absent one, respectively a `Delete` of each
present one, and no write of the cardinality record. -/
theorem no_partial_batch (E : Env) (db : DB) (owner : Bytes) (wb : WriteBatch) :
    (∀ rnd e wb2, Spop E db rnd owner wb = Run.ok (Reply.err e, wb2) → wb2 = wb) ∧
    (∀ ms c e, scard E db owner = (c, some e) → Srem E db owner ms wb = (Reply.err e, wb)) ∧
    (∀ pre m post, (∀ x ∈ pre, db.readFails (setKey E owner x) = false) →
      db.readFails (setKey E owner m) = true →
      Sadd E db owner (pre ++ m :: post) wb
        = (Reply.err Error.DatabaseError, wb ++ putEntries E owner (absent E db owner pre))) ∧
    (∀ pre m post c, scard E db owner = (c, none) → c ≠ 0 →
      (∀ x ∈ pre, db.readFails (setKey E owner x) = false) →
      db.readFails (setKey E owner m) = true →
      Srem E db owner (pre ++ m :: post) wb
        = (Reply.err Error.DatabaseError,
            wb ++ deleteEntries E owner (present E db owner pre))) :=
  ⟨fun rnd e wb2 h => Spop_error_batch E db rnd owner wb wb2 e h,
   fun ms c e hc => Srem_of_scard_error E db owner ms wb c e hc,
   fun pre m post hr hm => Sadd_of_read_failure E db owner pre m post wb hr hm,
   fun pre m post c hc hc0 hr hm => Srem_of_read_failure E db owner pre m post wb c hc hc0 hr hm⟩

theorem no_partial_batch_witness :
    Srem demoEnv failingDB [1] ([[2]] ++ [3] :: []) []
      = (Reply.err Error.DatabaseError,
          [] ++ deleteEntries demoEnv [1] (present demoEnv failingDB [1] [[2]])) :=
  (no_partial_batch demoEnv failingDB [1] []).2.2.2 [[2]] [3] [] 2 (by decide) (by decide)
    (by decide) (by decide)

/-- C9. Idempotent membership: when `m` is not a member and the cardinality `c` is below
`2^32 - 1`, `Sadd [m]` returns 1; after the commit a second `Sadd [m]` returns 0 and stages no
write; and after its commit `scard` returns `c + 1`. -/
theorem Sadd_idempotent (E : Env) (db : DB) (owner m : Bytes) (c : Nat)
    (hget : db.Get (setKey E owner m) = (none, none))
    (hc : scard E db owner = (c, none)) (hb : c < 2 ^ 32 - 1) :
    (Sadd E db owner [m] []).1 = Reply.uint32 1 ∧
    Sadd E (db.Write (Sadd E db owner [m] []).2) owner [m] [] = (Reply.uint32 0, []) ∧
    scard E ((db.Write (Sadd E db owner [m] []).2).Write
      (Sadd E (db.Write (Sadd E db owner [m] []).2) owner [m] []).2) owner = (c + 1, none) := by
  have hrf : db.readFails (setKey E owner m) = false := by
    cases h : db.readFails (setKey E owner m) with
    | false => rfl
    | true => rw [Get_of_readFails_true db _ h] at hget; simp at hget
  have hlk : lookup (setKey E owner m) db.entries = none := by
    rw [Get_of_readFails_false db _ hrf] at hget
    exact (Prod.mk.inj hget).1
  have hr : ∀ x ∈ [m], db.readFails (setKey E owner x) = false := by
    intro x hx; rw [List.mem_singleton.mp hx]; exact hrf
  have habs : absent E db owner [m] = [m] := by simp [absent, hlk]
  have h1 : Sadd E db owner [m] []
      = (Reply.uint32 1, putEntries E owner [m]
          ++ [Op.put (E.metaKey owner) (cardRecord E (c + 1))]) := by
    have hlt : (absent E db owner [m]).length < 2 ^ 32 := by
      rw [habs, List.length_singleton]
      exact Nat.one_lt_two_pow (by decide)
    have hne : absent E db owner [m] ≠ [] := by rw [habs]; simp
    have := Sadd_of_absent_ne_nil E db owner [m] [] c hlt hr hne hc
    rw [habs] at this
    rw [this]
    simp only [List.length_singleton, List.nil_append]
    rw [Nat.mod_eq_of_lt (by omega)]
  rw [h1]
  simp only
  have hlk1 : (lookup (setKey E owner m) (db.Write (putEntries E owner [m]
      ++ [Op.put (E.metaKey owner) (cardRecord E (c + 1))])).entries).isNone = false := by
    rw [lookup_Write_puts]
    by_cases h : E.metaKey owner = setKey E owner m <;> simp [h]
  have hr1 : ∀ x ∈ [m], (db.Write (putEntries E owner [m]
      ++ [Op.put (E.metaKey owner) (cardRecord E (c + 1))])).readFails (setKey E owner x)
      = false := by
    intro x hx; rw [readFails_Write]; exact hr x hx
  have h2 := Sadd_of_absent_nil E _ owner [m] [] hr1 (by simp [absent, hlk1])
  rw [h2]
  refine ⟨trivial, rfl, ?_⟩
  show scard E (db.Write _) owner = _
  apply scard_of_record E _ owner _ (by omega)
  · rw [readFails_Write]; exact scard_readFails E db owner c hc
  · rw [lookup_Write_puts, if_pos rfl]

theorem Sadd_idempotent_witness :
    (Sadd demoEnv emptyDB [1] [[2]] []).1 = Reply.uint32 1 ∧
    Sadd demoEnv (emptyDB.Write (Sadd demoEnv emptyDB [1] [[2]] []).2) [1] [[2]] []
      = (Reply.uint32 0, []) ∧
    scard demoEnv ((emptyDB.Write (Sadd demoEnv emptyDB [1] [[2]] []).2).Write
      (Sadd demoEnv (emptyDB.Write (Sadd demoEnv emptyDB [1] [[2]] []).2) [1] [[2]] []).2) [1]
      = (0 + 1, none) :=
  Sadd_idempotent demoEnv emptyDB [1] [2] 0 (by decide) (by decide) (by decide)

theorem lookup_after_last_removed (E : Env) (db : DB) (o m : Bytes)
    (hc : scard E db o = (1, none))
    (honly : ∀ x, setKey E o x ∈ db.keys → x = m) :
    lookup (E.metaKey o)
        (db.Write (deleteEntries E o [m] ++ [Op.delete (E.metaKey o)])).entries = none ∧
    (∀ x, setKey E o x ∉
      (db.Write (deleteEntries E o [m] ++ [Op.delete (E.metaKey o)])).keys) ∧
    scard E (db.Write (deleteEntries E o [m] ++ [Op.delete (E.metaKey o)])) o = (0, none) := by
  have hlk : lookup (E.metaKey o)
      (db.Write (deleteEntries E o [m] ++ [Op.delete (E.metaKey o)])).entries = none := by
    rw [lookup_Write_deletes_delete, if_pos rfl]
  refine ⟨hlk, ?_, ?_⟩
  · intro x hx
    rw [mem_keys, lookup_Write_deletes_delete] at hx
    by_cases h1 : E.metaKey o = setKey E o x
    · simp [h1] at hx
    · rw [if_neg h1] at hx
      by_cases h2 : setKey E o x ∈ List.map (setKey E o) [m]
      · rw [if_pos h2] at hx
        simp at hx
      · rw [if_neg h2, ← mem_keys] at hx
        exact h2 ((mem_map_setKey E o x [m]).mpr (List.mem_singleton.mpr (honly x hx)))
  · apply scard_of_none
    · rw [readFails_Write]; exact scard_readFails E db o 1 hc
    · exact hlk

/-- C10. Empty-set vanishing: on a store whose cardinality record decodes to 1 and whose only
member is `m`, after the commit of the batch staged by `Srem [m]`, and after the commit of the
batch staged by a `Spop` that returns `m`, the store holds no record at the metadata key and
no member entry of the owner, and `scard` returns 0. -/
theorem empty_set_vanishes (E : Env) (db : DB) (owner m : Bytes)
    (hc : scard E db owner = (1, none))
    (hm : Sismember E db owner m = Reply.int 1)
    (honly : ∀ x, setKey E owner x ∈ db.keys → x = m) :
    (lookup (E.metaKey owner) (db.Write (Srem E db owner [m] []).2).entries = none ∧
      (∀ x, setKey E owner x ∉ (db.Write (Srem E db owner [m] []).2).keys) ∧
      scard E (db.Write (Srem E db owner [m] []).2) owner = (0, none)) ∧
    (∀ rnd wb, Spop E db rnd owner [] = Run.ok (Reply.bytes m, wb) →
      lookup (E.metaKey owner) (db.Write wb).entries = none ∧
      (∀ x, setKey E owner x ∉ (db.Write wb).keys) ∧
      scard E (db.Write wb) owner = (0, none)) := by
  have hrf : db.readFails (setKey E owner m) = false := by
    cases h : db.readFails (setKey E owner m) with
    | false => rfl
    | true =>
      unfold Sismember at hm
      rw [Get_of_readFails_true db _ h] at hm
      simp at hm
  have hlk : (lookup (setKey E owner m) db.entries).isSome = true := by
    unfold Sismember at hm
    rw [Get_of_readFails_false db _ hrf] at hm
    cases h : lookup (setKey E owner m) db.entries with
    | none => rw [h] at hm; simp at hm
    | some v => rfl
  have hpres : present E db owner [m] = [m] := by simp [present, hlk]
  have hfinal := lookup_after_last_removed E db owner m hc honly
  constructor
  · have hr : ∀ x ∈ [m], db.readFails (setKey E owner x) = false := by
      intro x hx; rw [List.mem_singleton.mp hx]; exact hrf
    have hlt : (present E db owner [m]).length < 2 ^ 32 := by
      rw [hpres, List.length_singleton]
      exact Nat.one_lt_two_pow (by decide)
    have h := Srem_of_card_ne_zero E db owner [m] [] 1 hlt hr hc (by decide)
    rw [hpres] at h
    simp only [List.length_singleton, ↓reduceIte, List.nil_append] at h
    rw [h]
    exact hfinal
  · intro rnd wb hs
    unfold Spop at hs
    simp only [hc, Nat.one_ne_zero, ↓reduceIte] at hs
    split at hs
    · simp at hs
    · simp at hs
    · simp only [Run.ok.injEq, Prod.mk.injEq, Reply.bytes.injEq] at hs
      obtain ⟨hmem, hwb⟩ := hs
      subst hmem
      rw [← hwb]
      exact hfinal

theorem empty_set_vanishes_witness :
    (lookup (demoEnv.metaKey fruits)
        (fruitsDB.Write (Srem demoEnv fruitsDB fruits [apple] []).2).entries = none ∧
      (∀ x, setKey demoEnv fruits x ∉
        (fruitsDB.Write (Srem demoEnv fruitsDB fruits [apple] []).2).keys) ∧
      scard demoEnv (fruitsDB.Write (Srem demoEnv fruitsDB fruits [apple] []).2) fruits
        = (0, none)) ∧
    (∀ rnd wb, Spop demoEnv fruitsDB rnd fruits [] = Run.ok (Reply.bytes apple, wb) →
      lookup (demoEnv.metaKey fruits) (fruitsDB.Write wb).entries = none ∧
      (∀ x, setKey demoEnv fruits x ∉ (fruitsDB.Write wb).keys) ∧
      scard demoEnv (fruitsDB.Write wb) fruits = (0, none)) :=
  empty_set_vanishes demoEnv fruitsDB fruits apple (by decide) (by decide)
    (by
      intro x hx
      have hmem : x ∈ memberList demoEnv fruitsDB fruits :=
        (mem_memberList demoEnv fruitsDB fruits x).mpr hx
      have hl : memberList demoEnv fruitsDB fruits = [apple] := by decide
      rw [hl] at hmem
      exact List.mem_singleton.mp hmem)

/-- On the store holding only `fruits = {"apple"}`, `Spop` with the random byte 0 returns
`"apple"` and stages the two `Delete`s. -/
theorem Spop_fruits_zero :
    Spop demoEnv fruitsDB 0 fruits []
      = Run.ok (Reply.bytes apple,
          [Op.delete (setKey demoEnv fruits apple), Op.delete (demoEnv.metaKey fruits)]) := by
  decide

/-- The early return of `srand`: when every key of the store is below the seek key, the
iterator is not valid after `Seek` and `srand` returns nil without stepping back, whatever
the set holds. -/
theorem srand_nil_of_all_below (E : Env) (db : DB) (rnd : Byte) (o : Bytes)
    (h : ∀ k ∈ db.keys, bytesLt k (randSetIterKey E o rnd) = true) :
    srand E db rnd o = Run.ok none := by
  have hafter : (db.NewIterator.Seek (randSetIterKey E o rnd)).after = [] := by
    rw [Seek_after, List.dropWhile_eq_nil_iff]
    exact h
  unfold srand
  simp [Iterator.Valid, hafter]

/-! ## Layout, round trips and boundary cases -/

theorem Spop_of_card_zero (E : Env) (db : DB) (rnd : Byte) (o : Bytes) (wb : WriteBatch)
    (hc : scard E db o = (0, none)) : Spop E db rnd o wb = Run.ok (Reply.nil, wb) := by
  unfold Spop
  simp [hc]

/-- C12. Removal from an empty set is a no-op: when `scard` returns 0, `Srem` returns 0 with
the batch unchanged, and `Spop` returns nil (no error, no panic) with the batch unchanged,
for every member list and every random byte. -/
theorem removal_from_empty (E : Env) (db : DB) (owner : Bytes) (wb : WriteBatch)
    (hc : scard E db owner = (0, none)) :
    (∀ ms, Srem E db owner ms wb = (Reply.uint32 0, wb)) ∧
    (∀ rnd, Spop E db rnd owner wb = Run.ok (Reply.nil, wb)) :=
  ⟨fun ms => Srem_of_card_zero E db owner ms wb hc,
   fun rnd => Spop_of_card_zero E db rnd owner wb hc⟩

theorem removal_from_empty_witness :
    (∀ ms, Srem demoEnv emptyDB [1] ms [Op.delete [9]] = (Reply.uint32 0, [Op.delete [9]])) ∧
    (∀ rnd, Spop demoEnv emptyDB rnd [1] [Op.delete [9]]
      = Run.ok (Reply.nil, [Op.delete [9]])) :=
  removal_from_empty demoEnv emptyDB [1] [Op.delete [9]] (by decide)

theorem be32_value (v : Nat) (hv : v < 2 ^ 32) (b0 b1 b2 b3 : Byte)
    (h : be32 v = [b0, b1, b2, b3]) :
    b0.val * 2 ^ 24 + b1.val * 2 ^ 16 + b2.val * 2 ^ 8 + b3.val = v := by
  have h1 := Uint32_be32 v hv [] (by simp [be32_length])
  have h2 : Uint32 (be32 v ++ []) (by simp [be32_length])
      = Uint32 [b0, b1, b2, b3] (by simp) :=
    Uint32_congr _ _ (by rw [List.append_nil, h]) _ _
  rw [h1, Uint32_cons] at h2
  exact h2.symm

theorem setKey_length (E : Env) (o m : Bytes) :
    (setKey E o m).length = 5 + o.length + m.length := by
  rw [setKey_eq, List.length_append, setIterKey_length]

/-- C14. Key layout, for an owner key shorter than `2^32` bytes: `setIterKey` is the byte
`SetKey`, the four bytes of the big-endian encoding of the owner length (most significant
first, their value being that length), then the owner; `setKey` is `setIterKey` followed by
the member; `randSetIterKey` is `setIterKey` followed by exactly one byte, the random one;
with the lengths `5 + len(o)`, `5 + len(o) + len(m)` and `6 + len(o)`. -/
theorem key_layout (E : Env) (o m : Bytes) (rnd : Byte) (hlen : o.length < 2 ^ 32) :
    setIterKey E o = [E.SetKey] ++ be32 o.length ++ o ∧
    (∃ b0 b1 b2 b3 : Byte, be32 o.length = [b0, b1, b2, b3] ∧
      b0.val * 2 ^ 24 + b1.val * 2 ^ 16 + b2.val * 2 ^ 8 + b3.val = o.length) ∧
    (setIterKey E o).length = 5 + o.length ∧
    setKey E o m = setIterKey E o ++ m ∧
    (setKey E o m).length = 5 + o.length + m.length ∧
    randSetIterKey E o rnd = setIterKey E o ++ [rnd] ∧
    (randSetIterKey E o rnd).length = 6 + o.length := by
  refine ⟨?_, ⟨_, _, _, _, rfl, be32_value _ hlen _ _ _ _ rfl⟩, setIterKey_length E o,
    setKey_eq E o m, setKey_length E o m, randSetIterKey_eq E o rnd, ?_⟩
  · rw [setIterKey_eq, uint32_of_lt _ hlen]; rfl
  · rw [randSetIterKey_eq, List.length_append, setIterKey_length, List.length_singleton]
    omega

theorem key_layout_witness :
    setIterKey demoEnv fruits = [demoEnv.SetKey] ++ be32 fruits.length ++ fruits ∧
    (∃ b0 b1 b2 b3 : Byte, be32 fruits.length = [b0, b1, b2, b3] ∧
      b0.val * 2 ^ 24 + b1.val * 2 ^ 16 + b2.val * 2 ^ 8 + b3.val = fruits.length) ∧
    (setIterKey demoEnv fruits).length = 5 + fruits.length ∧
    setKey demoEnv fruits apple = setIterKey demoEnv fruits ++ apple ∧
    (setKey demoEnv fruits apple).length = 5 + fruits.length + apple.length ∧
    randSetIterKey demoEnv fruits 255 = setIterKey demoEnv fruits ++ [255] ∧
    (randSetIterKey demoEnv fruits 255).length = 6 + fruits.length :=
  key_layout demoEnv fruits apple 255 (by decide)

/-- C15. Cardinality record round trip: for a 32-bit value `c`, `setCard` appends to the batch
exactly one `Put`, at the metadata key, of the five bytes `SetCardValue` followed by the
big-endian encoding of `c`; once that batch is committed to a store whose read of the
metadata key succeeds, `scard` returns `c` with no error. -/
theorem setCard_round_trip (E : Env) (db : DB) (owner : Bytes) (c : Nat) (wb : WriteBatch)
    (hc : c < 2 ^ 32) (hr : db.readFails (E.metaKey owner) = false) :
    setCard E owner c wb = wb ++ [Op.put (E.metaKey owner) (E.SetCardValue :: be32 c)] ∧
    (E.SetCardValue :: be32 c).length = 5 ∧
    (∃ b0 b1 b2 b3 : Byte, be32 c = [b0, b1, b2, b3] ∧
      b0.val * 2 ^ 24 + b1.val * 2 ^ 16 + b2.val * 2 ^ 8 + b3.val = c) ∧
    scard E (db.Write (setCard E owner c [])) owner = (c, none) := by
  refine ⟨setCard_eq E owner c wb, by rw [List.length_cons, be32_length],
    ⟨_, _, _, _, rfl, be32_value _ hc _ _ _ _ rfl⟩, ?_⟩
  apply scard_of_record E _ owner c hc
  · rw [readFails_Write]; exact hr
  · rw [setCard_eq, lookup_Write, effect_append, effect_put_singleton]
    simp [effect, cardRecord]

theorem setCard_round_trip_witness :
    setCard demoEnv [1] 258 []
      = [] ++ [Op.put (demoEnv.metaKey [1]) (demoEnv.SetCardValue :: be32 258)] ∧
    (demoEnv.SetCardValue :: be32 258).length = 5 ∧
    (∃ b0 b1 b2 b3 : Byte, be32 258 = [b0, b1, b2, b3] ∧
      b0.val * 2 ^ 24 + b1.val * 2 ^ 16 + b2.val * 2 ^ 8 + b3.val = 258) ∧
    scard demoEnv (emptyDB.Write (setCard demoEnv [1] 258 [])) [1] = (258, none) :=
  setCard_round_trip demoEnv emptyDB [1] 258 [] (by decide) rfl

/-- C17. Member decoding undoes key encoding, for an owner key shorter than `2^32` bytes:
`parseMemberFromSetKey` returns the member of every member-entry key (the empty member
included) without panic, and on every key that begins with the iteration key it returns a
member whose member-entry key is that key. -/
theorem parse_round_trip (E : Env) (o : Bytes) (hlen : o.length < 2 ^ 32) :
    (∀ m, parseMemberFromSetKey (setKey E o m) = some m) ∧
    parseMemberFromSetKey (setKey E o []) = some [] ∧
    (∀ k, setIterKey E o <+: k →
      ∃ m, parseMemberFromSetKey k = some m ∧ setKey E o m = k) := by
  have h1 : ∀ m, parseMemberFromSetKey (setKey E o m) = some m := by
    intro m
    rw [setKey_eq, parse_of_begins E o _ (List.prefix_append _ _),
      drop_of_setIterKey_append E o m hlen]
  refine ⟨h1, h1 [], ?_⟩
  rintro k ⟨t, rfl⟩
  refine ⟨t, ?_, setKey_eq E o t⟩
  rw [← setKey_eq]; exact h1 t

theorem parse_round_trip_witness :
    (∀ m, parseMemberFromSetKey (setKey demoEnv fruits m) = some m) ∧
    parseMemberFromSetKey (setKey demoEnv fruits []) = some [] ∧
    (∀ k, setIterKey demoEnv fruits <+: k →
      ∃ m, parseMemberFromSetKey k = some m ∧ setKey demoEnv fruits m = k) :=
  parse_round_trip demoEnv fruits (by decide)

theorem Sismember_of_mem (E : Env) (db : DB) (o m : Bytes)
    (hr : db.readFails (setKey E o m) = false) (h : m ∈ members E db o) :
    Sismember E db o m = Reply.int 1 := by
  unfold Sismember
  rw [Get_of_readFails_false db _ hr]
  rw [mem_members] at h
  cases hl : lookup (setKey E o m) db.entries with
  | none => rw [hl] at h; simp at h
  | some v => rfl

theorem Sismember_of_not_mem (E : Env) (db : DB) (o m : Bytes)
    (hr : db.readFails (setKey E o m) = false) (h : m ∉ members E db o) :
    Sismember E db o m = Reply.int 0 := by
  unfold Sismember
  rw [Get_of_readFails_false db _ hr]
  rw [mem_members] at h
  cases hl : lookup (setKey E o m) db.entries with
  | none => rfl
  | some v => rw [hl] at h; simp at h

/-- C11. Add/remove round trip: on a store whose cardinality record of `owner` decodes to the
number `c < 2^32 - 1` of its member entries (the metadata key being no member-entry key of
`owner`, the read of the entry of `m` succeeding), after the commit of `Sadd [m]` the call
`Sismember m` returns 1, and after the commit of `Srem [m]` that follows it returns 0. -/
theorem add_remove_round_trip (E : Env) (db : DB) (owner m : Bytes) (c : Nat)
    (hmeta : MetaDisjoint E owner) (hr : db.readFails (setKey E owner m) = false)
    (hc : scard E db owner = (c, none)) (hcons : (members E db owner).ncard = c)
    (hb : c < 2 ^ 32 - 1) :
    Sismember E (db.Write (Sadd E db owner [m] []).2) owner m = Reply.int 1 ∧
    Sismember E ((db.Write (Sadd E db owner [m] []).2).Write
      (Srem E (db.Write (Sadd E db owner [m] []).2) owner [m] []).2) owner m = Reply.int 0 := by
  have hnd : [m].Nodup := List.nodup_singleton m
  have hrs : ∀ x ∈ [m], db.readFails (setKey E owner x) = false := by
    intro x hx; rw [List.mem_singleton.mp hx]; exact hr
  obtain ⟨_, hc1, hmem1, hn1⟩ :=
    Sadd_commit E db owner [m] c hmeta hnd hrs hc (by simp only [List.length_singleton]; omega)
  have hrs1 : ∀ x ∈ [m],
      (db.Write (Sadd E db owner [m] []).2).readFails (setKey E owner x) = false := by
    intro x hx; rw [readFails_Write]; exact hrs x hx
  have hin : m ∈ members E (db.Write (Sadd E db owner [m] []).2) owner := by
    rw [hmem1]; exact Or.inr (List.mem_singleton_self m)
  obtain ⟨_, _, hmem2, _⟩ :=
    Srem_commit E (db.Write (Sadd E db owner [m] []).2) owner [m] _ hmeta hnd hrs1 hc1
      (by rw [hn1, hcons])
  constructor
  · exact Sismember_of_mem E _ owner m (hrs1 m (List.mem_singleton_self m)) hin
  · apply Sismember_of_not_mem E _ owner m
      (by rw [readFails_Write]; exact hrs1 m (List.mem_singleton_self m))
    rw [hmem2]
    intro h
    exact h.2 (List.mem_singleton_self m)

theorem add_remove_round_trip_witness :
    Sismember demoEnv (emptyDB.Write (Sadd demoEnv emptyDB [1] [[2]] []).2) [1] [2]
      = Reply.int 1 ∧
    Sismember demoEnv ((emptyDB.Write (Sadd demoEnv emptyDB [1] [[2]] []).2).Write
      (Srem demoEnv (emptyDB.Write (Sadd demoEnv emptyDB [1] [[2]] []).2) [1] [[2]] []).2)
      [1] [2] = Reply.int 0 :=
  add_remove_round_trip demoEnv emptyDB [1] [2] 0 (demoEnv_metaDisjoint [1]) rfl (by decide)
    (by rw [members_emptyDB]; exact Set.ncard_empty _) (by decide)

/-! ## `DelSet` -/

theorem DelSet_loop_eq (p : Bytes) (l : List Bytes) (wb : WriteBatch) :
    DelSet.loop p l wb = wb ++ (l.takeWhile (fun k => p.isPrefixOf k)).map Op.delete := by
  induction l generalizing wb with
  | nil => simp [DelSet.loop]
  | cons key rest ih =>
    unfold DelSet.loop
    by_cases hk : p.isPrefixOf key = true
    · have hpast : pastKey p key = false := by simp [pastKey, hk]
      rw [hpast, List.takeWhile_cons_of_pos hk]
      simp only [Bool.false_eq_true, ↓reduceIte, ih, WriteBatch.Delete, List.map_cons,
        List.append_assoc, List.singleton_append]
    · have hpast : pastKey p key = true := by
        simp only [pastKey, Bool.not_eq_true']
        exact Bool.eq_false_iff.mpr hk
      rw [hpast, List.takeWhile_cons_of_neg hk]
      simp

theorem DelSet_eq (E : Env) (db : DB) (o : Bytes) (wb : WriteBatch) :
    DelSet E db o wb = wb ++ (ownerKeys E db o).map Op.delete := by
  unfold DelSet
  simp only []
  rw [Seek_after, DelSet_loop_eq, scan_eq_filter _ _ (ascending_keys db)]
  rfl

theorem effect_deletes (k : Bytes) (ks : List Bytes) :
    effect k (ks.map Op.delete) = if k ∈ ks then some none else none := by
  induction ks with
  | nil => simp [effect]
  | cons x rest ih =>
    rw [List.map_cons, effect, ih]
    by_cases h1 : k ∈ rest
    · simp [h1]
    · by_cases h2 : x = k
      · simp [h1, h2]
      · have : ¬ k = x := fun h => h2 h.symm
        simp [h1, h2, this]

theorem lookup_after_DelSet (E : Env) (db : DB) (o k : Bytes) :
    lookup k (db.Write (DelSet E db o [])).entries
      = if k ∈ ownerKeys E db o then none else lookup k db.entries := by
  rw [DelSet_eq, List.nil_append, lookup_Write, effect_deletes]
  by_cases h : k ∈ ownerKeys E db o <;> simp [h]

theorem metaKey_not_begins (E : Env) (o : Bytes) (hmeta : MetaDisjoint E o) :
    ¬ setIterKey E o <+: E.metaKey o := by
  rintro ⟨t, ht⟩
  exact hmeta t (by rw [setKey_eq, ht])

/-- The batch, the keys it deletes and the store after the commit of `DelSet`. -/
theorem DelSet_full (E : Env) (db : DB) (owner : Bytes) (wb : WriteBatch)
    (hlen : owner.length < 2 ^ 32) :
    DelSet E db owner wb = wb ++ (ownerKeys E db owner).map Op.delete ∧
    (∀ k, k ∈ ownerKeys E db owner ↔ k ∈ db.keys ∧ setIterKey E owner <+: k) ∧
    (ownerKeys E db owner = (memberList E db owner).map (setKey E owner) ∧
      (memberList E db owner).Nodup ∧
      ∀ m, m ∈ memberList E db owner ↔ setKey E owner m ∈ db.keys) ∧
    (MetaDisjoint E owner → E.metaKey owner ∉ ownerKeys E db owner) ∧
    (∀ o2 m2, o2.length < 2 ^ 32 → o2 ≠ owner → setKey E o2 m2 ∉ ownerKeys E db owner) ∧
    (∀ m, setKey E owner m ∉ (db.Write (DelSet E db owner [])).keys) ∧
    (∀ k, ¬ setIterKey E owner <+: k →
      lookup k (db.Write (DelSet E db owner [])).entries = lookup k db.entries) ∧
    (MetaDisjoint E owner →
      lookup (E.metaKey owner) (db.Write (DelSet E db owner [])).entries
        = lookup (E.metaKey owner) db.entries) := by
  have hframe : ∀ k, ¬ setIterKey E owner <+: k →
      lookup k (db.Write (DelSet E db owner [])).entries = lookup k db.entries := by
    intro k hk
    rw [lookup_after_DelSet, if_neg]
    intro h
    exact hk ((mem_ownerKeys E db owner k).mp h).2
  refine ⟨DelSet_eq E db owner wb, mem_ownerKeys E db owner,
    ⟨(ownerKeys_eq_map E db owner).symm, nodup_memberList E db owner,
      mem_memberList E db owner⟩, ?_, ?_, ?_, hframe, ?_⟩
  · intro hmeta h
    exact metaKey_not_begins E owner hmeta ((mem_ownerKeys E db owner _).mp h).2
  · intro o2 m2 h2 hne h
    exact hne ((setIterKey_prefix_iff E owner o2 m2 hlen h2).mp
      ((mem_ownerKeys E db owner _).mp h).2).symm
  · intro m hm
    rw [mem_keys, lookup_after_DelSet] at hm
    by_cases h : setKey E owner m ∈ ownerKeys E db owner
    · rw [if_pos h] at hm; simp at hm
    · rw [if_neg h, ← mem_keys] at hm
      exact h ((mem_ownerKeys E db owner _).mpr
        ⟨hm, by rw [setKey_eq]; exact List.prefix_append _ _⟩)
  · intro hmeta
    exact hframe _ (metaKey_not_begins E owner hmeta)

theorem DelSet_wrapped_length (o : Bytes) (h0 : uint32 o.length = 0) :
    DelSet demoEnv (emptyOwnerDB o) o [] = [Op.delete (setKey demoEnv [] o)] ∧
    Sismember demoEnv (emptyOwnerDB o) [] o = Reply.int 1 ∧
    lookup (setKey demoEnv [] o)
      ((emptyOwnerDB o).Write (DelSet demoEnv (emptyOwnerDB o) o [])).entries = none := by
  have hkey : setIterKey demoEnv o = setKey demoEnv [] o := by
    rw [setKey_eq, setIterKey_eq, setIterKey_eq, h0]
    simp [uint32]
  have hkeys : (emptyOwnerDB o).keys = [setKey demoEnv [] o] := by
    simp [DB.keys, emptyOwnerDB, insertKey]
  have hown : ownerKeys demoEnv (emptyOwnerDB o) o = [setKey demoEnv [] o] := by
    unfold ownerKeys
    rw [hkeys, hkey]
    have : (setKey demoEnv [] o).isPrefixOf (setKey demoEnv [] o) = true :=
      List.isPrefixOf_iff_prefix.mpr (List.prefix_refl _)
    simp [List.filter_cons, this]
  refine ⟨?_, ?_, ?_⟩
  · rw [DelSet_eq, hown]; rfl
  · simp [Sismember, DB.Get, emptyOwnerDB, lookup]
  · rw [lookup_after_DelSet, hown, if_pos (List.mem_singleton_self _)]

/-- C13, counterexample. An owner key of `2^32` bytes has the iteration key of the empty owner
key followed by those bytes: on the store that holds the member of that name in the set of
the empty owner key, `DelSet` of the long owner stages the `Delete` of that entry of the other
owner, which is gone after the commit. -/
theorem DelSet_long_owner :
    DelSet demoEnv (emptyOwnerDB longOwner) longOwner []
      = [Op.delete (setKey demoEnv [] longOwner)] ∧
    Sismember demoEnv (emptyOwnerDB longOwner) [] longOwner = Reply.int 1 ∧
    lookup (setKey demoEnv [] longOwner)
      ((emptyOwnerDB longOwner).Write
        (DelSet demoEnv (emptyOwnerDB longOwner) longOwner [])).entries = none :=
  DelSet_wrapped_length (List.replicate (2 ^ 32) 0)
    (uint32_length_replicate (2 ^ 32) (Nat.mod_self _))

/-- C13 (amended). For an owner key shorter than `2^32` bytes, `DelSet` appends to the batch
one `Delete` for each key of the store that begins with the iteration key, that is for each
member entry of the owner present, each once, and nothing else: no `Delete` of the metadata
key (which is no member-entry key of the owner) and no `Delete` of a member entry of another
owner whose key is shorter than `2^32` bytes. After the commit no member entry of the owner
remains and every record whose key does not begin with the iteration key, the cardinality
record included, is unchanged. -/
theorem DelSet_spec (E : Env) (db : DB) (owner : Bytes) (wb : WriteBatch)
    (hlen : owner.length < 2 ^ 32) :
    DelSet E db owner wb = wb ++ (ownerKeys E db owner).map Op.delete ∧
    (∀ k, k ∈ ownerKeys E db owner ↔ k ∈ db.keys ∧ setIterKey E owner <+: k) ∧
    (ownerKeys E db owner = (memberList E db owner).map (setKey E owner) ∧
      (memberList E db owner).Nodup ∧
      ∀ m, m ∈ memberList E db owner ↔ setKey E owner m ∈ db.keys) ∧
    (MetaDisjoint E owner → E.metaKey owner ∉ ownerKeys E db owner) ∧
    (∀ o2 m2, o2.length < 2 ^ 32 → o2 ≠ owner → setKey E o2 m2 ∉ ownerKeys E db owner) ∧
    (∀ m, setKey E owner m ∉ (db.Write (DelSet E db owner [])).keys) ∧
    (∀ k, ¬ setIterKey E owner <+: k →
      lookup k (db.Write (DelSet E db owner [])).entries = lookup k db.entries) ∧
    (MetaDisjoint E owner →
      lookup (E.metaKey owner) (db.Write (DelSet E db owner [])).entries
        = lookup (E.metaKey owner) db.entries) :=
  DelSet_full E db owner wb hlen

theorem DelSet_spec_witness :
    DelSet demoEnv fruitsDB fruits []
      = [] ++ (ownerKeys demoEnv fruitsDB fruits).map Op.delete ∧
    (∀ k, k ∈ ownerKeys demoEnv fruitsDB fruits ↔
      k ∈ fruitsDB.keys ∧ setIterKey demoEnv fruits <+: k) ∧
    (ownerKeys demoEnv fruitsDB fruits
        = (memberList demoEnv fruitsDB fruits).map (setKey demoEnv fruits) ∧
      (memberList demoEnv fruitsDB fruits).Nodup ∧
      ∀ m, m ∈ memberList demoEnv fruitsDB fruits ↔ setKey demoEnv fruits m ∈ fruitsDB.keys) ∧
    (MetaDisjoint demoEnv fruits → demoEnv.metaKey fruits ∉ ownerKeys demoEnv fruitsDB fruits) ∧
    (∀ o2 m2, o2.length < 2 ^ 32 → o2 ≠ fruits →
      setKey demoEnv o2 m2 ∉ ownerKeys demoEnv fruitsDB fruits) ∧
    (∀ m, setKey demoEnv fruits m ∉ (fruitsDB.Write (DelSet demoEnv fruitsDB fruits [])).keys) ∧
    (∀ k, ¬ setIterKey demoEnv fruits <+: k →
      lookup k (fruitsDB.Write (DelSet demoEnv fruitsDB fruits [])).entries
        = lookup k fruitsDB.entries) ∧
    (MetaDisjoint demoEnv fruits →
      lookup (demoEnv.metaKey fruits) (fruitsDB.Write (DelSet demoEnv fruitsDB fruits [])).entries
        = lookup (demoEnv.metaKey fruits) fruitsDB.entries) :=
  DelSet_spec demoEnv fruitsDB fruits [] (by decide)

/-- The batch of `DelSet` on the store holding only `fruits = {"apple"}`. -/
theorem DelSet_fruits :
    DelSet demoEnv fruitsDB fruits [] = [Op.delete (setKey demoEnv fruits apple)] := by
  decide

/-! ## Consistency of single calls -/

theorem no_members_of_ncard_zero (E : Env) (db : DB) (o : Bytes)
    (h : (members E db o).ncard = 0) : ∀ m, setKey E o m ∉ db.keys := by
  intro m hm
  have hempty : members E db o = ∅ := (Set.ncard_eq_zero (members_finite E db o)).mp h
  have : m ∈ members E db o := hm
  rw [hempty] at this
  exact this

theorem ncard_zero_of_no_members (E : Env) (db : DB) (o : Bytes)
    (h : ∀ m, setKey E o m ∉ db.keys) : (members E db o).ncard = 0 := by
  have : members E db o = ∅ := by
    ext m
    simp only [Set.mem_empty_iff_false, iff_false]
    exact h m
  rw [this, Set.ncard_empty]

/-- On a consistent store whose read of the metadata key succeeds, `scard` returns the number
of member entries. -/
theorem Consistent.scard_eq (E : Env) (db : DB) (o : Bytes) (hcons : Consistent E db o)
    (hr : db.readFails (E.metaKey o) = false) :
    ∃ c, scard E db o = (c, none) ∧ (members E db o).ncard = c ∧
      (c = 0 → lookup (E.metaKey o) db.entries = none) := by
  rcases hcons with ⟨hl, hm⟩ | ⟨n, hn, hc, hnc⟩
  · exact ⟨0, scard_of_none E db o hr hl, ncard_zero_of_no_members E db o hm, fun _ => hl⟩
  · exact ⟨n, hc, hnc, fun h => by omega⟩

theorem Consistent.of_card (E : Env) (db : DB) (o : Bytes) (c : Nat)
    (hc : scard E db o = (c, none)) (hn : (members E db o).ncard = c)
    (h0 : c = 0 → lookup (E.metaKey o) db.entries = none) : Consistent E db o := by
  by_cases hc0 : c = 0
  · subst hc0
    exact Or.inl ⟨h0 rfl, no_members_of_ncard_zero E db o hn⟩
  · exact Or.inr ⟨c, by omega, hc, hn⟩

/-- Consistency is preserved by `Sadd`, `Srem` and `Spop`, with the new cardinalities. -/
theorem mutators_consistent (E : Env) (db : DB) (owner : Bytes)
    (hmeta : MetaDisjoint E owner) (hreads : ReadsSucceed db)
    (hcons : Consistent E db owner) :
    ∃ c, scard E db owner = (c, none) ∧
      (∀ ms, ms.Nodup → c + ms.length < 2 ^ 32 →
        ∃ r, (Sadd E db owner ms []).1 = Reply.uint32 r ∧
          Consistent E (db.Write (Sadd E db owner ms []).2) owner ∧
          scard E (db.Write (Sadd E db owner ms []).2) owner = (c + r, none)) ∧
      (∀ ms, ms.Nodup →
        ∃ r, (Srem E db owner ms []).1 = Reply.uint32 r ∧ r ≤ c ∧
          Consistent E (db.Write (Srem E db owner ms []).2) owner ∧
          scard E (db.Write (Srem E db owner ms []).2) owner = (c - r, none)) ∧
      (owner.length < 2 ^ 32 →
        ∀ rnd, ∃ reply wb, Spop E db rnd owner [] = Run.ok (reply, wb) ∧
        Consistent E (db.Write wb) owner ∧
        ((reply = Reply.nil ∧ scard E (db.Write wb) owner = (c, none)) ∨
         (∃ m, reply = Reply.bytes m ∧ 1 ≤ c ∧
            scard E (db.Write wb) owner = (c - 1, none)))) := by
  obtain ⟨c, hc, hn, h0⟩ := Consistent.scard_eq E db owner hcons (hreads _)
  refine ⟨c, hc, ?_, ?_, ?_⟩
  · intro ms hnd hb
    obtain ⟨h1, h2, _, h4⟩ :=
      Sadd_commit E db owner ms c hmeta hnd (fun m _ => hreads _) hc hb
    refine ⟨_, h1, ?_, h2⟩
    by_cases ha : absent E db owner ms = []
    · rw [Sadd_of_absent_nil E db owner ms [] (fun m _ => hreads _) ha]
      exact hcons
    · have hpos : 0 < (absent E db owner ms).length := List.length_pos.mpr ha
      exact Consistent.of_card E _ owner _ h2 (by rw [h4, hn]) (fun h => by omega)
  · intro ms hnd
    obtain ⟨h1, h2, _, h4, h5⟩ :=
      Srem_commit E db owner ms c hmeta hnd (fun m _ => hreads _) hc hn
    have hle : (present E db owner ms).length ≤ c := by
      rw [← hn]; exact present_length_le_ncard E db owner ms hnd
    refine ⟨_, h1, hle, ?_, h2⟩
    by_cases hc0 : c = 0
    · subst hc0
      rw [Srem_of_card_zero E db owner ms [] hc]
      exact hcons
    · exact Consistent.of_card E _ owner _ h2 h4 (fun h => h5 hc0 (by omega))
  · intro hlen rnd
    obtain ⟨reply, wb, hs, hcase⟩ := Spop_commit E db rnd owner c hmeta hlen hc hn
    refine ⟨reply, wb, hs, ?_⟩
    rcases hcase with ⟨hr, rfl⟩ | ⟨m, hr, _, hc0, h2, _, h4, h5⟩
    · exact ⟨hcons, Or.inl ⟨hr, hc⟩⟩
    · exact ⟨Consistent.of_card E _ owner _ h2 h4 (fun h => h5 (by omega)),
        Or.inr ⟨m, hr, by omega, h2⟩⟩

/-- When `Seek` lands on a key that begins with the iteration key, `srand` returns what
`parseMemberFromSetKey` cuts from that key: the bytes behind the five header bytes and
`uint32(len(owner))` further ones. -/
theorem srand_of_seek_hit (E : Env) (db : DB) (rnd : Byte) (o k : Bytes) (rest : List Bytes)
    (hafter : (db.NewIterator.Seek (randSetIterKey E o rnd)).after = k :: rest)
    (hk : setIterKey E o <+: k) :
    srand E db rnd o = Run.ok (some (k.drop (5 + uint32 o.length))) := by
  have hpast : pastKey (setIterKey E o) k = false := by
    simp [pastKey, List.isPrefixOf_iff_prefix.mpr hk]
  unfold srand
  simp only [take_randSetIterKey, Iterator.Valid, Iterator.Key, hafter, List.isEmpty_cons,
    Bool.not_false, Bool.not_true, Bool.false_eq_true, ↓reduceIte, List.headD_cons, hpast,
    parse_of_begins E o k hk]

/-! ## Owner keys whose length does not fit 32 bits -/

theorem wrapped_setIterKey (o : Bytes) (h0 : uint32 o.length = 0) :
    setIterKey demoEnv o = 4 :: (be32 0 ++ o) := by
  rw [setIterKey_eq, h0]; rfl

theorem wrapped_keys (o : Bytes) (h0 : uint32 o.length = 0) :
    (singletonOneDB o).keys = [0 :: o, setKey demoEnv o [1]] := by
  have hsk : setKey demoEnv o [1] = 4 :: (be32 0 ++ o ++ [1]) := by
    rw [setKey_eq, wrapped_setIterKey o h0]; simp
  have hmk : demoEnv.metaKey o = 0 :: o := rfl
  simp [DB.keys, singletonOneDB, hsk, hmk, insertKey, bytesLt]

theorem wrapped_scard (o : Bytes) : scard demoEnv (singletonOneDB o) o = (1, none) := by
  apply scard_of_record demoEnv _ o 1 (by decide) rfl
  simp [singletonOneDB, lookup]

theorem wrapped_not_key (o : Bytes) (h0 : uint32 o.length = 0) (hne : o ≠ []) :
    setKey demoEnv o (o ++ [1]) ∉ (singletonOneDB o).keys := by
  rw [wrapped_keys o h0]
  intro hmem
  rcases List.mem_cons.mp hmem with h | h
  · rw [setKey_eq, wrapped_setIterKey o h0] at h
    exact absurd (List.cons.inj h).1 (by decide)
  · rw [List.mem_singleton] at h
    have := setKey_cancel demoEnv o _ _ h
    have hl := congrArg List.length this
    simp only [List.length_append, List.length_singleton] at hl
    exact hne (List.length_eq_zero.mp (by omega))

theorem wrapped_srand (o : Bytes) (h0 : uint32 o.length = 0) :
    srand demoEnv (singletonOneDB o) 0 o = Run.ok (some (o ++ [1])) := by
  have hlt1 : bytesLt (0 :: o) (randSetIterKey demoEnv o 0) = true := by
    rw [randSetIterKey_eq, wrapped_setIterKey o h0]
    simp [bytesLt]
  have hlt2 : bytesLt (setKey demoEnv o [1]) (randSetIterKey demoEnv o 0) = false := by
    rw [randSetIterKey_eq, setKey_eq, bytesLt_append_left]
    rfl
  have hafter : ((singletonOneDB o).NewIterator.Seek (randSetIterKey demoEnv o 0)).after
      = [setKey demoEnv o [1]] := by
    rw [Seek_after, wrapped_keys o h0]
    simp [List.dropWhile, hlt1, hlt2]
  rw [srand_of_seek_hit demoEnv _ 0 o _ [] hafter
    (by rw [setKey_eq]; exact List.prefix_append _ _), h0, setKey_eq, wrapped_setIterKey o h0]
  simp [be32]

theorem wrapped_Spop (o : Bytes) (h0 : uint32 o.length = 0) :
    Spop demoEnv (singletonOneDB o) 0 o []
      = Run.ok (Reply.bytes (o ++ [1]),
          [Op.delete (setKey demoEnv o (o ++ [1])), Op.delete (demoEnv.metaKey o)]) := by
  unfold Spop
  simp only [wrapped_scard o, Nat.one_ne_zero, ↓reduceIte, wrapped_srand o h0,
    WriteBatch.Delete, List.nil_append, List.singleton_append]

theorem wrapped_after_Spop (o : Bytes) (h0 : uint32 o.length = 0) (hne : o ≠ []) :
    lookup (demoEnv.metaKey o) ((singletonOneDB o).Write
      [Op.delete (setKey demoEnv o (o ++ [1])), Op.delete (demoEnv.metaKey o)]).entries = none ∧
    setKey demoEnv o [1] ∈ ((singletonOneDB o).Write
      [Op.delete (setKey demoEnv o (o ++ [1])), Op.delete (demoEnv.metaKey o)]).keys := by
  have hbatch : [Op.delete (setKey demoEnv o (o ++ [1])), Op.delete (demoEnv.metaKey o)]
      = deleteEntries demoEnv o [o ++ [1]] ++ [Op.delete (demoEnv.metaKey o)] := rfl
  rw [hbatch]
  constructor
  · rw [lookup_Write_deletes_delete, if_pos rfl]
  · rw [mem_keys, lookup_Write_deletes_delete, if_neg (demoEnv_metaDisjoint o [1]), if_neg]
    · rw [← mem_keys, wrapped_keys o h0]
      exact List.mem_cons_of_mem _ (List.mem_singleton_self _)
    · rw [mem_map_setKey, List.mem_singleton]
      intro h
      have hl := congrArg List.length h
      simp only [List.length_append, List.length_singleton] at hl
      exact hne (List.length_eq_zero.mp (by omega))

theorem wrapped_members (o : Bytes) (h0 : uint32 o.length = 0) :
    members demoEnv (singletonOneDB o) o = {[1]} := by
  ext m
  simp only [members, Set.mem_setOf_eq, Set.mem_singleton_iff]
  rw [wrapped_keys o h0]
  constructor
  · intro hmem
    rcases List.mem_cons.mp hmem with h | h
    · rw [setKey_eq, wrapped_setIterKey o h0] at h
      exact absurd (List.cons.inj h).1 (by decide)
    · rw [List.mem_singleton] at h
      exact setKey_cancel demoEnv o _ _ h
  · rintro rfl
    exact List.mem_cons_of_mem _ (List.mem_singleton_self _)

theorem wrapped_consistent (o : Bytes) (h0 : uint32 o.length = 0) :
    Consistent demoEnv (singletonOneDB o) o :=
  Or.inr ⟨1, Nat.le_refl 1, wrapped_scard o, by
    rw [wrapped_members o h0, Set.ncard_singleton]⟩

theorem wrapped_inconsistent (o : Bytes) (h0 : uint32 o.length = 0) (hne : o ≠ []) :
    ¬ Consistent demoEnv ((singletonOneDB o).Write
      [Op.delete (setKey demoEnv o (o ++ [1])), Op.delete (demoEnv.metaKey o)]) o := by
  obtain ⟨hl, hk⟩ := wrapped_after_Spop o h0 hne
  rintro (⟨_, hno⟩ | ⟨n, hn, hc, _⟩)
  · exact hno [1] hk
  · have hz := scard_of_none demoEnv _ o (by rw [readFails_Write]; rfl) hl
    rw [hz] at hc
    have := (Prod.mk.inj hc).1
    omega

theorem wrapped_run (o : Bytes) (h0 : uint32 o.length = 0) (hne : o ≠ []) :
    scard demoEnv (singletonOneDB o) o = (1, none) ∧
    (members demoEnv (singletonOneDB o) o).ncard = 1 ∧
    ∃ db2, run demoEnv o (singletonOneDB o) [Call.spop 0] = Run.ok db2 ∧
      scard demoEnv db2 o = (0, none) ∧
      Sismember demoEnv db2 o [1] = Reply.int 1 := by
  obtain ⟨hl, hk⟩ := wrapped_after_Spop o h0 hne
  refine ⟨wrapped_scard o, by rw [wrapped_members o h0, Set.ncard_singleton],
    (singletonOneDB o).Write
      [Op.delete (setKey demoEnv o (o ++ [1])), Op.delete (demoEnv.metaKey o)], ?_, ?_, ?_⟩
  · simp only [run, step, wrapped_Spop o h0]
  · exact scard_of_none demoEnv _ o (by rw [readFails_Write]; rfl) hl
  · exact Sismember_of_mem demoEnv _ o [1] (by rw [readFails_Write]; rfl)
      ((mem_members demoEnv _ o [1]).mpr (by rw [← mem_keys]; exact hk))

/-- What a returning `Spop` has staged: nothing unless it returns a member, and then the
`Delete` of the entry of the member that `srand` chose, followed by one write of the metadata
key. -/
theorem Spop_cases (E : Env) (db : DB) (rnd : Byte) (o : Bytes) (wb wb2 : WriteBatch)
    (reply : Reply) (h : Spop E db rnd o wb = Run.ok (reply, wb2)) :
    (wb2 = wb ∧ ∀ m, reply ≠ Reply.bytes m) ∨
    (∃ m c, reply = Reply.bytes m ∧ srand E db rnd o = Run.ok (some m) ∧
      scard E db o = (c, none) ∧ c ≠ 0 ∧
      (wb2 = wb ++ [Op.delete (setKey E o m), Op.delete (E.metaKey o)] ∨
       ∃ v, wb2 = wb ++ [Op.delete (setKey E o m), Op.put (E.metaKey o) v])) := by
  unfold Spop at h
  split at h
  · simp only [Run.ok.injEq, Prod.mk.injEq] at h
    exact Or.inl ⟨h.2.symm, fun m hm => by rw [← h.1] at hm; cases hm⟩
  · rename_i card hcard
    split at h
    · simp only [Run.ok.injEq, Prod.mk.injEq] at h
      exact Or.inl ⟨h.2.symm, fun m hm => by rw [← h.1] at hm; cases hm⟩
    · rename_i hc0
      split at h
      · cases h
      · simp only [Run.ok.injEq, Prod.mk.injEq] at h
        exact Or.inl ⟨h.2.symm, fun m hm => by rw [← h.1] at hm; cases hm⟩
      · rename_i member hsrand
        split at h
        · simp only [Run.ok.injEq, Prod.mk.injEq] at h
          refine Or.inr ⟨member, card, h.1.symm, hsrand, hcard, hc0, Or.inl ?_⟩
          rw [← h.2]
          simp [WriteBatch.Delete]
        · simp only [Run.ok.injEq, Prod.mk.injEq] at h
          refine Or.inr ⟨member, card, h.1.symm, hsrand, hcard, hc0,
            Or.inr ⟨cardRecord E ((card + 2 ^ 32 - 1) % 2 ^ 32), ?_⟩⟩
          rw [← h.2, setCard_eq]
          simp [WriteBatch.Delete]

/-! ## Consistency and random selection: the claims -/

/-- C16, counterexample. For an owner key of `2^32` bytes the store holding its set `{[1]}`
with cardinality record 1 is consistent; `Spop` with the random byte 0 decodes the entry
with owner length 0, returns the owner key followed by `[1]` and stages the `Delete` of the
entry of that name and of the metadata key; after the commit the record is gone while the
entry of `[1]` remains: the store is not consistent. -/
theorem Spop_long_owner_inconsistent :
    Consistent demoEnv (singletonOneDB longOwner) longOwner ∧
    Spop demoEnv (singletonOneDB longOwner) 0 longOwner []
      = Run.ok (Reply.bytes (longOwner ++ [1]),
          [Op.delete (setKey demoEnv longOwner (longOwner ++ [1])),
            Op.delete (demoEnv.metaKey longOwner)]) ∧
    ¬ Consistent demoEnv ((singletonOneDB longOwner).Write
      [Op.delete (setKey demoEnv longOwner (longOwner ++ [1])),
        Op.delete (demoEnv.metaKey longOwner)]) longOwner :=
  ⟨wrapped_consistent (List.replicate (2 ^ 32) 0)
      (uint32_length_replicate (2 ^ 32) (Nat.mod_self _)),
    wrapped_Spop (List.replicate (2 ^ 32) 0)
      (uint32_length_replicate (2 ^ 32) (Nat.mod_self _)),
    wrapped_inconsistent (List.replicate (2 ^ 32) 0)
      (uint32_length_replicate (2 ^ 32) (Nat.mod_self _))
      (replicate_ne_nil (2 ^ 32) (Nat.pos_iff_ne_zero.mp (Nat.two_pow_pos 32)))⟩

/-- C16 (amended). Let the metadata key of the owner be none of its member-entry keys and all
reads succeed. On a store consistent for the owner, with cardinality `c`: for a member list
without repeated members whose length plus `c` is below `2^32`, the commit of the batch of
`Sadd` gives a consistent store of cardinality `c` plus the value returned; for a member list
without repeated members, the commit of the batch of `Srem` gives a consistent store of
cardinality `c` minus the value returned; and, when the owner key is shorter than `2^32`
bytes, for every random byte `Spop` returns, the commit of its batch gives a consistent store,
of cardinality `c` when it returns nil and `c - 1` when it returns a member. -/
theorem consistency_preserved (E : Env) (db : DB) (owner : Bytes)
    (hmeta : MetaDisjoint E owner) (hreads : ReadsSucceed db)
    (hcons : Consistent E db owner) :
    ∃ c, scard E db owner = (c, none) ∧
      (∀ ms, ms.Nodup → c + ms.length < 2 ^ 32 →
        ∃ r, (Sadd E db owner ms []).1 = Reply.uint32 r ∧
          Consistent E (db.Write (Sadd E db owner ms []).2) owner ∧
          scard E (db.Write (Sadd E db owner ms []).2) owner = (c + r, none)) ∧
      (∀ ms, ms.Nodup →
        ∃ r, (Srem E db owner ms []).1 = Reply.uint32 r ∧ r ≤ c ∧
          Consistent E (db.Write (Srem E db owner ms []).2) owner ∧
          scard E (db.Write (Srem E db owner ms []).2) owner = (c - r, none)) ∧
      (owner.length < 2 ^ 32 →
        ∀ rnd, ∃ reply wb, Spop E db rnd owner [] = Run.ok (reply, wb) ∧
        Consistent E (db.Write wb) owner ∧
        ((reply = Reply.nil ∧ scard E (db.Write wb) owner = (c, none)) ∨
         (∃ m, reply = Reply.bytes m ∧ 1 ≤ c ∧
            scard E (db.Write wb) owner = (c - 1, none)))) :=
  mutators_consistent E db owner hmeta hreads hcons

theorem fruitsDB_consistent : Consistent demoEnv fruitsDB fruits :=
  Or.inr ⟨1, Nat.le_refl 1, by decide, by
    rw [ncard_members]
    decide⟩

theorem consistency_preserved_witness :
    ∃ c, scard demoEnv fruitsDB fruits = (c, none) ∧
      (∀ ms, ms.Nodup → c + ms.length < 2 ^ 32 →
        ∃ r, (Sadd demoEnv fruitsDB fruits ms []).1 = Reply.uint32 r ∧
          Consistent demoEnv (fruitsDB.Write (Sadd demoEnv fruitsDB fruits ms []).2) fruits ∧
          scard demoEnv (fruitsDB.Write (Sadd demoEnv fruitsDB fruits ms []).2) fruits
            = (c + r, none)) ∧
      (∀ ms, ms.Nodup →
        ∃ r, (Srem demoEnv fruitsDB fruits ms []).1 = Reply.uint32 r ∧ r ≤ c ∧
          Consistent demoEnv (fruitsDB.Write (Srem demoEnv fruitsDB fruits ms []).2) fruits ∧
          scard demoEnv (fruitsDB.Write (Srem demoEnv fruitsDB fruits ms []).2) fruits
            = (c - r, none)) ∧
      (∀ rnd, ∃ reply wb, Spop demoEnv fruitsDB rnd fruits [] = Run.ok (reply, wb) ∧
        Consistent demoEnv (fruitsDB.Write wb) fruits ∧
        ((reply = Reply.nil ∧ scard demoEnv (fruitsDB.Write wb) fruits = (c, none)) ∨
         (∃ m, reply = Reply.bytes m ∧ 1 ≤ c ∧
            scard demoEnv (fruitsDB.Write wb) fruits = (c - 1, none)))) :=
  match consistency_preserved demoEnv fruitsDB fruits (demoEnv_metaDisjoint fruits)
    (fun _ => rfl) fruitsDB_consistent with
  | ⟨c, h1, h2, h3, h4⟩ => ⟨c, h1, h2, h3, h4 (by decide)⟩

/-- C19, counterexample. For an owner key of `2^32` bytes, on the store holding its set
`{[1]}`, `srand` with the random byte 0 returns the owner key followed by `[1]`, whose member
entry is no key of the store. -/
theorem srand_long_owner :
    srand demoEnv (singletonOneDB longOwner) 0 longOwner = Run.ok (some (longOwner ++ [1])) ∧
    setKey demoEnv longOwner (longOwner ++ [1]) ∉ (singletonOneDB longOwner).keys :=
  ⟨wrapped_srand (List.replicate (2 ^ 32) 0)
      (uint32_length_replicate (2 ^ 32) (Nat.mod_self _)),
    wrapped_not_key (List.replicate (2 ^ 32) 0)
      (uint32_length_replicate (2 ^ 32) (Nat.mod_self _))
      (replicate_ne_nil (2 ^ 32) (Nat.pos_iff_ne_zero.mp (Nat.two_pow_pos 32)))⟩

theorem srand_Spop_sound (E : Env) (db : DB) (rnd : Byte) (owner : Bytes)
    (hlen : owner.length < 2 ^ 32) :
    (∃ res, srand E db rnd owner = Run.ok res ∧
      ∀ m, res = some m →
        setKey E owner m ∈ db.keys ∧ setKey E owner m ∈ ownerKeys E db owner ∧
        ∀ o2 m2, o2.length < 2 ^ 32 → setKey E o2 m2 = setKey E owner m → o2 = owner) ∧
    (∀ wb reply wb2, Spop E db rnd owner wb = Run.ok (reply, wb2) →
      (wb2 = wb ∧ ∀ m, reply ≠ Reply.bytes m) ∨
      (∃ m w, reply = Reply.bytes m ∧ setKey E owner m ∈ db.keys ∧
        wb2 = wb ++ [Op.delete (setKey E owner m), w])) := by
  obtain ⟨res, hres, hsound⟩ := srand_sound E db rnd owner hlen
  constructor
  · refine ⟨res, hres, ?_⟩
    intro m hm
    have hk := hsound m hm
    refine ⟨hk, (mem_ownerKeys E db owner _).mpr
      ⟨hk, by rw [setKey_eq]; exact List.prefix_append _ _⟩, ?_⟩
    intro o2 m2 h2 heq
    exact (setKey_inj E o2 owner m2 m h2 hlen heq).1
  · intro wb reply wb2 h
    rcases Spop_cases E db rnd owner wb wb2 reply h with h1 | ⟨m, c, hr, hs, _, _, hw⟩
    · exact Or.inl h1
    · rw [hres] at hs
      have hm : res = some m := by
        simp only [Run.ok.injEq] at hs; exact hs
      rcases hw with hw | ⟨v, hw⟩
      · exact Or.inr ⟨m, _, hr, hsound m hm, hw⟩
      · exact Or.inr ⟨m, _, hr, hsound m hm, hw⟩

/-- C19 (amended). For an owner key shorter than `2^32` bytes, every store and every random
byte, `srand` returns without panic, and a member `m` it returns has its entry
`setKey owner m` among the keys of the store that begin with the iteration key of the owner,
an entry of no other owner (of a key shorter than `2^32` bytes); and a `Spop` that returns
either returns no member and leaves the batch as it was, or returns a member `m` whose entry
is a key of the store and has appended the `Delete` of that entry and one write of the
metadata key. The key of an iterator that is not valid is the empty byte string, which begins
with no iteration key. -/
theorem srand_spec (E : Env) (db : DB) (rnd : Byte) (owner : Bytes)
    (hlen : owner.length < 2 ^ 32) :
    (∃ res, srand E db rnd owner = Run.ok res ∧
      ∀ m, res = some m →
        setKey E owner m ∈ db.keys ∧ setKey E owner m ∈ ownerKeys E db owner ∧
        ∀ o2 m2, o2.length < 2 ^ 32 → setKey E o2 m2 = setKey E owner m → o2 = owner) ∧
    (∀ wb reply wb2, Spop E db rnd owner wb = Run.ok (reply, wb2) →
      (wb2 = wb ∧ ∀ m, reply ≠ Reply.bytes m) ∨
      (∃ m w, reply = Reply.bytes m ∧ setKey E owner m ∈ db.keys ∧
        wb2 = wb ++ [Op.delete (setKey E owner m), w])) :=
  srand_Spop_sound E db rnd owner hlen

theorem srand_spec_witness :
    (∃ res, srand demoEnv fruitsDB 0 fruits = Run.ok res ∧
      ∀ m, res = some m →
        setKey demoEnv fruits m ∈ fruitsDB.keys ∧
        setKey demoEnv fruits m ∈ ownerKeys demoEnv fruitsDB fruits ∧
        ∀ o2 m2, o2.length < 2 ^ 32 → setKey demoEnv o2 m2 = setKey demoEnv fruits m →
          o2 = fruits) ∧
    (∀ wb reply wb2, Spop demoEnv fruitsDB 0 fruits wb = Run.ok (reply, wb2) →
      (wb2 = wb ∧ ∀ m, reply ≠ Reply.bytes m) ∨
      (∃ m w, reply = Reply.bytes m ∧ setKey demoEnv fruits m ∈ fruitsDB.keys ∧
        wb2 = wb ++ [Op.delete (setKey demoEnv fruits m), w])) :=
  srand_spec demoEnv fruitsDB 0 fruits (by decide)

/-- On the store holding only `fruits = {"apple"}`, `srand` with the random byte 0 returns
`"apple"`. -/
theorem srand_fruits_zero : srand demoEnv fruitsDB 0 fruits = Run.ok (some apple) := by
  decide

/-! ## Owner isolation -/

theorem effect_of_untouched (k : Bytes) (wb : WriteBatch) (h : ∀ op ∈ wb, op.key ≠ k) :
    effect k wb = none := by
  induction wb with
  | nil => rfl
  | cons op rest ih =>
    have hrest := ih (fun op2 h2 => h op2 (List.mem_cons_of_mem _ h2))
    have hop := h op (List.mem_cons_self _ _)
    cases op with
    | put key value =>
      have hk : key ≠ k := hop
      simp only [effect, hrest, if_neg hk]
    | delete key =>
      have hk : key ≠ k := hop
      simp only [effect, hrest, if_neg hk]

theorem lookup_of_untouched (db : DB) (wb : WriteBatch) (k : Bytes)
    (h : ∀ op ∈ wb, op.key ≠ k) :
    lookup k (db.Write wb).entries = lookup k db.entries := by
  rw [lookup_Write, effect_of_untouched k wb h]
  rfl

theorem WritesOnly.nil (E : Env) (o : Bytes) : WritesOnly E o [] :=
  fun _ h => absurd h (List.not_mem_nil _)

theorem WritesOnly.append (E : Env) (o : Bytes) (wb1 wb2 : WriteBatch)
    (h1 : WritesOnly E o wb1) (h2 : WritesOnly E o wb2) : WritesOnly E o (wb1 ++ wb2) := by
  intro op hop
  rcases List.mem_append.mp hop with h | h
  · exact h1 op h
  · exact h2 op h

theorem WritesOnly.entry_put (E : Env) (o m v : Bytes) :
    WritesOnly E o [Op.put (setKey E o m) v] := by
  intro op hop
  rw [List.mem_singleton] at hop
  subst hop
  exact Or.inl ⟨m, rfl⟩

theorem WritesOnly.entry_delete (E : Env) (o m : Bytes) :
    WritesOnly E o [Op.delete (setKey E o m)] := by
  intro op hop
  rw [List.mem_singleton] at hop
  subst hop
  exact Or.inl ⟨m, rfl⟩

theorem WritesOnly.meta_put (E : Env) (o v : Bytes) :
    WritesOnly E o [Op.put (E.metaKey o) v] := by
  intro op hop
  rw [List.mem_singleton] at hop
  subst hop
  exact Or.inr rfl

theorem WritesOnly.meta_delete (E : Env) (o : Bytes) :
    WritesOnly E o [Op.delete (E.metaKey o)] := by
  intro op hop
  rw [List.mem_singleton] at hop
  subst hop
  exact Or.inr rfl

theorem Sadd_loop_writesOnly (E : Env) (db : DB) (o : Bytes) (ms : List Bytes) (n : Nat)
    (wb : WriteBatch) (h : WritesOnly E o wb) :
    WritesOnly E o (Sadd.loop E db o ms n wb).2.2 := by
  induction ms generalizing n wb with
  | nil => exact h
  | cons m rest ih =>
    unfold Sadd.loop
    simp only []
    split
    · exact h
    · exact ih n wb h
    · exact ih _ _ (WritesOnly.append E o _ _ h (WritesOnly.entry_put E o m []))

theorem Srem_loop_writesOnly (E : Env) (db : DB) (o : Bytes) (ms : List Bytes) (n : Nat)
    (wb : WriteBatch) (h : WritesOnly E o wb) :
    WritesOnly E o (Srem.loop E db o ms n wb).2.2 := by
  induction ms generalizing n wb with
  | nil => exact h
  | cons m rest ih =>
    unfold Srem.loop
    simp only []
    split
    · exact h
    · exact ih n wb h
    · exact ih _ _ (WritesOnly.append E o _ _ h (WritesOnly.entry_delete E o m))

theorem Sadd_writesOnly (E : Env) (db : DB) (o : Bytes) (ms : List Bytes) :
    WritesOnly E o (Sadd E db o ms []).2 := by
  have hl := Sadd_loop_writesOnly E db o ms 0 [] (WritesOnly.nil E o)
  unfold Sadd
  generalize Sadd.loop E db o ms 0 [] = r at hl
  obtain ⟨e, n, wb⟩ := r
  cases e with
  | some err => exact hl
  | none =>
    simp only []
    split
    · split
      · exact hl
      · rw [setCard_eq]
        exact WritesOnly.append E o _ _ hl (WritesOnly.meta_put E o _)
    · exact hl

theorem Srem_writesOnly (E : Env) (db : DB) (o : Bytes) (ms : List Bytes) :
    WritesOnly E o (Srem E db o ms []).2 := by
  have hl := Srem_loop_writesOnly E db o ms 0 [] (WritesOnly.nil E o)
  unfold Srem
  split
  · exact WritesOnly.nil E o
  · split
    · exact WritesOnly.nil E o
    · generalize Srem.loop E db o ms 0 [] = r at hl
      obtain ⟨e, n, wb⟩ := r
      cases e with
      | some err => exact hl
      | none =>
        simp only []
        split
        · exact WritesOnly.append E o _ _ hl (WritesOnly.meta_delete E o)
        · split
          · rw [setCard_eq]
            exact WritesOnly.append E o _ _ hl (WritesOnly.meta_put E o _)
          · exact hl

theorem Spop_writesOnly (E : Env) (db : DB) (rnd : Byte) (o : Bytes) (reply : Reply)
    (wb : WriteBatch) (h : Spop E db rnd o [] = Run.ok (reply, wb)) : WritesOnly E o wb := by
  rcases Spop_cases E db rnd o [] wb reply h with ⟨h1, _⟩ | ⟨m, c, _, _, _, _, hw⟩
  · rw [h1]
    exact WritesOnly.nil E o
  · rcases hw with hw | ⟨v, hw⟩
    · rw [hw]
      exact WritesOnly.append E o _ _ (WritesOnly.nil E o)
        (WritesOnly.append E o [_] [_] (WritesOnly.entry_delete E o m)
          (WritesOnly.meta_delete E o))
    · rw [hw]
      exact WritesOnly.append E o _ _ (WritesOnly.nil E o)
        (WritesOnly.append E o [_] [_] (WritesOnly.entry_delete E o m)
          (WritesOnly.meta_put E o v))

theorem Spop_returns (E : Env) (db : DB) (rnd : Byte) (o : Bytes) (wb : WriteBatch)
    (hlen : o.length < 2 ^ 32) : ∃ r, Spop E db rnd o wb = Run.ok r := by
  obtain ⟨res, hres, _⟩ := srand_sound E db rnd o hlen
  unfold Spop
  rw [hres]
  split
  · exact ⟨_, rfl⟩
  · split
    · exact ⟨_, rfl⟩
    · cases res with
      | none => exact ⟨_, rfl⟩
      | some m =>
        simp only []
        split
        · exact ⟨_, rfl⟩
        · exact ⟨_, rfl⟩

theorem DelSet_entries_only (E : Env) (db : DB) (o : Bytes) :
    ∀ op ∈ DelSet E db o [], ∃ m, op.key = setKey E o m := by
  intro op hop
  rw [DelSet_eq, List.nil_append, List.mem_map] at hop
  obtain ⟨k, hk, rfl⟩ := hop
  obtain ⟨t, ht⟩ := ((mem_ownerKeys E db o k).mp hk).2
  exact ⟨t, by rw [setKey_eq, ht]; rfl⟩

theorem DelSet_writesOnly (E : Env) (db : DB) (o : Bytes) :
    WritesOnly E o (DelSet E db o []) :=
  fun op hop => Or.inl (DelSet_entries_only E db o op hop)

theorem Sismember_congr (E : Env) (db1 db2 : DB) (o m : Bytes)
    (hr : db1.readFails (setKey E o m) = db2.readFails (setKey E o m))
    (hl : lookup (setKey E o m) db1.entries = lookup (setKey E o m) db2.entries) :
    Sismember E db1 o m = Sismember E db2 o m := by
  have : db1.Get (setKey E o m) = db2.Get (setKey E o m) := by
    simp [DB.Get, hr, hl]
  unfold Sismember
  rw [this]

theorem isolated_of_writesOnly (E : Env) (db : DB) (a b : Bytes) (wb : WriteBatch)
    (hab : a ≠ b) (ha : a.length < 2 ^ 32) (hb : b.length < 2 ^ 32)
    (hinj : Function.Injective E.metaKey) (hdisj : ∀ o o2 m, E.metaKey o ≠ setKey E o2 m)
    (h : WritesOnly E a wb) :
    (∀ m, lookup (setKey E b m) (db.Write wb).entries = lookup (setKey E b m) db.entries ∧
      Sismember E (db.Write wb) b m = Sismember E db b m) ∧
    scard E (db.Write wb) b = scard E db b := by
  have hentry : ∀ m, lookup (setKey E b m) (db.Write wb).entries
      = lookup (setKey E b m) db.entries := by
    intro m
    apply lookup_of_untouched
    intro op hop heq
    rcases h op hop with ⟨m2, h2⟩ | h2
    · rw [h2] at heq
      exact hab (setKey_inj E a b m2 m ha hb heq).1
    · rw [h2] at heq
      exact hdisj a b m heq
  have hmeta : lookup (E.metaKey b) (db.Write wb).entries = lookup (E.metaKey b) db.entries := by
    apply lookup_of_untouched
    intro op hop heq
    rcases h op hop with ⟨m2, h2⟩ | h2
    · rw [h2] at heq
      exact hdisj b a m2 heq.symm
    · rw [h2] at heq
      exact hab (hinj heq)
  refine ⟨fun m => ⟨hentry m, ?_⟩, ?_⟩
  · exact Sismember_congr E _ _ b m (by rw [readFails_Write]) (hentry m)
  · exact scard_congr E _ _ b (by rw [readFails_Write]) hmeta

theorem isolation_all (E : Env) (db : DB) (a b : Bytes)
    (hab : a ≠ b) (ha : a.length < 2 ^ 32) (hb : b.length < 2 ^ 32)
    (hinj : Function.Injective E.metaKey) (hdisj : ∀ o o2 m, E.metaKey o ≠ setKey E o2 m) :
    (∀ ms,
      (∀ m, lookup (setKey E b m) (db.Write (Sadd E db a ms []).2).entries
          = lookup (setKey E b m) db.entries ∧
        Sismember E (db.Write (Sadd E db a ms []).2) b m = Sismember E db b m) ∧
      scard E (db.Write (Sadd E db a ms []).2) b = scard E db b) ∧
    (∀ ms,
      (∀ m, lookup (setKey E b m) (db.Write (Srem E db a ms []).2).entries
          = lookup (setKey E b m) db.entries ∧
        Sismember E (db.Write (Srem E db a ms []).2) b m = Sismember E db b m) ∧
      scard E (db.Write (Srem E db a ms []).2) b = scard E db b) ∧
    (∀ rnd, ∃ reply wb, Spop E db rnd a [] = Run.ok (reply, wb) ∧
      (∀ m, lookup (setKey E b m) (db.Write wb).entries = lookup (setKey E b m) db.entries ∧
        Sismember E (db.Write wb) b m = Sismember E db b m) ∧
      scard E (db.Write wb) b = scard E db b) ∧
    ((∀ m, lookup (setKey E b m) (db.Write (DelSet E db a [])).entries
          = lookup (setKey E b m) db.entries ∧
        Sismember E (db.Write (DelSet E db a [])) b m = Sismember E db b m) ∧
      scard E (db.Write (DelSet E db a [])) b = scard E db b) := by
  refine ⟨fun ms => ?_, fun ms => ?_, fun rnd => ?_, ?_⟩
  · exact isolated_of_writesOnly E db a b _ hab ha hb hinj hdisj (Sadd_writesOnly E db a ms)
  · exact isolated_of_writesOnly E db a b _ hab ha hb hinj hdisj (Srem_writesOnly E db a ms)
  · obtain ⟨⟨reply, wb⟩, hr⟩ := Spop_returns E db rnd a [] ha
    exact ⟨reply, wb, hr, isolated_of_writesOnly E db a b _ hab ha hb hinj hdisj
      (Spop_writesOnly E db rnd a reply wb hr)⟩
  · exact isolated_of_writesOnly E db a b _ hab ha hb hinj hdisj (DelSet_writesOnly E db a)

theorem demoEnv_metaKey_injective : Function.Injective demoEnv.metaKey :=
  fun _ _ h => (List.cons.inj h).2

theorem demoEnv_metaKey_disjoint (o o2 m : Bytes) : demoEnv.metaKey o ≠ setKey demoEnv o2 m := by
  intro h
  rw [setKey_eq, setIterKey_eq] at h
  exact absurd (List.cons.inj h).1 (by decide)

/-- C18. Owner isolation: let `a` and `b` be distinct owner keys, each shorter than `2^32`
bytes, and let `metaKey` be injective and never the key of a member entry. On every store,
for every member list and every random byte, the commit of the batch staged by `Sadd`,
`Srem`, `Spop` (which returns without panic) or `DelSet` called on `a` leaves the record under
every member-entry key of `b` as it was, so `Sismember b m` gives the same reply before and
after for every `m`, and `scard b` gives the same result before and after. -/
theorem owner_isolation (E : Env) (db : DB) (a b : Bytes)
    (hab : a ≠ b) (ha : a.length < 2 ^ 32) (hb : b.length < 2 ^ 32)
    (hinj : Function.Injective E.metaKey) (hdisj : ∀ o o2 m, E.metaKey o ≠ setKey E o2 m) :
    (∀ ms,
      (∀ m, lookup (setKey E b m) (db.Write (Sadd E db a ms []).2).entries
          = lookup (setKey E b m) db.entries ∧
        Sismember E (db.Write (Sadd E db a ms []).2) b m = Sismember E db b m) ∧
      scard E (db.Write (Sadd E db a ms []).2) b = scard E db b) ∧
    (∀ ms,
      (∀ m, lookup (setKey E b m) (db.Write (Srem E db a ms []).2).entries
          = lookup (setKey E b m) db.entries ∧
        Sismember E (db.Write (Srem E db a ms []).2) b m = Sismember E db b m) ∧
      scard E (db.Write (Srem E db a ms []).2) b = scard E db b) ∧
    (∀ rnd, ∃ reply wb, Spop E db rnd a [] = Run.ok (reply, wb) ∧
      (∀ m, lookup (setKey E b m) (db.Write wb).entries = lookup (setKey E b m) db.entries ∧
        Sismember E (db.Write wb) b m = Sismember E db b m) ∧
      scard E (db.Write wb) b = scard E db b) ∧
    ((∀ m, lookup (setKey E b m) (db.Write (DelSet E db a [])).entries
          = lookup (setKey E b m) db.entries ∧
        Sismember E (db.Write (DelSet E db a [])) b m = Sismember E db b m) ∧
      scard E (db.Write (DelSet E db a [])) b = scard E db b) :=
  isolation_all E db a b hab ha hb hinj hdisj

theorem owner_isolation_witness :
    (∀ ms,
      (∀ m, lookup (setKey demoEnv herbs m)
            (gardenDB.Write (Sadd demoEnv gardenDB fruits ms []).2).entries
          = lookup (setKey demoEnv herbs m) gardenDB.entries ∧
        Sismember demoEnv (gardenDB.Write (Sadd demoEnv gardenDB fruits ms []).2) herbs m
          = Sismember demoEnv gardenDB herbs m) ∧
      scard demoEnv (gardenDB.Write (Sadd demoEnv gardenDB fruits ms []).2) herbs
        = scard demoEnv gardenDB herbs) ∧
    (∀ ms,
      (∀ m, lookup (setKey demoEnv herbs m)
            (gardenDB.Write (Srem demoEnv gardenDB fruits ms []).2).entries
          = lookup (setKey demoEnv herbs m) gardenDB.entries ∧
        Sismember demoEnv (gardenDB.Write (Srem demoEnv gardenDB fruits ms []).2) herbs m
          = Sismember demoEnv gardenDB herbs m) ∧
      scard demoEnv (gardenDB.Write (Srem demoEnv gardenDB fruits ms []).2) herbs
        = scard demoEnv gardenDB herbs) ∧
    (∀ rnd, ∃ reply wb, Spop demoEnv gardenDB rnd fruits [] = Run.ok (reply, wb) ∧
      (∀ m, lookup (setKey demoEnv herbs m) (gardenDB.Write wb).entries
          = lookup (setKey demoEnv herbs m) gardenDB.entries ∧
        Sismember demoEnv (gardenDB.Write wb) herbs m = Sismember demoEnv gardenDB herbs m) ∧
      scard demoEnv (gardenDB.Write wb) herbs = scard demoEnv gardenDB herbs) ∧
    ((∀ m, lookup (setKey demoEnv herbs m)
            (gardenDB.Write (DelSet demoEnv gardenDB fruits [])).entries
          = lookup (setKey demoEnv herbs m) gardenDB.entries ∧
        Sismember demoEnv (gardenDB.Write (DelSet demoEnv gardenDB fruits [])) herbs m
          = Sismember demoEnv gardenDB herbs m) ∧
      scard demoEnv (gardenDB.Write (DelSet demoEnv gardenDB fruits [])) herbs
        = scard demoEnv gardenDB herbs) :=
  owner_isolation demoEnv gardenDB fruits herbs (by decide) (by decide) (by decide)
    demoEnv_metaKey_injective demoEnv_metaKey_disjoint

/-! ## Sequences of calls on a long owner key -/

/-- C1, counterexample. For an owner key of `2^32` bytes, start from the store holding its set
`{[1]}` with cardinality record 1, where `scard` returns the number of member entries. The
sequence of the one call `Spop` with the random byte 0 runs without panic; in the store it
leaves `scard` returns 0 while `Sismember` still returns 1 for the member `[1]`. -/
theorem Spop_long_owner_breaks_cardinality :
    scard demoEnv (singletonOneDB longOwner) longOwner = (1, none) ∧
    (members demoEnv (singletonOneDB longOwner) longOwner).ncard = 1 ∧
    ∃ db2, run demoEnv longOwner (singletonOneDB longOwner) [Call.spop 0] = Run.ok db2 ∧
      scard demoEnv db2 longOwner = (0, none) ∧
      Sismember demoEnv db2 longOwner [1] = Reply.int 1 :=
  wrapped_run (List.replicate (2 ^ 32) 0)
    (uint32_length_replicate (2 ^ 32) (Nat.mod_self _))
    (replicate_ne_nil (2 ^ 32) (Nat.pos_iff_ne_zero.mp (Nat.two_pow_pos 32)))

end SetDB
